import Mathlib

/-!
Verification development for the iris compiler front end (Rust).

The repository contains a lexer, a recursive-descent parser with
precedence climbing, a typechecking pass, an AST simplification pass
(constant folding and algebraic identities), a lowering pass from the
tree-shaped HIR to a basic-block MIR, a CFG analysis and an SSA pass
computing dominators.  Each Rust component used below is embedded as a
Lean definition; theorems at the end settle the specification claims.

Conventions:
- Rust `usize` indices become `Nat`; arenas and vectors become `List`s.
- Rust `f64` is treated as an abstract carrier type `num` together with
  a record of the operations the code performs on it (`NumOps`); both
  the folding pass and the reference interpreter use the same carrier,
  so every theorem below holds for any carrier, in particular for the
  IEEE doubles the Rust code computes with.
- Rust `HashMap`s keyed by dense indices become index-addressed lists;
  `HashSet<BlockId>` becomes `Finset Nat`.
- A Rust panic (`unwrap`, `unreachable!`, slice out of bounds) is
  modelled by `Option`/`Except` failure of the embedded function.
-/

set_option maxHeartbeats 1000000

namespace Iris

/-- Token types of the language (lexer.rs, `TokenType`). -/
inductive TokenType where
  | eof
  | fnKw | externKw | ifKw | elseKw | thenKw | forKw | inKw | whileKw | returnKw | varKw
  | f8Type | f16Type | f32Type | f64Type
  | identifier | number
  | lparen | rparen | lbrace | rbrace | comma | semicolon | colon
  | plus | minus | star | slash | less | greater | assign | bang | pipe
  | ampersand | caret | percent | dollar | atSign | tilde
  | equal | notEqual | lessEqual | greaterEqual | andOp | orOp | arrow
  deriving DecidableEq, Repr

/-- A single token with its type, lexeme, and source location (lexer.rs, `Token`). -/
structure Token where
  tag : TokenType
  lexeme : String
  row : Nat
  column : Nat
  deriving DecidableEq, Repr

namespace Mir

/-- MIR opcodes (mir/mod.rs, `Opcode`). -/
inductive Opcode where
  | add | sub | mul | div | mod | copy | call
  | eq | ne | lt | le | gt | ge
  deriving DecidableEq, Repr

/-- MIR types (mir/mod.rs, `MirType`). -/
inductive MirType where
  | f8 | f16 | f32 | f64
  | i1 | i8 | i16 | i32 | i64
  | void
  deriving DecidableEq, Repr

/-- Registers are dense indices (mir/mod.rs, `pub type Reg = usize`). -/
abbrev Reg := Nat

/-- Block identifiers are arena indices (mir/mod.rs, `BlockId`). -/
abbrev BlockId := Nat

/-- MIR operands (mir/mod.rs, `Operand`), over the abstract f64 carrier `num`. -/
inductive Operand (num : Type) where
  | reg (r : Reg)
  | immI64 (v : Int)
  | immF64 (v : num)
  | immBool (b : Bool)
  | label (name : String)
  deriving DecidableEq, Repr

/-- Three-address instruction (mir/mod.rs, `Instruction`). -/
structure Instruction (num : Type) where
  dest : Reg
  op : Opcode
  typ : MirType
  args : List (Operand num)
  deriving DecidableEq, Repr

/-- Block terminators (mir/mod.rs, `Terminator`). -/
inductive Terminator (num : Type) where
  | br (target : BlockId)
  | brIf (cond : Operand num) (thenBb : BlockId) (elseBb : BlockId)
  | ret (value : Option (Operand num))
  | unreachable
  deriving DecidableEq, Repr

/-- A basic block (constructed in lowering.rs with `instructions`,
`terminator`, `phi_nodes`; the copy of mir/mod.rs in the tree predates the
`phi_nodes` field, which the lowering constructor sites require). -/
structure BasicBlock (num : Type) where
  instructions : List (Instruction num)
  terminator : Terminator num
  phiNodes : List (Instruction num)
  deriving DecidableEq, Repr

/-- A MIR function with its block arena (mir/mod.rs, `MirFunction`);
the arena is an append-only vector of blocks indexed by `BlockId`. -/
structure MirFunction (num : Type) where
  name : String
  params : List (Reg × MirType)
  returnType : MirType
  arena : List (BasicBlock num)
  entry : BlockId
  deriving DecidableEq, Repr

/-- Allocate a block at the end of the arena (mir/mod.rs, `BlockArena::alloc`). -/
def MirFunction.allocBlock {num : Type} (f : MirFunction num) (b : BasicBlock num) :
    MirFunction num × BlockId :=
  ({ f with arena := f.arena ++ [b] }, f.arena.length)

/-- Fresh `MirFunction` with an `Unreachable`-terminated entry block
(mir/mod.rs, `MirFunction::new`). -/
def MirFunction.new (num : Type) (name : String) (params : List (Reg × MirType))
    (returnType : MirType) : MirFunction num :=
  { name := name
    params := params
    returnType := returnType
    arena := [{ instructions := [], terminator := Terminator.unreachable, phiNodes := [] }]
    entry := 0 }

/-- A MIR program (mir/mod.rs, `MirProgram`). -/
structure MirProgram (num : Type) where
  functions : List (MirFunction num)
  deriving DecidableEq, Repr

/-- Result of CFG analysis (mir/cfg.rs, `CFGAnalysis`): predecessor and
successor lists indexed by `BlockId`. -/
structure CFGAnalysis where
  entry : BlockId
  predecessors : List (List BlockId)
  successors : List (List BlockId)
  deriving DecidableEq, Repr

/-- The edge-collection loop of `CFGAnalysis::new`: one pass over the
blocks inspecting each terminator.  `none` models the `unwrap` panic when a
terminator names a block outside the arena. -/
def cfgEdges {num : Type} (n : Nat) :
    List (Nat × BasicBlock num) → List (List BlockId) → List (List BlockId) →
    Option (List (List BlockId) × List (List BlockId))
  | [], preds, succs => some (preds, succs)
  | (i, b) :: rest, preds, succs =>
    match b.terminator with
    | Terminator.br t =>
        if t < n then
          cfgEdges n rest (preds.set t (preds.getD t [] ++ [i]))
            (succs.set i (succs.getD i [] ++ [t]))
        else
          none
    | Terminator.brIf _ tb eb =>
        if tb < n ∧ eb < n then
          cfgEdges n rest
            ((preds.set tb (preds.getD tb [] ++ [i])).set eb
              ((preds.set tb (preds.getD tb [] ++ [i])).getD eb [] ++ [i]))
            (succs.set i (succs.getD i [] ++ [tb, eb]))
        else
          none
    | _ => cfgEdges n rest preds succs

/-- CFG construction (mir/cfg.rs, `CFGAnalysis::new`): initialise empty edge
lists for every block, then collect edges from the terminators. -/
def cfgNew {num : Type} (f : MirFunction num) : Option CFGAnalysis :=
  let n := f.arena.length
  (cfgEdges n f.arena.enum (List.replicate n []) (List.replicate n [])).map
    fun ps => { entry := f.entry, predecessors := ps.1, successors := ps.2 }

/-- Intersection of the dominator sets of the predecessors, seeded at the
first predecessor (ssa.rs, the `inter` computation with `retain`). -/
def interFold (dom : List (Finset Nat)) (p0 : Nat) (rest : List Nat) : Finset Nat :=
  rest.foldl (fun acc p => acc ∩ dom.getD p ∅) (dom.getD p0 ∅)

/-- One node update of the dominator fixpoint loop (ssa.rs, the body of the
inner `for` loop): skip the entry and predecessor-less nodes, otherwise
recompute `{n} ∪ ⋂ dom(p)` and record whether it changed. -/
def updateNode (entry : Nat) (preds : List (List Nat))
    (st : List (Finset Nat) × Bool) (node : Nat) : List (Finset Nat) × Bool :=
  if node = entry then st
  else
    match preds.getD node [] with
    | [] => st
    | p0 :: rest =>
      if insert node (interFold st.1 p0 rest) = st.1.getD node ∅ then st
      else (st.1.set node (insert node (interFold st.1 p0 rest)), true)

/-- One full pass of the dominator loop over all blocks in arena order. -/
def onePass (n : Nat) (entry : Nat) (preds : List (List Nat))
    (dom : List (Finset Nat)) : List (Finset Nat) × Bool :=
  (List.range n).foldl (updateNode entry preds) (dom, false)

/-- The outer `loop` of `compute_dominators`, run with explicit fuel; the
fuel used below is proven sufficient (each changing pass strictly shrinks
the total size of the dominator sets). -/
def domIter (n : Nat) (entry : Nat) (preds : List (List Nat)) :
    Nat → List (Finset Nat) → List (Finset Nat)
  | 0, dom => dom
  | fuel + 1, dom =>
    let r := onePass n entry preds dom
    if r.2 then domIter n entry preds fuel r.1 else r.1

/-- Total number of elements over all dominator sets; the termination
measure of the fixpoint loop. -/
def domMeasure (dom : List (Finset Nat)) : Nat :=
  (dom.map Finset.card).sum

/-- Iterative data-flow dominator computation (ssa.rs,
`MirSSAPass::compute_dominators`): `dom(entry) = {entry}`, every other node
starts at the full block set, then iterate node updates to a fixpoint. -/
def computeDominators {num : Type} (f : MirFunction num) (cfg : CFGAnalysis) :
    List (Finset Nat) :=
  let n := f.arena.length
  let dom0 := (List.range n).map
    (fun i => if i = f.entry then {f.entry} else Finset.range n)
  domIter n f.entry cfg.predecessors (domMeasure dom0 + 1) dom0

/-- Well-formedness of the predecessor lists used by the dominator loop:
one list per arena block, every recorded predecessor is an arena block. -/
def PredsOk (n : Nat) (preds : List (List Nat)) : Prop :=
  preds.length = n ∧ ∀ i, ∀ p ∈ preds.getD i [], p < n

/-- Invariant of the dominator data-flow loop. -/
structure DomInv (n entry : Nat) (preds : List (List Nat))
    (dom : List (Finset Nat)) : Prop where
  len : dom.length = n
  bounded : ∀ j, dom.getD j ∅ ⊆ Finset.range n
  entryEq : dom.getD entry ∅ = {entry}
  selfMem : ∀ i < n, i ∈ dom.getD i ∅
  entryMem : ∀ i < n, entry ∈ dom.getD i ∅
  pre : ∀ i < n, i ≠ entry → ∀ p0 rest, preds.getD i [] = p0 :: rest →
    insert i (interFold dom p0 rest) ⊆ dom.getD i ∅

theorem getD_set_self {α : Type} (l : List α) (i : Nat) (a d : α) (h : i < l.length) :
    (l.set i a).getD i d = a := by
  induction l generalizing i with
  | nil => simp at h
  | cons x xs ih =>
    cases i with
    | zero => rfl
    | succ j => simpa using ih j (by simpa using h)

theorem getD_set_ne {α : Type} (l : List α) (i j : Nat) (a d : α) (h : i ≠ j) :
    (l.set i a).getD j d = l.getD j d := by
  induction l generalizing i j with
  | nil => simp [List.set]
  | cons x xs ih =>
    cases i with
    | zero =>
      cases j with
      | zero => exact absurd rfl h
      | succ k => rfl
    | succ i0 =>
      cases j with
      | zero => rfl
      | succ k => simpa using ih i0 k (by omega)

theorem getD_len_le {α : Type} (l : List α) (j : Nat) (d : α) (h : l.length ≤ j) :
    l.getD j d = d := by
  induction l generalizing j with
  | nil => simp [List.getD]
  | cons x xs ih =>
    cases j with
    | zero => simp at h
    | succ k => simpa using ih k (by simpa using h)

theorem domMeasure_set (dom : List (Finset Nat)) (x : Nat) (s : Finset Nat)
    (h : x < dom.length) :
    domMeasure (dom.set x s) + (dom.getD x ∅).card = domMeasure dom + s.card := by
  induction dom generalizing x with
  | nil => simp at h
  | cons a rest ih =>
    cases x with
    | zero => simp [domMeasure]; omega
    | succ x0 =>
      have hset : (a :: rest).set (x0 + 1) s = a :: rest.set x0 s := rfl
      have hget : (a :: rest).getD (x0 + 1) ∅ = rest.getD x0 ∅ := rfl
      have ih0 := ih x0 (by simpa using h)
      rw [hset, hget]
      simp only [domMeasure, List.map, List.sum_cons] at *
      omega

theorem interFold_subset_left (dom : List (Finset Nat)) (p0 : Nat) (rest : List Nat) :
    interFold dom p0 rest ⊆ dom.getD p0 ∅ := by
  suffices h : ∀ (l : List Nat) (acc : Finset Nat),
      l.foldl (fun acc p => acc ∩ dom.getD p ∅) acc ⊆ acc by
    exact h rest _
  intro l
  induction l with
  | nil => intro acc; exact fun a ha => ha
  | cons p ps ih =>
    intro acc
    exact fun a ha => (Finset.inter_subset_left) (ih (acc ∩ dom.getD p ∅) ha)

theorem interFold_mem_iff (dom : List (Finset Nat)) (p0 : Nat) (rest : List Nat)
    (a : Nat) :
    a ∈ interFold dom p0 rest ↔ ∀ p ∈ p0 :: rest, a ∈ dom.getD p ∅ := by
  have h : ∀ (l : List Nat) (acc : Finset Nat),
      a ∈ l.foldl (fun acc p => acc ∩ dom.getD p ∅) acc ↔
        a ∈ acc ∧ ∀ p ∈ l, a ∈ dom.getD p ∅ := by
    intro l
    induction l with
    | nil => intro acc; simp
    | cons p ps ih =>
      intro acc
      rw [List.foldl_cons, ih]
      simp only [Finset.mem_inter]
      constructor
      · rintro ⟨⟨h1, h2⟩, h3⟩
        refine ⟨h1, ?_⟩
        intro q hq
        rcases List.mem_cons.1 hq with hq1 | hq1
        · exact hq1 ▸ h2
        · exact h3 q hq1
      · rintro ⟨h1, h2⟩
        exact ⟨⟨h1, h2 p (List.mem_cons_self p ps)⟩,
          fun q hq => h2 q (List.mem_cons_of_mem p hq)⟩
  rw [interFold, h rest (dom.getD p0 ∅)]
  constructor
  · rintro ⟨h1, h2⟩ q hq
    rcases List.mem_cons.1 hq with hq1 | hq1
    · exact hq1 ▸ h1
    · exact h2 q hq1
  · intro hall
    exact ⟨hall p0 (List.mem_cons_self p0 rest),
      fun q hq => hall q (List.mem_cons_of_mem p0 hq)⟩

theorem interFold_mono (dom1 dom2 : List (Finset Nat))
    (h : ∀ j, dom1.getD j ∅ ⊆ dom2.getD j ∅) (p0 : Nat) (rest : List Nat) :
    interFold dom1 p0 rest ⊆ interFold dom2 p0 rest := by
  intro a ha
  rw [interFold_mem_iff] at ha ⊢
  exact fun p hp => h p (ha p hp)

/-- A single node update preserves the invariant, never grows the measure,
and sets the changed flag only when the measure strictly shrinks. -/
theorem updateNode_step (n entry : Nat) (preds : List (List Nat))
    (dom : List (Finset Nat)) (b : Bool) (x : Nat)
    (hp : PredsOk n preds) (hinv : DomInv n entry preds dom) :
    DomInv n entry preds (updateNode entry preds (dom, b) x).1 ∧
      domMeasure (updateNode entry preds (dom, b) x).1 ≤ domMeasure dom ∧
      ((updateNode entry preds (dom, b) x).2 = true →
        b = true ∨ domMeasure (updateNode entry preds (dom, b) x).1 < domMeasure dom) := by
  unfold updateNode
  split
  · exact And.intro hinv (And.intro le_rfl (fun hb => Or.inl hb))
  · rename_i hxe
    split
    · exact And.intro hinv (And.intro le_rfl (fun hb => Or.inl hb))
    · rename_i p0 rest hps
      by_cases heq : insert x (interFold dom p0 rest) = dom.getD x ∅
      · rw [if_pos heq]
        exact And.intro hinv (And.intro le_rfl (fun hb => Or.inl hb))
      · rw [if_neg heq]
        -- the changing branch: the node is a real block and the new set shrinks
        have hxn : x < n := by
          by_contra hxn
          have hlen : preds.length ≤ x := by
            have := hp.1
            omega
          rw [getD_len_le preds x [] hlen] at hps
          exact List.noConfusion hps
        have hsub : insert x (interFold dom p0 rest) ⊆ dom.getD x ∅ :=
          hinv.pre x hxn hxe p0 rest hps
        have hss : insert x (interFold dom p0 rest) ⊂ dom.getD x ∅ :=
          (Finset.ssubset_iff_subset_ne).2 ⟨hsub, heq⟩
        have hcard : (insert x (interFold dom p0 rest)).card < (dom.getD x ∅).card :=
          Finset.card_lt_card hss
        have hxlen : x < dom.length := by rw [hinv.len]; exact hxn
        have hms := domMeasure_set dom x (insert x (interFold dom p0 rest)) hxlen
        have hmlt : domMeasure (dom.set x (insert x (interFold dom p0 rest))) <
            domMeasure dom := by omega
        have hpointwise : ∀ j,
            (dom.set x (insert x (interFold dom p0 rest))).getD j ∅ ⊆ dom.getD j ∅ := by
          intro j
          by_cases hj : x = j
          · subst hj
            rw [getD_set_self dom x _ ∅ hxlen]
            exact hsub
          · rw [getD_set_ne dom x j _ ∅ hj]
        refine ⟨?_, le_of_lt hmlt, fun _ => Or.inr hmlt⟩
        constructor
        · simpa using hinv.len
        · intro j
          exact (hpointwise j).trans (hinv.bounded j)
        · rw [getD_set_ne dom x entry _ ∅ hxe]
          exact hinv.entryEq
        · intro i hi
          by_cases hix : x = i
          · subst hix
            rw [getD_set_self dom x _ ∅ hxlen]
            exact Finset.mem_insert_self x _
          · rw [getD_set_ne dom x i _ ∅ hix]
            exact hinv.selfMem i hi
        · intro i hi
          by_cases hix : x = i
          · subst hix
            rw [getD_set_self dom x _ ∅ hxlen]
            refine Finset.mem_insert_of_mem ?_
            rw [interFold_mem_iff]
            intro p hpmem
            have hpn : p < n := hp.2 x p (hps ▸ hpmem)
            exact hinv.entryMem p hpn
          · rw [getD_set_ne dom x i _ ∅ hix]
            exact hinv.entryMem i hi
        · intro i hi hie q0 qrest hqs
          have hmono := interFold_mono _ dom hpointwise q0 qrest
          by_cases hix : x = i
          · subst hix
            rw [getD_set_self dom x _ ∅ hxlen]
            intro a ha
            rcases Finset.mem_insert.1 ha with rfl | h1
            · exact Finset.mem_insert_self a _
            · rw [hps] at hqs
              injection hqs with hq0 hq1
              subst hq0; subst hq1
              exact Finset.mem_insert_of_mem (hmono h1)
          · rw [getD_set_ne dom x i _ ∅ hix]
            intro a ha
            rcases Finset.mem_insert.1 ha with rfl | h1
            · exact hinv.selfMem a hi
            · exact hinv.pre i hi hie q0 qrest hqs
                (Finset.mem_insert_of_mem (hmono h1))

theorem updateNode_flag (entry : Nat) (preds : List (List Nat))
    (st : List (Finset Nat) × Bool) (x : Nat) :
    updateNode entry preds st x = st ∨ (updateNode entry preds st x).2 = true := by
  unfold updateNode
  split
  · exact Or.inl rfl
  · split
    · exact Or.inl rfl
    · split
      · exact Or.inl rfl
      · exact Or.inr rfl

theorem updateNode_nochange (entry : Nat) (preds : List (List Nat))
    (st : List (Finset Nat) × Bool) (x : Nat)
    (h : (updateNode entry preds st x).2 = false) :
    updateNode entry preds st x = st := by
  rcases updateNode_flag entry preds st x with h1 | h1
  · exact h1
  · rw [h1] at h
    exact Bool.noConfusion h

theorem foldl_update_inv (n entry : Nat) (preds : List (List Nat))
    (hp : PredsOk n preds) :
    ∀ (l : List Nat) (dom : List (Finset Nat)) (b : Bool), DomInv n entry preds dom →
      DomInv n entry preds (l.foldl (updateNode entry preds) (dom, b)).1 ∧
        domMeasure (l.foldl (updateNode entry preds) (dom, b)).1 ≤ domMeasure dom ∧
        ((l.foldl (updateNode entry preds) (dom, b)).2 = true →
          b = true ∨ domMeasure (l.foldl (updateNode entry preds) (dom, b)).1 <
            domMeasure dom) := by
  intro l
  induction l with
  | nil =>
    intro dom b hinv
    exact And.intro hinv (And.intro le_rfl (fun hb => Or.inl hb))
  | cons x xs ih =>
    intro dom b hinv
    obtain ⟨hinv1, hle1, hch1⟩ := updateNode_step n entry preds dom b x hp hinv
    have hstep : (updateNode entry preds (dom, b) x) =
        ((updateNode entry preds (dom, b) x).1, (updateNode entry preds (dom, b) x).2) := rfl
    have hfold : (x :: xs).foldl (updateNode entry preds) (dom, b) =
        xs.foldl (updateNode entry preds) (updateNode entry preds (dom, b) x) := rfl
    obtain ⟨hinv2, hle2, hch2⟩ :=
      ih (updateNode entry preds (dom, b) x).1 (updateNode entry preds (dom, b) x).2 hinv1
    rw [hfold, hstep]
    refine ⟨hinv2, hle2.trans hle1, ?_⟩
    intro hflag
    rcases hch2 hflag with h1 | h1
    · rcases hch1 h1 with h2 | h2
      · exact Or.inl h2
      · exact Or.inr (lt_of_le_of_lt hle2 h2)
    · exact Or.inr (lt_of_lt_of_le h1 hle1)

theorem foldl_update_nochange (entry : Nat) (preds : List (List Nat)) :
    ∀ (l : List Nat) (st : List (Finset Nat) × Bool),
      (l.foldl (updateNode entry preds) st).2 = false →
        l.foldl (updateNode entry preds) st = st ∧
          ∀ x ∈ l, updateNode entry preds st x = st := by
  intro l
  induction l with
  | nil =>
    intro st _
    exact ⟨rfl, by simp⟩
  | cons x xs ih =>
    intro st h
    have hfold : (x :: xs).foldl (updateNode entry preds) st =
        xs.foldl (updateNode entry preds) (updateNode entry preds st x) := rfl
    rw [hfold] at h
    obtain ⟨heq, hall⟩ := ih (updateNode entry preds st x) h
    have hfl : (updateNode entry preds st x).2 = false := by
      rw [← heq, h]
    have hst : updateNode entry preds st x = st := updateNode_nochange entry preds st x hfl
    constructor
    · rw [hfold, heq]
      exact hst
    · intro y hy
      rcases List.mem_cons.1 hy with rfl | hy1
      · exact hst
      · have := hall y hy1
        rw [hst] at this
        exact this

/-- The state reached by the dominator loop makes no further node update. -/
def IsDomFix (n entry : Nat) (preds : List (List Nat)) (dom : List (Finset Nat)) : Prop :=
  ∀ x ∈ List.range n, updateNode entry preds (dom, false) x = (dom, false)

theorem domIter_reaches (n entry : Nat) (preds : List (List Nat))
    (hp : PredsOk n preds) :
    ∀ (fuel : Nat) (dom : List (Finset Nat)), DomInv n entry preds dom →
      domMeasure dom < fuel →
      DomInv n entry preds (domIter n entry preds fuel dom) ∧
        IsDomFix n entry preds (domIter n entry preds fuel dom) := by
  intro fuel
  induction fuel with
  | zero =>
    intro dom _ hlt
    exact absurd hlt (by omega)
  | succ k ih =>
    intro dom hinv hlt
    have hunfold : domIter n entry preds (k + 1) dom =
        (if (onePass n entry preds dom).2 then
          domIter n entry preds k (onePass n entry preds dom).1
        else (onePass n entry preds dom).1) := rfl
    rw [hunfold]
    cases hflag : (onePass n entry preds dom).2
    · -- no change: the fold left the state untouched and we are at a fixpoint
      rw [if_neg Bool.false_ne_true]
      have hflag2 : ((List.range n).foldl (updateNode entry preds) (dom, false)).2 = false := hflag
      obtain ⟨heq, hall⟩ :=
        foldl_update_nochange entry preds (List.range n) (dom, false) hflag2
      have h1 : (onePass n entry preds dom).1 = dom := by
        unfold onePass
        rw [heq]
      rw [h1]
      exact ⟨hinv, fun x hx => hall x hx⟩
    · rw [if_pos rfl]
      obtain ⟨hinv1, hle1, hch1⟩ :=
        foldl_update_inv n entry preds hp (List.range n) dom false hinv
      have hlt1 : domMeasure (onePass n entry preds dom).1 < domMeasure dom := by
        rcases hch1 hflag with h1 | h1
        · exact Bool.noConfusion h1
        · exact h1
      exact ih (onePass n entry preds dom).1 hinv1 (by omega)

theorem domFix_eq (n entry : Nat) (preds : List (List Nat)) (dom : List (Finset Nat))
    (hfix : IsDomFix n entry preds dom) :
    ∀ i < n, i ≠ entry → ∀ p0 rest, preds.getD i [] = p0 :: rest →
      dom.getD i ∅ = insert i (interFold dom p0 rest) := by
  intro i hi hie p0 rest hps
  have h := hfix i (List.mem_range.2 hi)
  unfold updateNode at h
  rw [if_neg hie, hps] at h
  dsimp only at h
  by_cases heq : insert i (interFold dom p0 rest) = dom.getD i ∅
  · exact heq.symm
  · rw [if_neg heq] at h
    have := congrArg Prod.snd h
    exact Bool.noConfusion this

theorem getD_map_range {α : Type} (n i : Nat) (f : Nat → α) (d : α) (h : i < n) :
    ((List.range n).map f).getD i d = f i := by
  have h1 : ((List.range n).map f)[i]? = some (f i) := by
    rw [List.getElem?_map, List.getElem?_range h]
    rfl
  simp [List.getD, h1]

theorem domInit_inv (n entry : Nat) (preds : List (List Nat))
    (he : entry < n) :
    DomInv n entry preds
      ((List.range n).map (fun i => if i = entry then {entry} else Finset.range n)) := by
  have hget : ∀ i < n, ((List.range n).map
      (fun i => if i = entry then ({entry} : Finset Nat) else Finset.range n)).getD i ∅ =
      if i = entry then {entry} else Finset.range n := by
    intro i hi
    exact getD_map_range n i _ ∅ hi
  have hbound : ∀ j, ((List.range n).map
      (fun i => if i = entry then ({entry} : Finset Nat) else Finset.range n)).getD j ∅ ⊆
      Finset.range n := by
    intro j
    by_cases hj : j < n
    · rw [hget j hj]
      by_cases hje : j = entry
      · simp [hje]
        exact he
      · simp [hje]
    · rw [getD_len_le _ j ∅ (by simpa using hj)]
      exact Finset.empty_subset _
  constructor
  · simp
  · exact hbound
  · rw [hget entry he, if_pos rfl]
  · intro i hi
    rw [hget i hi]
    by_cases hie : i = entry
    · simp [hie]
    · simp [hie]
      exact hi
  · intro i hi
    rw [hget i hi]
    by_cases hie : i = entry
    · simp [hie]
    · simp [hie]
      exact he
  · intro i hi hie p0 rest hps
    rw [hget i hi, if_neg hie]
    intro a ha
    rcases Finset.mem_insert.1 ha with rfl | h1
    · exact Finset.mem_range.2 hi
    · exact hbound p0 (interFold_subset_left _ p0 rest h1)

theorem mem_enumFrom_lt {α : Type} :
    ∀ (l : List α) (k : Nat), ∀ ib ∈ l.enumFrom k, ib.1 < k + l.length := by
  intro l
  induction l with
  | nil => intro k ib h; simp [List.enumFrom] at h
  | cons x xs ih =>
    intro k ib h
    rcases List.mem_cons.1 h with rfl | h1
    · simp
    · have := ih (k + 1) ib h1
      simp only [List.length_cons]
      omega

theorem mem_enum_lt {α : Type} (l : List α) (ib : Nat × α) (h : ib ∈ l.enum) :
    ib.1 < l.length := by
  have := mem_enumFrom_lt l 0 ib h
  omega

theorem setAppend_ok (n : Nat) (preds : List (List Nat)) (t i : Nat)
    (hl : preds.length = n) (hel : ∀ j, ∀ p ∈ preds.getD j [], p < n) (hi : i < n) :
    (preds.set t (preds.getD t [] ++ [i])).length = n ∧
      ∀ j, ∀ p ∈ (preds.set t (preds.getD t [] ++ [i])).getD j [], p < n := by
  refine ⟨by simpa using hl, ?_⟩
  intro j p hp
  by_cases hjt : t = j
  · subst hjt
    by_cases hrange : t < preds.length
    · rw [getD_set_self preds t _ [] hrange] at hp
      rcases List.mem_append.1 hp with h1 | h1
      · exact hel t p h1
      · rcases List.mem_singleton.1 h1 with rfl
        exact hi
    · rw [List.set_eq_of_length_le (by omega)] at hp
      exact hel t p hp
  · rw [getD_set_ne preds t j _ [] hjt] at hp
    exact hel j p hp

theorem cfgEdges_predsOk {num : Type} (n : Nat) :
    ∀ (bs : List (Nat × BasicBlock num)) (preds succs : List (List Nat))
      (out : List (List Nat) × List (List Nat)),
      (∀ ib ∈ bs, ib.1 < n) → preds.length = n →
      (∀ j, ∀ p ∈ preds.getD j [], p < n) →
      cfgEdges n bs preds succs = some out →
      out.1.length = n ∧ ∀ j, ∀ p ∈ out.1.getD j [], p < n := by
  intro bs
  induction bs with
  | nil =>
    intro preds succs out _ hl hel h
    cases h
    exact ⟨hl, hel⟩
  | cons ib rest ih =>
    intro preds succs out hmem hl hel h
    obtain ⟨i, b⟩ := ib
    have hi : i < n := hmem (i, b) (List.mem_cons_self _ _)
    have hmem2 : ∀ jb ∈ rest, jb.1 < n := fun jb hjb => hmem jb (List.mem_cons_of_mem _ hjb)
    rcases hterm : b.terminator with t | ⟨c, tb, eb⟩ | v | _
    · rw [cfgEdges, hterm] at h
      dsimp only at h
      by_cases ht : t < n
      · rw [if_pos ht] at h
        obtain ⟨h1, h2⟩ := setAppend_ok n preds t i hl hel hi
        exact ih _ _ out hmem2 h1 h2 h
      · rw [if_neg ht] at h
        exact Option.noConfusion h
    · rw [cfgEdges, hterm] at h
      dsimp only at h
      by_cases ht : tb < n ∧ eb < n
      · rw [if_pos ht] at h
        obtain ⟨h1, h2⟩ := setAppend_ok n preds tb i hl hel hi
        obtain ⟨h3, h4⟩ := setAppend_ok n _ eb i h1 h2 hi
        exact ih _ _ out hmem2 h3 h4 h
      · rw [if_neg ht] at h
        exact Option.noConfusion h
    · rw [cfgEdges, hterm] at h
      exact ih _ _ out hmem2 hl hel h
    · rw [cfgEdges, hterm] at h
      exact ih _ _ out hmem2 hl hel h

theorem cfgNew_predsOk {num : Type} (f : MirFunction num) (cfg : CFGAnalysis)
    (h : cfgNew f = some cfg) : PredsOk f.arena.length cfg.predecessors := by
  have h2 : (cfgEdges f.arena.length f.arena.enum (List.replicate f.arena.length [])
      (List.replicate f.arena.length [])).map
      (fun ps => ({ entry := f.entry, predecessors := ps.1,
                    successors := ps.2 } : CFGAnalysis)) = some cfg := h
  rcases hE : cfgEdges f.arena.length f.arena.enum
      (List.replicate f.arena.length []) (List.replicate f.arena.length []) with _ | ps
  · rw [hE] at h2
    exact Option.noConfusion h2
  · rw [hE] at h2
    have hcfg : cfg = { entry := f.entry, predecessors := ps.1, successors := ps.2 } := by
      cases h2
      rfl
    have hout := cfgEdges_predsOk f.arena.length f.arena.enum
      (List.replicate f.arena.length []) (List.replicate f.arena.length []) ps
      (fun ib hib => mem_enum_lt f.arena ib hib)
      (by simp)
      (by
        intro j p hp
        by_cases hj : j < f.arena.length
        · rw [List.getD_eq_getElem?_getD, List.getElem?_replicate, if_pos hj] at hp
          simp at hp
        · rw [getD_len_le _ j [] (by simpa using hj)] at hp
          simp at hp)
      hE
    rw [hcfg]
    exact hout

/-- Combined correctness of the dominator computation: the returned map
satisfies the loop invariant and is a fixpoint of the node update. -/
theorem computeDominators_spec {num : Type} (f : MirFunction num) (cfg : CFGAnalysis)
    (hcfg : cfgNew f = some cfg) (he : f.entry < f.arena.length) :
    DomInv f.arena.length f.entry cfg.predecessors (computeDominators f cfg) ∧
      IsDomFix f.arena.length f.entry cfg.predecessors (computeDominators f cfg) := by
  have hp := cfgNew_predsOk f cfg hcfg
  have hinit := domInit_inv f.arena.length f.entry cfg.predecessors he
  exact domIter_reaches f.arena.length f.entry cfg.predecessors hp _ _ hinit (by omega)

end Mir

/-- Source span (span.rs, `Span`). -/
structure Span where
  startRow : Nat
  startColumn : Nat
  endRow : Nat
  endColumn : Nat
  deriving DecidableEq, Repr

/-- Base types (types.rs, `BaseType`). -/
inductive BaseType where
  | f8 | f16 | f32 | f64 | bool | void | auto
  deriving DecidableEq, Repr

/-- Types: a base type or a pointer (types.rs, `Type`). -/
inductive Ty where
  | base (b : BaseType)
  | pointer (inner : Ty)
  deriving DecidableEq, Repr

/-- The operations the Rust code performs on `f64` values, collected as a
record over an abstract carrier.  The folding pass and the reference
interpreter below both act through this record, so all theorems hold for
every carrier, including IEEE doubles. -/
structure NumOps (num : Type) where
  add : num → num → num
  sub : num → num → num
  mul : num → num → num
  div : num → num → num
  mod : num → num → num
  neg : num → num
  beq : num → num → Bool
  lt : num → num → Bool
  le : num → num → Bool
  gt : num → num → Bool
  ge : num → num → Bool
  zero : num
  one : num

namespace Hir

mutual

/-- HIR expressions as used by the passes under src/hir (the tree copy of
ast.rs carries `value`, `span` on every node; the `typ` field is required
by the pattern matches and the `typ()` accessor in
hir/passes/ast_simplification.rs and hir/passes/lowering.rs).
The `var` constructor models `Expression::Variable`; `ExprList` models the
`Vec<Expression>` of call arguments (a dedicated list type keeps the
recursion structural). -/
inductive Expression (num : Type) where
  | number (value : num) (span : Span) (typ : Option Ty)
  | boolean (value : Bool) (span : Span) (typ : Option Ty)
  | binaryOp (left : Expression num) (op : Token) (right : Expression num)
      (span : Span) (typ : Option Ty)
  | unaryOp (left : Expression num) (op : Token) (span : Span) (typ : Option Ty)
  | call (identifier : String) (args : ExprList num) (span : Span)
      (typ : Option Ty)
  | var (name : String) (span : Span) (typ : Option Ty)

/-- A list of expressions (the `Vec<Expression>` of call arguments). -/
inductive ExprList (num : Type) where
  | nil
  | cons (e : Expression num) (es : ExprList num)

end

/-- The `typ()` accessor of HIR expressions. -/
def Expression.typ {num : Type} : Expression num → Option Ty
  | .number _ _ t => t
  | .boolean _ _ t => t
  | .binaryOp _ _ _ _ t => t
  | .unaryOp _ _ _ t => t
  | .call _ _ _ t => t
  | .var _ _ t => t

/-- The `span` of an HIR expression node. -/
def Expression.span {num : Type} : Expression num → Span
  | .number _ s _ => s
  | .boolean _ s _ => s
  | .binaryOp _ _ _ s _ => s
  | .unaryOp _ _ s _ => s
  | .call _ _ s _ => s
  | .var _ s _ => s

/-- HIR variables (types.rs, `Variable`). -/
structure Variable (num : Type) where
  name : String
  typ : Ty
  initializer : Option (Expression num)

mutual

/-- HIR statements (ast.rs, `Statement`, struct variants with spans).
`StmtList` models the `Vec<Statement>` of a block (a dedicated list type
keeps the recursion structural). -/
inductive Statement (num : Type) where
  | assignment (left : String) (typ : Option Ty) (right : Option (Expression num))
      (span : Span)
  | functionDefinition (name : String) (args : List (Variable num)) (returnType : Ty)
      (body : Block num) (span : Span)
  | ifStmt (condition : Expression num) (thenB : Block num) (els : Option (Block num))
      (span : Span)
  | whileStmt (condition : Expression num) (body : Block num) (span : Span)
  | blockStmt (block : Block num) (span : Span)
  | ret (expression : Option (Expression num)) (span : Span)
  | exprStmt (expression : Expression num) (span : Span)

/-- A list of statements (the `Vec<Statement>` of a block). -/
inductive StmtList (num : Type) where
  | nil
  | cons (s : Statement num) (ss : StmtList num)

/-- HIR blocks (ast.rs, `Block`): statements, an optional scope attached by
typechecking, and a span. -/
inductive Block (num : Type) where
  | mk (statements : StmtList num) (scope : Option (Scope num)) (span : Span)

/-- Scopes (types.rs, `Scope`): name-to-variable and name-to-function maps,
modelled as association lists. -/
inductive Scope (num : Type) where
  | mk (symbols : List (String × Variable num)) (functions : FuncAList num)

/-- The name-to-function map of a scope. -/
inductive FuncAList (num : Type) where
  | nil
  | cons (name : String) (f : Func num) (rest : FuncAList num)

/-- Functions (types.rs, `Function`). -/
inductive Func (num : Type) where
  | mk (name : String) (args : List (Variable num)) (returnType : Ty) (body : Block num)

end

/-- Statement list of a block. -/
def Block.statements {num : Type} : Block num → StmtList num
  | .mk sts _ _ => sts

/-- Scope attached to a block. -/
def Block.scope {num : Type} : Block num → Option (Scope num)
  | .mk _ sc _ => sc

/-- Span of a block. -/
def Block.span {num : Type} : Block num → Span
  | .mk _ _ sp => sp

/-- Symbol table of a scope. -/
def Scope.symbols {num : Type} : Scope num → List (String × Variable num)
  | .mk syms _ => syms

/-- Name of a function. -/
def Func.name {num : Type} : Func num → String
  | .mk n _ _ _ => n

/-- Arguments of a function. -/
def Func.args {num : Type} : Func num → List (Variable num)
  | .mk _ a _ _ => a

/-- Return type of a function. -/
def Func.returnType {num : Type} : Func num → Ty
  | .mk _ _ r _ => r

/-- Body of a function. -/
def Func.body {num : Type} : Func num → Block num
  | .mk _ _ _ b => b

/-- HIR programs (ast.rs, `Program`). -/
structure Program (num : Type) where
  globals : List (Variable num)
  functions : List (Func num)

/-- Arithmetic evaluation of a binary operator on two numbers
(hir/passes/ast_simplification.rs, `eval_binop`).  Division and modulo by
zero produce no value and a warning carrying the operator token's
source position (modelled as the `(row, column)` pair). -/
def evalBinop {num : Type} (ops : NumOps num) (left right : num) (op : Token) :
    Option num × List (Nat × Nat) :=
  match op.tag with
  | TokenType.plus => (some (ops.add left right), [])
  | TokenType.minus => (some (ops.sub left right), [])
  | TokenType.star => (some (ops.mul left right), [])
  | TokenType.slash =>
    if ops.beq right ops.zero then (none, [(op.row, op.column)])
    else (some (ops.div left right), [])
  | TokenType.percent =>
    if ops.beq right ops.zero then (none, [(op.row, op.column)])
    else (some (ops.mod left right), [])
  | _ => (none, [])

/-- Unary evaluation on numbers (ast_simplification.rs, `eval_unary`). -/
def evalUnary {num : Type} (ops : NumOps num) (operand : num) (op : Token) : Option num :=
  match op.tag with
  | TokenType.minus => some (ops.neg operand)
  | TokenType.plus => some operand
  | _ => none

/-- Boolean-result evaluation on two booleans (ast_simplification.rs,
`eval_binop_to_bool_bool`). -/
def evalBinopToBoolBool (left right : Bool) (op : Token) : Option Bool :=
  match op.tag with
  | TokenType.andOp => some (left && right)
  | TokenType.orOp => some (left || right)
  | TokenType.equal => some (left == right)
  | TokenType.notEqual => some (left != right)
  | _ => none

/-- Boolean-result evaluation on two numbers (ast_simplification.rs,
`eval_binop_to_bool_number`). -/
def evalBinopToBoolNumber {num : Type} (ops : NumOps num) (left right : num)
    (op : Token) : Option Bool :=
  match op.tag with
  | TokenType.less => some (ops.lt left right)
  | TokenType.greater => some (ops.gt left right)
  | TokenType.lessEqual => some (ops.le left right)
  | TokenType.greaterEqual => some (ops.ge left right)
  | TokenType.equal => some (ops.beq left right)
  | TokenType.notEqual => some (!ops.beq left right)
  | _ => none

/-- Unary evaluation on booleans (ast_simplification.rs, `eval_unary_bool`). -/
def evalUnaryBool (operand : Bool) (op : Token) : Option Bool :=
  match op.tag with
  | TokenType.bang => some (!operand)
  | _ => none

/-- Constant folding of one node (ast_simplification.rs,
`try_constant_fold`): returns the rewritten node, the warnings pushed and
the folded-node-count increment. -/
def tryConstantFold {num : Type} (ops : NumOps num) (e : Expression num) :
    Expression num × List (Nat × Nat) × Nat :=
  match e with
  | Expression.binaryOp l op r span typ =>
    match l, r with
    | Expression.number a _ _, Expression.number b _ _ =>
      match evalBinop ops a b op with
      | (some result, w) => (Expression.number result span typ, w, 1)
      | (none, w) =>
        match evalBinopToBoolNumber ops a b op with
        | some result => (Expression.boolean result span typ, w, 1)
        | none => (Expression.binaryOp l op r span typ, w, 0)
    | Expression.boolean a _ _, Expression.boolean b _ _ =>
      match evalBinopToBoolBool a b op with
      | some result => (Expression.boolean result span typ, [], 1)
      | none => (Expression.binaryOp l op r span typ, [], 0)
    | _, _ => (Expression.binaryOp l op r span typ, [], 0)
  | Expression.unaryOp l op span typ =>
    match l with
    | Expression.number nv _ _ =>
      match evalUnary ops nv op with
      | some result => (Expression.number result span typ, [], 1)
      | none => (Expression.unaryOp l op span typ, [], 0)
    | Expression.boolean b _ _ =>
      match evalUnaryBool b op with
      | some result => (Expression.boolean result span typ, [], 1)
      | none => (Expression.unaryOp l op span typ, [], 0)
    | _ => (Expression.unaryOp l op span typ, [], 0)
  | e => (e, [], 0)

/-- An expression counts as a constant for commutative normalisation iff it
is a number or boolean literal (ast_simplification.rs, the
`left_is_const` / `right_is_const` matches). -/
def isConstExpr {num : Type} : Expression num → Bool
  | Expression.number _ _ _ => true
  | Expression.boolean _ _ _ => true
  | _ => false

/-- Commutative operators for normalisation (ast_simplification.rs,
`is_commutative`). -/
def isCommutativeTag : TokenType → Bool
  | TokenType.plus => true
  | TokenType.star => true
  | TokenType.andOp => true
  | TokenType.orOp => true
  | TokenType.equal => true
  | TokenType.notEqual => true
  | _ => false

/-- Both operands are variable references with the same name
(ast_simplification.rs, the `x op x` identity check). -/
def sameVar {num : Type} : Expression num → Expression num → Bool
  | Expression.var a _ _, Expression.var b _ _ => a == b
  | _, _ => false

/-- The double-negation rewrite at the end of `try_algebraic_simplify`:
`!!e` becomes `e`. -/
def doubleNegStep {num : Type} : Expression num → Expression num × Nat
  | Expression.unaryOp l op span typ =>
    if op.tag = TokenType.bang then
      match l with
      | Expression.unaryOp inner iop ispan ityp =>
        if iop.tag = TokenType.bang then (inner, 1)
        else (Expression.unaryOp (Expression.unaryOp inner iop ispan ityp) op span typ, 0)
      | l => (Expression.unaryOp l op span typ, 0)
    else (Expression.unaryOp l op span typ, 0)
  | e => (e, 0)

/-- The number/boolean identity patterns of `try_algebraic_simplify`,
applied after commutative normalisation; `l1` and `r1` are the (possibly
swapped) operands.  The Rust match arms are disjoint by operator, right
operand kind and guard, so they are regrouped here by operator. -/
def identityStep {num : Type} (ops : NumOps num) (l1 : Expression num) (op : Token)
    (r1 : Expression num) (span : Span) (typ : Option Ty) : Expression num × Nat :=
  match op.tag, r1 with
  | TokenType.plus, Expression.number nv _ _ =>
    if ops.beq nv ops.zero then (l1, 1)
    else (Expression.binaryOp l1 op r1 span typ, 0)
  | TokenType.minus, Expression.number nv _ _ =>
    if ops.beq nv ops.zero then (l1, 1)
    else (Expression.binaryOp l1 op r1 span typ, 0)
  | TokenType.star, Expression.number nv _ _ =>
    if ops.beq nv ops.one then (l1, 1)
    else if ops.beq nv ops.zero then (Expression.number ops.zero span typ, 1)
    else (Expression.binaryOp l1 op r1 span typ, 0)
  | TokenType.slash, Expression.number nv _ _ =>
    if ops.beq nv ops.one then (l1, 1)
    else (Expression.binaryOp l1 op r1 span typ, 0)
  | TokenType.andOp, Expression.boolean b _ _ =>
    if b then (l1, 1) else (Expression.boolean false span typ, 1)
  | TokenType.orOp, Expression.boolean b _ _ =>
    if b then (Expression.boolean true span typ, 1) else (l1, 1)
  | _, _ => (Expression.binaryOp l1 op r1 span typ, 0)

/-- Identity patterns followed by the double-negation check, as executed
when the variable-identity arms do not return early. -/
def algBinTail {num : Type} (ops : NumOps num) (l1 : Expression num) (op : Token)
    (r1 : Expression num) (span : Span) (typ : Option Ty) : Expression num × Nat :=
  let s := identityStep ops l1 op r1 span typ
  let d := doubleNegStep s.1
  (d.1, s.2 + d.2)

/-- The part of `try_algebraic_simplify` after commutative normalisation:
the variable identities return early; otherwise the identity patterns and
the double-negation check run. -/
def algAfterSwap {num : Type} (ops : NumOps num) (l1 : Expression num) (op : Token)
    (r1 : Expression num) (span : Span) (typ : Option Ty) : Expression num × Nat :=
  if sameVar l1 r1 then
    match op.tag with
    | TokenType.minus => (Expression.number ops.zero span typ, 1)
    | TokenType.equal => (Expression.boolean true span typ, 1)
    | TokenType.notEqual => (Expression.boolean false span typ, 1)
    | TokenType.less => (Expression.boolean false span typ, 1)
    | TokenType.greater => (Expression.boolean false span typ, 1)
    | TokenType.lessEqual => (Expression.boolean true span typ, 1)
    | TokenType.greaterEqual => (Expression.boolean true span typ, 1)
    | _ => algBinTail ops l1 op r1 span typ
  else algBinTail ops l1 op r1 span typ

/-- Algebraic simplification of one node (ast_simplification.rs,
`try_algebraic_simplify`): commutative normalisation puts constants on the
right, then variable identities, identity patterns and the
double-negation check; returns the rewritten node and the
folded-node-count increment. -/
def tryAlgebraicSimplify {num : Type} (ops : NumOps num) :
    Expression num → Expression num × Nat
  | Expression.binaryOp l op r span typ =>
    if isCommutativeTag op.tag && isConstExpr l && !isConstExpr r then
      algAfterSwap ops r op l span typ
    else
      algAfterSwap ops l op r span typ
  | e => doubleNegStep e

/-- One whole node visit after the children are rewritten: constant
folding then algebraic simplification (ast_simplification.rs,
`visit_expression` after `walk_expression`). -/
def nodePost {num : Type} (ops : NumOps num) (e : Expression num)
    (w : List (Nat × Nat)) (c : Nat) : Expression num × List (Nat × Nat) × Nat :=
  let f := tryConstantFold ops e
  let a := tryAlgebraicSimplify ops f.1
  (a.1, w ++ f.2.1, c + f.2.2 + a.2)

mutual

/-- Modelled from the spec: the default `walk_expression` of the HIR
visitor (the file hir/visitor.rs is not in the tree; spec section 4.3
mandates a post-order traversal in which children are simplified before
parents, and the generation-1 visitor.rs gives the same recursion
structure).  `simpExpr` is `ASTSimplificationPass::visit_expression`:
children first, then constant folding, then algebraic simplification. -/
def simpExpr {num : Type} (ops : NumOps num) :
    Expression num → Expression num × List (Nat × Nat) × Nat
  | Expression.number v s t => nodePost ops (Expression.number v s t) [] 0
  | Expression.boolean v s t => nodePost ops (Expression.boolean v s t) [] 0
  | Expression.var n s t => nodePost ops (Expression.var n s t) [] 0
  | Expression.binaryOp l op r span typ =>
    let lr := simpExpr ops l
    let rr := simpExpr ops r
    nodePost ops (Expression.binaryOp lr.1 op rr.1 span typ)
      (lr.2.1 ++ rr.2.1) (lr.2.2 + rr.2.2)
  | Expression.unaryOp l op span typ =>
    let lr := simpExpr ops l
    nodePost ops (Expression.unaryOp lr.1 op span typ) lr.2.1 lr.2.2
  | Expression.call id args span typ =>
    let ar := simpExprList ops args
    nodePost ops (Expression.call id ar.1 span typ) ar.2.1 ar.2.2

/-- Visit of the argument list of a call, left to right. -/
def simpExprList {num : Type} (ops : NumOps num) :
    ExprList num → ExprList num × List (Nat × Nat) × Nat
  | ExprList.nil => (ExprList.nil, [], 0)
  | ExprList.cons e es =>
    let er := simpExpr ops e
    let esr := simpExprList ops es
    (ExprList.cons er.1 esr.1, er.2.1 ++ esr.2.1, er.2.2 + esr.2.2)

end

/-- Modelled from the spec: the visitor walk of a variable (visit the type,
then the initializer expression), as in the generation-1 visitor.rs
`walk_variable`; the hir visitor file is not in the tree. -/
def simpVariable {num : Type} (ops : NumOps num) (v : Variable num) :
    Variable num × List (Nat × Nat) × Nat :=
  match v.initializer with
  | some e =>
    let r := simpExpr ops e
    ({ v with initializer := some r.1 }, r.2.1, r.2.2)
  | none => (v, [], 0)

/-- Walk of a variable list, left to right. -/
def simpVarList {num : Type} (ops : NumOps num) :
    List (Variable num) → List (Variable num) × List (Nat × Nat) × Nat
  | [] => ([], [], 0)
  | v :: vs =>
    let vr := simpVariable ops v
    let vsr := simpVarList ops vs
    (vr.1 :: vsr.1, vr.2.1 ++ vsr.2.1, vr.2.2 + vsr.2.2)

mutual

/-- Modelled from the spec: the default statement walk of the HIR visitor
(each contained expression and block is visited; declared types and the
attached scope are untouched), as in the generation-1 visitor.rs
`walk_statement`. -/
def simpStmt {num : Type} (ops : NumOps num) :
    Statement num → Statement num × List (Nat × Nat) × Nat
  | Statement.assignment left typ right span =>
    match right with
    | some e =>
      let r := simpExpr ops e
      (Statement.assignment left typ (some r.1) span, r.2.1, r.2.2)
    | none => (Statement.assignment left typ none span, [], 0)
  | Statement.functionDefinition name args rt body span =>
    let ar := simpVarList ops args
    let br := simpBlock ops body
    (Statement.functionDefinition name ar.1 rt br.1 span,
      ar.2.1 ++ br.2.1, ar.2.2 + br.2.2)
  | Statement.ifStmt c t e span =>
    let cr := simpExpr ops c
    let tr := simpBlock ops t
    match e with
    | some eb =>
      let er := simpBlock ops eb
      (Statement.ifStmt cr.1 tr.1 (some er.1) span,
        cr.2.1 ++ tr.2.1 ++ er.2.1, cr.2.2 + tr.2.2 + er.2.2)
    | none =>
      (Statement.ifStmt cr.1 tr.1 none span, cr.2.1 ++ tr.2.1, cr.2.2 + tr.2.2)
  | Statement.whileStmt c b span =>
    let cr := simpExpr ops c
    let br := simpBlock ops b
    (Statement.whileStmt cr.1 br.1 span, cr.2.1 ++ br.2.1, cr.2.2 + br.2.2)
  | Statement.blockStmt b span =>
    let br := simpBlock ops b
    (Statement.blockStmt br.1 span, br.2.1, br.2.2)
  | Statement.ret e span =>
    match e with
    | some ex =>
      let r := simpExpr ops ex
      (Statement.ret (some r.1) span, r.2.1, r.2.2)
    | none => (Statement.ret none span, [], 0)
  | Statement.exprStmt e span =>
    let r := simpExpr ops e
    (Statement.exprStmt r.1 span, r.2.1, r.2.2)

/-- Walk of a block: its statements in order; the attached scope and the
span are untouched. -/
def simpBlock {num : Type} (ops : NumOps num) :
    Block num → Block num × List (Nat × Nat) × Nat
  | Block.mk sts sc span =>
    let r := simpStmtList ops sts
    (Block.mk r.1 sc span, r.2.1, r.2.2)

/-- Walk of a statement list, in order. -/
def simpStmtList {num : Type} (ops : NumOps num) :
    StmtList num → StmtList num × List (Nat × Nat) × Nat
  | StmtList.nil => (StmtList.nil, [], 0)
  | StmtList.cons s ss =>
    let sr := simpStmt ops s
    let ssr := simpStmtList ops ss
    (StmtList.cons sr.1 ssr.1, sr.2.1 ++ ssr.2.1, sr.2.2 + ssr.2.2)

end

/-- Walk of a function: arguments, return type (no-op), body. -/
def simpFunc {num : Type} (ops : NumOps num) (f : Func num) :
    Func num × List (Nat × Nat) × Nat :=
  let ar := simpVarList ops f.args
  let br := simpBlock ops f.body
  (Func.mk f.name ar.1 f.returnType br.1, ar.2.1 ++ br.2.1, ar.2.2 + br.2.2)

/-- Walk of a function list, in order. -/
def simpFuncList {num : Type} (ops : NumOps num) :
    List (Func num) → List (Func num) × List (Nat × Nat) × Nat
  | [] => ([], [], 0)
  | f :: fs =>
    let fr := simpFunc ops f
    let fsr := simpFuncList ops fs
    (fr.1 :: fsr.1, fr.2.1 ++ fsr.2.1, fr.2.2 + fsr.2.2)

/-- The whole simplification pass on a program
(ast_simplification.rs, `visit_program`: globals then functions; the final
info diagnostic reporting the folded-node counter is not part of the
tree). -/
def simpProgram {num : Type} (ops : NumOps num) (p : Program num) :
    Program num × List (Nat × Nat) × Nat :=
  let gr := simpVarList ops p.globals
  let fr := simpFuncList ops p.functions
  (Program.mk gr.1 fr.1, gr.2.1 ++ fr.2.1, gr.2.2 + fr.2.2)

/-- Number and boolean literals. -/
def isLiteral {num : Type} : Expression num → Bool
  | Expression.number _ _ _ => true
  | Expression.boolean _ _ _ => true
  | _ => false

mutual

/-- An expression is simplified when every subexpression is and neither
constant folding nor algebraic simplification rewrites any of its nodes.
Simplified expressions are exactly the fixpoints of the pass. -/
def Simplified {num : Type} (ops : NumOps num) : Expression num → Prop
  | Expression.number _ _ _ => True
  | Expression.boolean _ _ _ => True
  | Expression.var _ _ _ => True
  | Expression.binaryOp l op r s t =>
    Simplified ops l ∧ Simplified ops r ∧
      (tryConstantFold ops (Expression.binaryOp l op r s t)).1 =
        Expression.binaryOp l op r s t ∧
      (tryAlgebraicSimplify ops (Expression.binaryOp l op r s t)).1 =
        Expression.binaryOp l op r s t
  | Expression.unaryOp l op s t =>
    Simplified ops l ∧
      (tryConstantFold ops (Expression.unaryOp l op s t)).1 =
        Expression.unaryOp l op s t ∧
      (tryAlgebraicSimplify ops (Expression.unaryOp l op s t)).1 =
        Expression.unaryOp l op s t
  | Expression.call _ args _ _ => SimplifiedList ops args

/-- All expressions of a list are simplified. -/
def SimplifiedList {num : Type} (ops : NumOps num) : ExprList num → Prop
  | ExprList.nil => True
  | ExprList.cons e es => Simplified ops e ∧ SimplifiedList ops es

end

theorem simplified_of_isLiteral {num : Type} (ops : NumOps num) (e : Expression num)
    (h : isLiteral e = true) : Simplified ops e := by
  cases e <;> simp [isLiteral] at h <;> trivial

theorem tryAlgebraicSimplify_lit {num : Type} (ops : NumOps num) (e : Expression num)
    (h : isLiteral e = true) : tryAlgebraicSimplify ops e = (e, 0) := by
  cases e <;> simp [isLiteral] at h <;> rfl

theorem doubleNegStep_expr_of_simplified {num : Type} (ops : NumOps num)
    (e : Expression num) (h : Simplified ops e) : (doubleNegStep e).1 = e := by
  cases e with
  | number v s t => rfl
  | boolean v s t => rfl
  | var n s t => rfl
  | binaryOp l op r s t => rfl
  | call id args s t => rfl
  | unaryOp l op s t =>
    obtain ⟨_, _, halg⟩ := h
    exact halg

/-- Constant folding of a binary node either leaves it unchanged or
replaces it by a literal. -/
theorem tryConstantFold_bin_cases {num : Type} (ops : NumOps num)
    (l : Expression num) (op : Token) (r : Expression num) (s : Span) (t : Option Ty) :
    (tryConstantFold ops (Expression.binaryOp l op r s t)).1 =
      Expression.binaryOp l op r s t ∨
    isLiteral (tryConstantFold ops (Expression.binaryOp l op r s t)).1 = true := by
  unfold tryConstantFold
  cases l <;> cases r <;> try (exact Or.inl rfl)
  · rename_i a _ _ b _ _
    rcases hb : evalBinop ops a b op with ⟨o, w⟩
    cases o with
    | some result => simp [hb, isLiteral]
    | none =>
      rcases hn : evalBinopToBoolNumber ops a b op with _ | result
      · simp [hb, hn]
      · simp [hb, hn, isLiteral]
  · rename_i a _ _ b _ _
    rcases hn : evalBinopToBoolBool a b op with _ | result
    · simp [hn]
    · simp [hn, isLiteral]

/-- Constant folding of a unary node either leaves it unchanged or
replaces it by a literal. -/
theorem tryConstantFold_un_cases {num : Type} (ops : NumOps num)
    (l : Expression num) (op : Token) (s : Span) (t : Option Ty) :
    (tryConstantFold ops (Expression.unaryOp l op s t)).1 =
      Expression.unaryOp l op s t ∨
    isLiteral (tryConstantFold ops (Expression.unaryOp l op s t)).1 = true := by
  unfold tryConstantFold
  cases l <;> try (exact Or.inl rfl)
  · rename_i nv _ _
    rcases hu : evalUnary ops nv op with _ | result
    · simp [hu]
    · simp [hu, isLiteral]
  · rename_i b _ _
    rcases hu : evalUnaryBool b op with _ | result
    · simp [hu]
    · simp [hu, isLiteral]

/-- Constant folding never fires when the left operand of a binary node is
not a literal. -/
theorem tryConstantFold_bin_nonconst {num : Type} (ops : NumOps num)
    (l : Expression num) (op : Token) (r : Expression num) (s : Span) (t : Option Ty)
    (h : isConstExpr l = false) :
    (tryConstantFold ops (Expression.binaryOp l op r s t)).1 =
      Expression.binaryOp l op r s t := by
  unfold tryConstantFold
  cases l <;> simp [isConstExpr] at h <;> cases r <;> rfl

/-- The identity-pattern step either returns the left operand, a literal,
or the node itself. -/
theorem identityStep_cases {num : Type} (ops : NumOps num) (l1 : Expression num)
    (op : Token) (r1 : Expression num) (s : Span) (t : Option Ty) :
    (identityStep ops l1 op r1 s t).1 = l1 ∨
    isLiteral (identityStep ops l1 op r1 s t).1 = true ∨
    identityStep ops l1 op r1 s t = (Expression.binaryOp l1 op r1 s t, 0) := by
  unfold identityStep
  split
  · split
    · exact Or.inl rfl
    · exact Or.inr (Or.inr rfl)
  · split
    · exact Or.inl rfl
    · exact Or.inr (Or.inr rfl)
  · split
    · exact Or.inl rfl
    · split
      · exact Or.inr (Or.inl rfl)
      · exact Or.inr (Or.inr rfl)
  · split
    · exact Or.inl rfl
    · exact Or.inr (Or.inr rfl)
  · split
    · exact Or.inl rfl
    · exact Or.inr (Or.inl rfl)
  · split
    · exact Or.inr (Or.inl rfl)
    · exact Or.inl rfl
  · exact Or.inr (Or.inr rfl)

/-- The double-negation step either strips a double negation or leaves the
expression unchanged. -/
theorem doubleNegStep_fire_or {num : Type} (e : Expression num) :
    (∃ inner iop ispan ityp op span typ,
      e = Expression.unaryOp (Expression.unaryOp inner iop ispan ityp) op span typ ∧
      op.tag = TokenType.bang ∧ iop.tag = TokenType.bang ∧
      doubleNegStep e = (inner, 1)) ∨
    doubleNegStep e = (e, 0) := by
  cases e with
  | unaryOp l op span typ =>
    by_cases hop : op.tag = TokenType.bang
    · cases l with
      | unaryOp inner iop ispan ityp =>
        by_cases hiop : iop.tag = TokenType.bang
        · exact Or.inl ⟨inner, iop, ispan, ityp, op, span, typ, rfl, hop, hiop,
            by simp [doubleNegStep, hop, hiop]⟩
        · exact Or.inr (by simp [doubleNegStep, hop, hiop])
      | number v s t => exact Or.inr (by simp [doubleNegStep, hop])
      | boolean v s t => exact Or.inr (by simp [doubleNegStep, hop])
      | var n s t => exact Or.inr (by simp [doubleNegStep, hop])
      | binaryOp a o b s t => exact Or.inr (by simp [doubleNegStep, hop])
      | call i a s t => exact Or.inr (by simp [doubleNegStep, hop])
    · cases l <;> exact Or.inr (by simp [doubleNegStep, hop])
  | number v s t => exact Or.inr rfl
  | boolean v s t => exact Or.inr rfl
  | var n s t => exact Or.inr rfl
  | binaryOp a o b s t => exact Or.inr rfl
  | call i a s t => exact Or.inr rfl

/-- If the identity step does not fire and the swap condition is false for
the pair, then the whole algebraic step leaves the node unchanged and the
node is simplified. -/
theorem algBinTail_simplified {num : Type} (ops : NumOps num) (a : Expression num)
    (op : Token) (b : Expression num) (s : Span) (t : Option Ty)
    (hSa : Simplified ops a) (hSb : Simplified ops b)
    (hfoldfix : (tryConstantFold ops (Expression.binaryOp a op b s t)).1 =
      Expression.binaryOp a op b s t)
    (hreach : algAfterSwap ops a op b s t = algBinTail ops a op b s t)
    (hswfalse : (isCommutativeTag op.tag && isConstExpr a && !isConstExpr b) = false) :
    Simplified ops (algBinTail ops a op b s t).1 := by
  rcases identityStep_cases ops a op b s t with hid | hid | hid
  · show Simplified ops (doubleNegStep (identityStep ops a op b s t).1).1
    rw [hid, doubleNegStep_expr_of_simplified ops a hSa]
    exact hSa
  · show Simplified ops (doubleNegStep (identityStep ops a op b s t).1).1
    rw [doubleNegStep_expr_of_simplified ops _ (simplified_of_isLiteral ops _ hid)]
    exact simplified_of_isLiteral ops _ hid
  · show Simplified ops (doubleNegStep (identityStep ops a op b s t).1).1
    rw [hid]
    show Simplified ops (Expression.binaryOp a op b s t)
    refine ⟨hSa, hSb, hfoldfix, ?_⟩
    show (if isCommutativeTag op.tag && isConstExpr a && !isConstExpr b then
      algAfterSwap ops b op a s t else algAfterSwap ops a op b s t).1 =
      Expression.binaryOp a op b s t
    rw [if_neg (by rw [hswfalse]; exact Bool.false_ne_true), hreach]
    show (doubleNegStep (identityStep ops a op b s t).1).1 = _
    rw [hid]
    rfl

/-- The part of the algebraic step after normalisation keeps expressions
simplified, provided the constant fold already declined to rewrite the
node and the swap condition is false for the (already normalised) pair. -/
theorem algAfterSwap_simplified {num : Type} (ops : NumOps num) (a : Expression num)
    (op : Token) (b : Expression num) (s : Span) (t : Option Ty)
    (hSa : Simplified ops a) (hSb : Simplified ops b)
    (hfoldfix : (tryConstantFold ops (Expression.binaryOp a op b s t)).1 =
      Expression.binaryOp a op b s t)
    (hswfalse : (isCommutativeTag op.tag && isConstExpr a && !isConstExpr b) = false) :
    Simplified ops (algAfterSwap ops a op b s t).1 := by
  unfold algAfterSwap
  by_cases hsv : sameVar a b = true
  · rw [if_pos hsv]
    cases hop : op.tag
    all_goals first
      | exact trivial
      | (refine algBinTail_simplified ops a op b s t hSa hSb hfoldfix ?_ hswfalse
         unfold algAfterSwap
         rw [if_pos hsv, hop])
  · rw [if_neg hsv]
    refine algBinTail_simplified ops a op b s t hSa hSb hfoldfix ?_ hswfalse
    unfold algAfterSwap
    rw [if_neg hsv]

/-- Algebraic simplification of a binary node with simplified operands, on
which folding declined to rewrite, produces a simplified expression. -/
theorem algBin_simplified {num : Type} (ops : NumOps num) (l1 : Expression num)
    (op : Token) (r1 : Expression num) (s : Span) (t : Option Ty)
    (hSl : Simplified ops l1) (hSr : Simplified ops r1)
    (hfold : (tryConstantFold ops (Expression.binaryOp l1 op r1 s t)).1 =
      Expression.binaryOp l1 op r1 s t) :
    Simplified ops (tryAlgebraicSimplify ops (Expression.binaryOp l1 op r1 s t)).1 := by
  show Simplified ops ((if isCommutativeTag op.tag && isConstExpr l1 && !isConstExpr r1
    then algAfterSwap ops r1 op l1 s t else algAfterSwap ops l1 op r1 s t)).1
  by_cases hsw : (isCommutativeTag op.tag && isConstExpr l1 && !isConstExpr r1) = true
  · rw [if_pos hsw]
    have hCr : isConstExpr r1 = false := by
      rcases Bool.and_eq_true_iff.1 hsw with ⟨_, h2⟩
      cases hc : isConstExpr r1
      · rfl
      · rw [hc] at h2
        simp at h2
    refine algAfterSwap_simplified ops r1 op l1 s t hSr hSl ?_ ?_
    · exact tryConstantFold_bin_nonconst ops r1 op l1 s t hCr
    · rw [Bool.and_eq_false_iff]
      left
      rw [Bool.and_eq_false_iff]
      right
      exact hCr
  · rw [if_neg hsw]
    exact algAfterSwap_simplified ops l1 op r1 s t hSl hSr hfold
      (Bool.not_eq_true _ ▸ Bool.of_not_eq_true hsw)

/-- Algebraic simplification of a unary node with a simplified operand, on
which folding declined to rewrite, produces a simplified expression. -/
theorem unaryAlg_simplified {num : Type} (ops : NumOps num) (l1 : Expression num)
    (op : Token) (s : Span) (t : Option Ty)
    (hSl : Simplified ops l1)
    (hfold : (tryConstantFold ops (Expression.unaryOp l1 op s t)).1 =
      Expression.unaryOp l1 op s t) :
    Simplified ops (tryAlgebraicSimplify ops (Expression.unaryOp l1 op s t)).1 := by
  show Simplified ops (doubleNegStep (Expression.unaryOp l1 op s t)).1
  rcases doubleNegStep_fire_or (Expression.unaryOp l1 op s t) with
    ⟨inner, iop, ispan, ityp, op2, span2, typ2, heq, _, _, hfire⟩ | hno
  · rw [hfire]
    injection heq with h1 h2 h3 h4
    subst h2
    subst h1
    exact hSl.1
  · rw [hno]
    refine ⟨hSl, hfold, ?_⟩
    show (doubleNegStep (Expression.unaryOp l1 op s t)).1 = _
    rw [hno]

mutual

/-- The result of one pass of the simplifier is a simplified expression. -/
theorem simpExpr_simplified {num : Type} (ops : NumOps num) :
    (e : Expression num) → Simplified ops (simpExpr ops e).1
  | Expression.number _ _ _ => trivial
  | Expression.boolean _ _ _ => trivial
  | Expression.var _ _ _ => trivial
  | Expression.call id args s t =>
    show SimplifiedList ops (simpExprList ops args).1 from
      simpExprList_simplified ops args
  | Expression.binaryOp l op r s t => by
    have hl := simpExpr_simplified ops l
    have hr := simpExpr_simplified ops r
    show Simplified ops ((tryAlgebraicSimplify ops (tryConstantFold ops
      (Expression.binaryOp (simpExpr ops l).1 op (simpExpr ops r).1 s t)).1).1)
    rcases tryConstantFold_bin_cases ops (simpExpr ops l).1 op (simpExpr ops r).1 s t with
      hf | hf
    · rw [hf]
      exact algBin_simplified ops (simpExpr ops l).1 op (simpExpr ops r).1 s t hl hr hf
    · rw [(tryAlgebraicSimplify_lit ops _ hf : tryAlgebraicSimplify ops
        (tryConstantFold ops (Expression.binaryOp (simpExpr ops l).1 op
          (simpExpr ops r).1 s t)).1 = _)]
      exact simplified_of_isLiteral ops _ hf
  | Expression.unaryOp l op s t => by
    have hl := simpExpr_simplified ops l
    show Simplified ops ((tryAlgebraicSimplify ops (tryConstantFold ops
      (Expression.unaryOp (simpExpr ops l).1 op s t)).1).1)
    rcases tryConstantFold_un_cases ops (simpExpr ops l).1 op s t with hf | hf
    · rw [hf]
      exact unaryAlg_simplified ops (simpExpr ops l).1 op s t hl hf
    · rw [(tryAlgebraicSimplify_lit ops _ hf : tryAlgebraicSimplify ops
        (tryConstantFold ops (Expression.unaryOp (simpExpr ops l).1 op s t)).1 = _)]
      exact simplified_of_isLiteral ops _ hf

/-- The result of one pass of the simplifier on an argument list is a list
of simplified expressions. -/
theorem simpExprList_simplified {num : Type} (ops : NumOps num) :
    (es : ExprList num) → SimplifiedList ops (simpExprList ops es).1
  | ExprList.nil => trivial
  | ExprList.cons e es =>
    ⟨simpExpr_simplified ops e, simpExprList_simplified ops es⟩

end

mutual

/-- The simplifier is the identity on simplified expressions. -/
theorem simpExpr_id {num : Type} (ops : NumOps num) :
    (e : Expression num) → Simplified ops e → (simpExpr ops e).1 = e
  | Expression.number _ _ _, _ => rfl
  | Expression.boolean _ _ _, _ => rfl
  | Expression.var _ _ _, _ => rfl
  | Expression.call id args s t, h => by
    have h2 : SimplifiedList ops args := h
    show Expression.call id (simpExprList ops args).1 s t = Expression.call id args s t
    rw [simpExprList_id ops args h2]
  | Expression.binaryOp l op r s t, h => by
    obtain ⟨hl, hr, hf, ha⟩ : Simplified ops l ∧ Simplified ops r ∧ _ ∧ _ := h
    have hl2 := simpExpr_id ops l hl
    have hr2 := simpExpr_id ops r hr
    show (tryAlgebraicSimplify ops (tryConstantFold ops
      (Expression.binaryOp (simpExpr ops l).1 op (simpExpr ops r).1 s t)).1).1 =
      Expression.binaryOp l op r s t
    rw [hl2, hr2, hf, ha]
  | Expression.unaryOp l op s t, h => by
    obtain ⟨hl, hf, ha⟩ : Simplified ops l ∧ _ ∧ _ := h
    have hl2 := simpExpr_id ops l hl
    show (tryAlgebraicSimplify ops (tryConstantFold ops
      (Expression.unaryOp (simpExpr ops l).1 op s t)).1).1 =
      Expression.unaryOp l op s t
    rw [hl2, hf, ha]

/-- The simplifier is the identity on lists of simplified expressions. -/
theorem simpExprList_id {num : Type} (ops : NumOps num) :
    (es : ExprList num) → SimplifiedList ops es → (simpExprList ops es).1 = es
  | ExprList.nil, _ => rfl
  | ExprList.cons e es, h => by
    obtain ⟨he, hes⟩ : Simplified ops e ∧ SimplifiedList ops es := h
    show ExprList.cons (simpExpr ops e).1 (simpExprList ops es).1 = ExprList.cons e es
    rw [simpExpr_id ops e he, simpExprList_id ops es hes]

end

/-- Idempotence of the simplifier on expressions. -/
theorem simpExpr_idem {num : Type} (ops : NumOps num) (e : Expression num) :
    (simpExpr ops (simpExpr ops e).1).1 = (simpExpr ops e).1 :=
  simpExpr_id ops _ (simpExpr_simplified ops e)

/-- Idempotence of the simplifier on variables. -/
theorem simpVariable_idem {num : Type} (ops : NumOps num) (v : Variable num) :
    (simpVariable ops (simpVariable ops v).1).1 = (simpVariable ops v).1 := by
  unfold simpVariable
  rcases v with ⟨name, typ, init⟩
  cases init with
  | none => rfl
  | some e => simp [simpExpr_idem]

/-- Idempotence of the simplifier on variable lists. -/
theorem simpVarList_idem {num : Type} (ops : NumOps num) (vs : List (Variable num)) :
    (simpVarList ops (simpVarList ops vs).1).1 = (simpVarList ops vs).1 := by
  induction vs with
  | nil => rfl
  | cons v vs ih =>
    show ((simpVariable ops (simpVariable ops v).1).1 :: (simpVarList ops
      (simpVarList ops vs).1).1) = (simpVariable ops v).1 :: (simpVarList ops vs).1
    rw [simpVariable_idem, ih]

mutual

/-- Idempotence of the simplifier on statements. -/
theorem simpStmt_idem {num : Type} (ops : NumOps num) :
    (s : Statement num) → (simpStmt ops (simpStmt ops s).1).1 = (simpStmt ops s).1
  | Statement.assignment left typ right span => by
    cases right with
    | none => rfl
    | some e =>
      show Statement.assignment left typ (some (simpExpr ops (simpExpr ops e).1).1) span =
        Statement.assignment left typ (some (simpExpr ops e).1) span
      rw [simpExpr_idem]
  | Statement.functionDefinition name args rt body span => by
    show Statement.functionDefinition name (simpVarList ops (simpVarList ops args).1).1 rt
      (simpBlock ops (simpBlock ops body).1).1 span = _
    rw [simpVarList_idem, simpBlock_idem ops body]
    rfl
  | Statement.ifStmt c tb els span => by
    cases els with
    | none =>
      show Statement.ifStmt (simpExpr ops (simpExpr ops c).1).1
        (simpBlock ops (simpBlock ops tb).1).1 none span = _
      rw [simpExpr_idem, simpBlock_idem ops tb]
      rfl
    | some eb =>
      show Statement.ifStmt (simpExpr ops (simpExpr ops c).1).1
        (simpBlock ops (simpBlock ops tb).1).1
        (some (simpBlock ops (simpBlock ops eb).1).1) span = _
      rw [simpExpr_idem, simpBlock_idem ops tb, simpBlock_idem ops eb]
      rfl
  | Statement.whileStmt c body span => by
    show Statement.whileStmt (simpExpr ops (simpExpr ops c).1).1
      (simpBlock ops (simpBlock ops body).1).1 span = _
    rw [simpExpr_idem, simpBlock_idem ops body]
    rfl
  | Statement.blockStmt b span => by
    show Statement.blockStmt (simpBlock ops (simpBlock ops b).1).1 span = _
    rw [simpBlock_idem ops b]
    rfl
  | Statement.ret e span => by
    cases e with
    | none => rfl
    | some ex =>
      show Statement.ret (some (simpExpr ops (simpExpr ops ex).1).1) span = _
      rw [simpExpr_idem]
      rfl
  | Statement.exprStmt e span => by
    show Statement.exprStmt (simpExpr ops (simpExpr ops e).1).1 span = _
    rw [simpExpr_idem]
    rfl

/-- Idempotence of the simplifier on blocks. -/
theorem simpBlock_idem {num : Type} (ops : NumOps num) :
    (b : Block num) → (simpBlock ops (simpBlock ops b).1).1 = (simpBlock ops b).1
  | Block.mk sts sc span => by
    show Block.mk (simpStmtList ops (simpStmtList ops sts).1).1 sc span = _
    rw [simpStmtList_idem ops sts]
    rfl

/-- Idempotence of the simplifier on statement lists. -/
theorem simpStmtList_idem {num : Type} (ops : NumOps num) :
    (ss : StmtList num) →
      (simpStmtList ops (simpStmtList ops ss).1).1 = (simpStmtList ops ss).1
  | StmtList.nil => rfl
  | StmtList.cons s ss => by
    show StmtList.cons (simpStmt ops (simpStmt ops s).1).1
      (simpStmtList ops (simpStmtList ops ss).1).1 = _
    rw [simpStmt_idem ops s, simpStmtList_idem ops ss]
    rfl

end

/-- Idempotence of the simplifier on functions. -/
theorem simpFunc_idem {num : Type} (ops : NumOps num) (f : Func num) :
    (simpFunc ops (simpFunc ops f).1).1 = (simpFunc ops f).1 := by
  show Func.mk _ (simpVarList ops (simpVarList ops f.args).1).1 _
    (simpBlock ops (simpBlock ops f.body).1).1 = _
  rw [simpVarList_idem, simpBlock_idem]
  rfl

/-- Idempotence of the simplifier on function lists. -/
theorem simpFuncList_idem {num : Type} (ops : NumOps num) (fs : List (Func num)) :
    (simpFuncList ops (simpFuncList ops fs).1).1 = (simpFuncList ops fs).1 := by
  induction fs with
  | nil => rfl
  | cons f fs ih =>
    show ((simpFunc ops (simpFunc ops f).1).1 :: (simpFuncList ops
      (simpFuncList ops fs).1).1) = _
    rw [simpFunc_idem, ih]
    rfl

/-- Idempotence of the simplifier on whole programs. -/
theorem simpProgram_idem {num : Type} (ops : NumOps num) (p : Program num) :
    (simpProgram ops (simpProgram ops p).1).1 = (simpProgram ops p).1 := by
  show Program.mk (simpVarList ops (simpVarList ops p.globals).1).1
    (simpFuncList ops (simpFuncList ops p.functions).1).1 = _
  rw [simpVarList_idem, simpFuncList_idem]
  rfl

/-- Values of the reference interpreter: an f64 or a boolean. -/
inductive Val (num : Type) where
  | num (v : num)
  | bool (b : Bool)
  deriving DecidableEq, Repr

/-- Modelled from the spec: the binary step of the reference interpreter of
testable property 7 ("`fold(e)` evaluates to the same value as a reference
interpreter"), evaluating the same arithmetic, comparison and logical
operators as the folder over the same carrier; division or modulo by zero
has no value (spec section 4.3: it is `NOT folded`, `later stages
decide`). -/
def refBinop {num : Type} (ops : NumOps num) :
    Val num → Token → Val num → Option (Val num)
  | Val.num a, op, Val.num b =>
    match op.tag with
    | TokenType.plus => some (Val.num (ops.add a b))
    | TokenType.minus => some (Val.num (ops.sub a b))
    | TokenType.star => some (Val.num (ops.mul a b))
    | TokenType.slash =>
      if ops.beq b ops.zero then none else some (Val.num (ops.div a b))
    | TokenType.percent =>
      if ops.beq b ops.zero then none else some (Val.num (ops.mod a b))
    | TokenType.less => some (Val.bool (ops.lt a b))
    | TokenType.greater => some (Val.bool (ops.gt a b))
    | TokenType.lessEqual => some (Val.bool (ops.le a b))
    | TokenType.greaterEqual => some (Val.bool (ops.ge a b))
    | TokenType.equal => some (Val.bool (ops.beq a b))
    | TokenType.notEqual => some (Val.bool (!ops.beq a b))
    | _ => none
  | Val.bool a, op, Val.bool b =>
    match op.tag with
    | TokenType.andOp => some (Val.bool (a && b))
    | TokenType.orOp => some (Val.bool (a || b))
    | TokenType.equal => some (Val.bool (a == b))
    | TokenType.notEqual => some (Val.bool (a != b))
    | _ => none
  | _, _, _ => none

/-- Modelled from the spec: the unary step of the reference interpreter. -/
def refUnary {num : Type} (ops : NumOps num) : Val num → Token → Option (Val num)
  | Val.num a, op =>
    match op.tag with
    | TokenType.minus => some (Val.num (ops.neg a))
    | TokenType.plus => some (Val.num a)
    | _ => none
  | Val.bool b, op =>
    match op.tag with
    | TokenType.bang => some (Val.bool (!b))
    | _ => none

/-- Modelled from the spec: the reference interpreter of testable
property 7.  It evaluates closed expressions; variable references and
calls have no value. -/
def referenceEval {num : Type} (ops : NumOps num) : Expression num → Option (Val num)
  | Expression.number v _ _ => some (Val.num v)
  | Expression.boolean b _ _ => some (Val.bool b)
  | Expression.binaryOp l op r _ _ =>
    match referenceEval ops l, referenceEval ops r with
    | some a, some b => refBinop ops a op b
    | _, _ => none
  | Expression.unaryOp l op _ _ =>
    match referenceEval ops l with
    | some a => refUnary ops a op
    | none => none
  | Expression.call _ _ _ _ => none
  | Expression.var _ _ _ => none

/-- The literal value carried by a literal expression, if any. -/
def litVal {num : Type} : Expression num → Option (Val num)
  | Expression.number v _ _ => some (Val.num v)
  | Expression.boolean b _ _ => some (Val.bool b)
  | _ => none

theorem isLiteral_of_litVal {num : Type} (e : Expression num) (v : Val num)
    (h : litVal e = some v) : isLiteral e = true := by
  cases e <;> simp [litVal] at h <;> rfl

theorem litVal_num_shape {num : Type} (e : Expression num) (a : num)
    (h : litVal e = some (Val.num a)) : ∃ s t, e = Expression.number a s t := by
  cases e <;> simp [litVal] at h
  · exact ⟨_, _, by rw [h]⟩

theorem litVal_bool_shape {num : Type} (e : Expression num) (b : Bool)
    (h : litVal e = some (Val.bool b)) : ∃ s t, e = Expression.boolean b s t := by
  cases e <;> simp [litVal] at h
  · exact ⟨_, _, by rw [h]⟩

/-- If the reference interpreter gives a value to a binary node on two
number literals, folding produces the same value. -/
theorem foldBinNum_sound {num : Type} (ops : NumOps num) (a b : num) (op : Token)
    (sa sb s : Span) (ta tb t : Option Ty) (v : Val num)
    (h : refBinop ops (Val.num a) op (Val.num b) = some v) :
    litVal (tryConstantFold ops (Expression.binaryOp (Expression.number a sa ta) op
      (Expression.number b sb tb) s t)).1 = some v := by
  cases hop : op.tag <;> simp only [refBinop, hop] at h <;>
    first
    | exact Option.noConfusion h
    | · injection h with h
        subst h
        simp [tryConstantFold, evalBinop, evalBinopToBoolNumber, hop, litVal]
    | · by_cases hz : ops.beq b ops.zero = true
        · rw [if_pos hz] at h
          exact Option.noConfusion h
        · rw [if_neg hz] at h
          injection h with h
          subst h
          simp [tryConstantFold, evalBinop, hop, if_neg hz, litVal]

/-- If the reference interpreter gives a value to a binary node on two
boolean literals, folding produces the same value. -/
theorem foldBinBool_sound {num : Type} (ops : NumOps num) (a b : Bool) (op : Token)
    (sa sb s : Span) (ta tb t : Option Ty) (v : Val num)
    (h : refBinop ops (Val.bool a) op (Val.bool b) = some v) :
    litVal (tryConstantFold ops (Expression.binaryOp (Expression.boolean a sa ta) op
      (Expression.boolean b sb tb) s t)).1 = some v := by
  cases hop : op.tag <;> simp only [refBinop, hop] at h <;>
    first
    | exact Option.noConfusion h
    | · injection h with h
        subst h
        simp [tryConstantFold, evalBinopToBoolBool, hop, litVal]

/-- If the reference interpreter gives a value to a unary node on a number
literal, folding produces the same value. -/
theorem foldUnNum_sound {num : Type} (ops : NumOps num) (a : num) (op : Token)
    (sa s : Span) (ta t : Option Ty) (v : Val num)
    (h : refUnary ops (Val.num a) op = some v) :
    litVal (tryConstantFold ops (Expression.unaryOp (Expression.number a sa ta) op
      s t)).1 = some v := by
  cases hop : op.tag <;> simp only [refUnary, hop] at h <;>
    first
    | exact Option.noConfusion h
    | · injection h with h
        subst h
        simp [tryConstantFold, evalUnary, hop, litVal]

/-- If the reference interpreter gives a value to a unary node on a boolean
literal, folding produces the same value. -/
theorem foldUnBool_sound {num : Type} (ops : NumOps num) (a : Bool) (op : Token)
    (sa s : Span) (ta t : Option Ty) (v : Val num)
    (h : refUnary ops (Val.bool a) op = some v) :
    litVal (tryConstantFold ops (Expression.unaryOp (Expression.boolean a sa ta) op
      s t)).1 = some v := by
  cases hop : op.tag <;> simp only [refUnary, hop] at h <;>
    first
    | exact Option.noConfusion h
    | · injection h with h
        subst h
        simp [tryConstantFold, evalUnaryBool, hop, litVal]

/-- Folding soundness: whenever the reference interpreter assigns a value
to a closed expression, one pass of the simplifier rewrites the expression
to a literal carrying exactly that value. -/
theorem simpExpr_sound {num : Type} (ops : NumOps num) :
    (e : Expression num) → ∀ v : Val num, referenceEval ops e = some v →
      litVal (simpExpr ops e).1 = some v
  | Expression.number v0 s t, v, h => by
    simp only [referenceEval] at h
    exact h
  | Expression.boolean b s t, v, h => by
    simp only [referenceEval] at h
    exact h
  | Expression.var n s t, v, h => Option.noConfusion h
  | Expression.call id args s t, v, h => Option.noConfusion h
  | Expression.binaryOp l op r s t, v, h => by
    rcases hl : referenceEval ops l with _ | vl
    · rw [referenceEval, hl] at h
      exact Option.noConfusion h
    rcases hr : referenceEval ops r with _ | vr
    · rw [referenceEval, hl, hr] at h
      exact Option.noConfusion h
    rw [referenceEval, hl, hr] at h
    have ihl := simpExpr_sound ops l vl hl
    have ihr := simpExpr_sound ops r vr hr
    show litVal (tryAlgebraicSimplify ops (tryConstantFold ops
      (Expression.binaryOp (simpExpr ops l).1 op (simpExpr ops r).1 s t)).1).1 = some v
    cases vl with
    | num a =>
      cases vr with
      | num b =>
        obtain ⟨sa, ta, hla⟩ := litVal_num_shape _ _ ihl
        obtain ⟨sb, tb, hrb⟩ := litVal_num_shape _ _ ihr
        rw [hla, hrb]
        have hfold := foldBinNum_sound ops a b op sa sb s ta tb t v h
        rw [tryAlgebraicSimplify_lit ops _ (isLiteral_of_litVal _ _ hfold)]
        exact hfold
      | bool b =>
        simp [refBinop] at h
    | bool a =>
      cases vr with
      | num b =>
        simp [refBinop] at h
      | bool b =>
        obtain ⟨sa, ta, hla⟩ := litVal_bool_shape _ _ ihl
        obtain ⟨sb, tb, hrb⟩ := litVal_bool_shape _ _ ihr
        rw [hla, hrb]
        have hfold := foldBinBool_sound ops a b op sa sb s ta tb t v h
        rw [tryAlgebraicSimplify_lit ops _ (isLiteral_of_litVal _ _ hfold)]
        exact hfold
  | Expression.unaryOp l op s t, v, h => by
    rcases hl : referenceEval ops l with _ | vl
    · rw [referenceEval, hl] at h
      exact Option.noConfusion h
    rw [referenceEval, hl] at h
    have ihl := simpExpr_sound ops l vl hl
    show litVal (tryAlgebraicSimplify ops (tryConstantFold ops
      (Expression.unaryOp (simpExpr ops l).1 op s t)).1).1 = some v
    cases vl with
    | num a =>
      obtain ⟨sa, ta, hla⟩ := litVal_num_shape _ _ ihl
      rw [hla]
      have hfold := foldUnNum_sound ops a op sa s ta t v h
      rw [tryAlgebraicSimplify_lit ops _ (isLiteral_of_litVal _ _ hfold)]
      exact hfold
    | bool a =>
      obtain ⟨sa, ta, hla⟩ := litVal_bool_shape _ _ ihl
      rw [hla]
      have hfold := foldUnBool_sound ops a op sa s ta t v h
      rw [tryAlgebraicSimplify_lit ops _ (isLiteral_of_litVal _ _ hfold)]
      exact hfold

end Hir

namespace Lowering

/-- Diagnostics emitted by the lowering pass (hir/passes/lowering.rs),
one constructor per `format!` site. -/
inductive LowDiag where
  | varNotFound (name : String)
  | unsupportedBinop (tag : TokenType)
  | unaryNotImplemented
  deriving DecidableEq, Repr

/-- State of `LoweringPass`: diagnostics, finished functions, the scope
stack mapping names to registers (head = innermost), the register
cursor, and the function/block under construction. -/
structure LowSt (num : Type) where
  errors : List LowDiag
  functions : List (Mir.MirFunction num)
  scopeStack : List (List (String × Nat))
  registerCursor : Nat
  currentFunction : Option (Mir.MirFunction num)
  currentBlock : Option Nat

/-- `LoweringPass::push_scope`. -/
def pushScope {num : Type} (st : LowSt num) : LowSt num :=
  { st with scopeStack := [] :: st.scopeStack }

/-- `LoweringPass::pop_scope`. -/
def popScope {num : Type} (st : LowSt num) : LowSt num :=
  { st with scopeStack := st.scopeStack.tail }

/-- `LoweringPass::get_free_register`. -/
def getFreeRegister {num : Type} (st : LowSt num) : Nat × LowSt num :=
  (st.registerCursor, { st with registerCursor := st.registerCursor + 1 })

/-- `LoweringPass::alloc_variable`: fresh register recorded in the
innermost scope (hash-map insert modelled as shadowing prepend). -/
def allocVariable {num : Type} (name : String) (st : LowSt num) : Nat × LowSt num :=
  let (reg, st1) := getFreeRegister st
  match st1.scopeStack with
  | [] => (reg, st1)
  | s :: rest => (reg, { st1 with scopeStack := ((name, reg) :: s) :: rest })

/-- Register lookup in one scope. -/
def lookupReg : List (String × Nat) → String → Option Nat
  | [], _ => none
  | (k, r) :: rest, name => if k = name then some r else lookupReg rest name

/-- `LoweringPass::lookup_variable`: innermost scope first. -/
def lookupVariable : List (List (String × Nat)) → String → Option Nat
  | [], _ => none
  | s :: rest, name =>
    match lookupReg s name with
    | some r => some r
    | none => lookupVariable rest name

/-- `LoweringPass::allocate_block`: append a fresh
`Unreachable`-terminated block to the current function's arena; `none`
is the `expect("No current function")` panic. -/
def allocateBlock {num : Type} (st : LowSt num) : Option (Nat × LowSt num) :=
  match st.currentFunction with
  | none => none
  | some f =>
    let (f1, id) := f.allocBlock
      { instructions := [], terminator := Mir.Terminator.unreachable, phiNodes := [] }
    some (id, { st with currentFunction := some f1 })

/-- `LoweringPass::add_instruction_to_block`; `none` models the panics
on a missing current function or an out-of-range block id. -/
def addInstructionToBlock {num : Type} (blockId : Nat)
    (inst : Mir.Instruction num) (st : LowSt num) : Option (LowSt num) :=
  match st.currentFunction with
  | none => none
  | some f =>
    match f.arena.get? blockId with
    | none => none
    | some b =>
      let b2 := { b with instructions := b.instructions ++ [inst] }
      let f2 := { f with arena := f.arena.set blockId b2 }
      some { st with currentFunction := some f2 }

/-- `LoweringPass::add_instruction`: to the current block. -/
def addInstruction {num : Type} (inst : Mir.Instruction num) (st : LowSt num) :
    Option (LowSt num) :=
  match st.currentBlock with
  | none => none
  | some id => addInstructionToBlock id inst st

/-- `LoweringPass::set_terminator_for_block`. -/
def setTerminatorForBlock {num : Type} (blockId : Nat)
    (term : Mir.Terminator num) (st : LowSt num) : Option (LowSt num) :=
  match st.currentFunction with
  | none => none
  | some f =>
    match f.arena.get? blockId with
    | none => none
    | some b =>
      let b2 := { b with terminator := term }
      let f2 := { f with arena := f.arena.set blockId b2 }
      some { st with currentFunction := some f2 }

/-- `LoweringPass::set_terminator`: for the current block. -/
def setTerminator {num : Type} (term : Mir.Terminator num) (st : LowSt num) :
    Option (LowSt num) :=
  match st.currentBlock with
  | none => none
  | some id => setTerminatorForBlock id term st

/-- Read a block of the current function (`MirFunction::block`); `none`
models the panics. -/
def readBlock {num : Type} (blockId : Nat) (st : LowSt num) :
    Option (Mir.BasicBlock num) :=
  match st.currentFunction with
  | none => none
  | some f => f.arena.get? blockId

/-- `LoweringPass::convert_type`; `none` models the `unreachable!` on
`Auto` and the `panic!` on pointer types. -/
def convertType : Ty → Option Mir.MirType
  | Ty.base BaseType.f8 => some Mir.MirType.f8
  | Ty.base BaseType.f16 => some Mir.MirType.f16
  | Ty.base BaseType.f32 => some Mir.MirType.f32
  | Ty.base BaseType.f64 => some Mir.MirType.f64
  | Ty.base BaseType.bool => some Mir.MirType.i1
  | Ty.base BaseType.void => some Mir.MirType.void
  | Ty.base BaseType.auto => none
  | Ty.pointer _ => none

/-- Append a diagnostic. -/
def pushDiag {num : Type} (st : LowSt num) (d : LowDiag) : LowSt num :=
  { st with errors := st.errors ++ [d] }

/-- The opcode of a binary operator token (the `match op.tag` of the
`BinaryOp` arm of `visit_expression`). -/
def binOpcode : TokenType → Option Mir.Opcode
  | TokenType.plus => some Mir.Opcode.add
  | TokenType.minus => some Mir.Opcode.sub
  | TokenType.star => some Mir.Opcode.mul
  | TokenType.slash => some Mir.Opcode.div
  | TokenType.percent => some Mir.Opcode.mod
  | TokenType.equal => some Mir.Opcode.eq
  | TokenType.notEqual => some Mir.Opcode.ne
  | TokenType.less => some Mir.Opcode.lt
  | TokenType.lessEqual => some Mir.Opcode.le
  | TokenType.greater => some Mir.Opcode.gt
  | TokenType.greaterEqual => some Mir.Opcode.ge
  | _ => none

mutual

/-- `LoweringPass::visit_expression` (hir/passes/lowering.rs).  The
outer `Option` is panic propagation (`unwrap`/`expect`); the inner
`Option (Operand num)` is the visitor output, `none` after a reported
diagnostic (`?` early return in the Rust). -/
def visitExpression {num : Type} (ops : NumOps num) :
    Hir.Expression num → LowSt num → Option (Option (Mir.Operand num) × LowSt num)
  | Hir.Expression.number v _ _, st => some (some (Mir.Operand.immF64 v), st)
  | Hir.Expression.boolean b _ _, st => some (some (Mir.Operand.immBool b), st)
  | Hir.Expression.var name _ _, st =>
    match lookupVariable st.scopeStack name with
    | none => some (none, pushDiag st (LowDiag.varNotFound name))
    | some r => some (some (Mir.Operand.reg r), st)
  | Hir.Expression.binaryOp l op r _ typ, st =>
    match visitExpression ops l st with
    | none => none
    | some (none, st1) => some (none, st1)
    | some (some lop, st1) =>
      match visitExpression ops r st1 with
      | none => none
      | some (none, st2) => some (none, st2)
      | some (some rop, st2) =>
        let (resultReg, st3) := getFreeRegister st2
        match binOpcode op.tag with
        | none => some (none, pushDiag st3 (LowDiag.unsupportedBinop op.tag))
        | some mop =>
          match typ with
          | none => none
          | some t =>
            match convertType t with
            | none => none
            | some mt =>
              match addInstruction
                  { dest := resultReg, op := mop, typ := mt, args := [lop, rop] } st3 with
              | none => none
              | some st4 => some (some (Mir.Operand.reg resultReg), st4)
  | Hir.Expression.unaryOp l op _ _, st =>
    match op.tag with
    | TokenType.minus =>
      match visitExpression ops l st with
      | none => none
      | some (none, _) => none
      | some (some v, st1) =>
        let (dest, st2) := getFreeRegister st1
        match l.typ with
        | none => none
        | some t =>
          match convertType t with
          | none => none
          | some mt =>
            match addInstruction
                { dest := dest, op := Mir.Opcode.sub, typ := mt,
                  args := [Mir.Operand.immF64 ops.zero, v] } st2 with
            | none => none
            | some st3 => some (some (Mir.Operand.reg dest), st3)
    | TokenType.bang =>
      match visitExpression ops l st with
      | none => none
      | some (none, _) => none
      | some (some v, st1) =>
        let (dest, st2) := getFreeRegister st1
        match addInstruction
            { dest := dest, op := Mir.Opcode.eq, typ := Mir.MirType.i1,
              args := [Mir.Operand.immF64 ops.zero, v] } st2 with
        | none => none
        | some st3 => some (some (Mir.Operand.reg dest), st3)
    | _ => some (none, pushDiag st LowDiag.unaryNotImplemented)
  | Hir.Expression.call ident args _ typ, st =>
    let (dest, st1) := getFreeRegister st
    match visitCallArgs ops args st1 with
    | none => none
    | some (argOps, st2) =>
      match typ with
      | none => none
      | some t =>
        match convertType t with
        | none => none
        | some mt =>
          match addInstruction
              { dest := dest, op := Mir.Opcode.call, typ := mt,
                args := Mir.Operand.label ident :: argOps } st2 with
          | none => none
          | some st3 => some (some (Mir.Operand.reg dest), st3)

/-- The argument loop of the `Call` arm: each argument's operand is
`unwrap`ped (panic when an argument produced no operand). -/
def visitCallArgs {num : Type} (ops : NumOps num) :
    Hir.ExprList num → LowSt num → Option (List (Mir.Operand num) × LowSt num)
  | Hir.ExprList.nil, st => some ([], st)
  | Hir.ExprList.cons e es, st =>
    match visitExpression ops e st with
    | none => none
    | some (none, _) => none
    | some (some v, st1) =>
      match visitCallArgs ops es st1 with
      | none => none
      | some (vs, st2) => some (v :: vs, st2)

end

/-- Pre-allocation of a block's HIR-scope variables in `visit_block`. -/
def allocScopeVars {num : Type} :
    List (String × Hir.Variable num) → LowSt num → LowSt num
  | [], st => st
  | (name, _) :: rest, st => allocScopeVars rest (allocVariable name st).2

/-- The "if current_block changed, set its terminator too" block that
`visit_statement` repeats verbatim after each nested body: when the
current block is not `target` and still has the `Unreachable`
placeholder, branch it to `to` (hir/passes/lowering.rs, the three
`if self.current_block != Some(..)` fixups). -/
def fixupTerminator {num : Type} (target dest : Nat) (st : LowSt num) :
    Option (LowSt num) :=
  if st.currentBlock ≠ some target then
    match st.currentBlock with
    | none => none
    | some blockId =>
      match readBlock blockId st with
      | none => none
      | some b =>
        match b.terminator with
        | Mir.Terminator.unreachable => setTerminator (Mir.Terminator.br dest) st
        | _ => some st
  else some st

/-- The `While` arm of `visit_statement` up to the body visit: allocate
the condition, body and merge blocks, branch the current block to the
condition block, lower the condition into it, give it the conditional
branch, and enter the body block (whose back edge to the condition block
is set before the body is lowered).  Returns the three block ids and the
state in which the body is lowered. -/
def whileSetup {num : Type} (ops : NumOps num) (cond : Hir.Expression num)
    (st : LowSt num) : Option (Nat × Nat × Nat × LowSt num) :=
  match allocateBlock st with
  | none => none
  | some (condBlock, st1) =>
    match allocateBlock st1 with
    | none => none
    | some (thenBlock, st2) =>
      match allocateBlock st2 with
      | none => none
      | some (mergeBlock, st3) =>
        match setTerminator (Mir.Terminator.br condBlock) st3 with
        | none => none
        | some st4 =>
          let st5 := { st4 with currentBlock := some condBlock }
          match visitExpression ops cond st5 with
          | none => none
          | some (none, _) => none
          | some (some condOp, st6) =>
            match setTerminatorForBlock condBlock
                (Mir.Terminator.brIf condOp thenBlock mergeBlock) st6 with
            | none => none
            | some st7 =>
              let st8 := { st7 with currentBlock := some thenBlock }
              match setTerminatorForBlock thenBlock
                  (Mir.Terminator.br condBlock) st8 with
              | none => none
              | some st9 => some (condBlock, thenBlock, mergeBlock, st9)

/-- The `While` arm of `visit_statement` after the body visit: the
changed-current-block fixup, then the merge block becomes current. -/
def whileFinish {num : Type} (condBlock thenBlock mergeBlock : Nat)
    (res : Option (LowSt num)) : Option (LowSt num) :=
  match res with
  | none => none
  | some st10 =>
    match fixupTerminator thenBlock condBlock st10 with
    | none => none
    | some st11 => some { st11 with currentBlock := some mergeBlock }

/-- The `If` arm of `visit_statement` up to the then-body visit:
allocate the then, else and merge blocks, lower the condition in the
current block and give it the conditional branch, branch the then block
to the merge block, and enter the then block. -/
def ifSetup {num : Type} (ops : NumOps num) (cond : Hir.Expression num)
    (st : LowSt num) : Option (Nat × Nat × Nat × LowSt num) :=
  match allocateBlock st with
  | none => none
  | some (thenBlock, st1) =>
    match allocateBlock st1 with
    | none => none
    | some (elsBlock, st2) =>
      match allocateBlock st2 with
      | none => none
      | some (mergeBlock, st3) =>
        match visitExpression ops cond st3 with
        | none => none
        | some (none, _) => none
        | some (some condOp, st4) =>
          match setTerminator
              (Mir.Terminator.brIf condOp thenBlock elsBlock) st4 with
          | none => none
          | some st5 =>
            match setTerminatorForBlock thenBlock
                (Mir.Terminator.br mergeBlock) st5 with
            | none => none
            | some st6 =>
              some (thenBlock, elsBlock, mergeBlock,
                { st6 with currentBlock := some thenBlock })

/-- The `If` arm between the then and else bodies: then-side fixup,
branch the else block to the merge block, enter the else block. -/
def ifMiddle {num : Type} (thenBlock elsBlock mergeBlock : Nat)
    (res : Option (LowSt num)) : Option (LowSt num) :=
  match res with
  | none => none
  | some st8 =>
    match fixupTerminator thenBlock mergeBlock st8 with
    | none => none
    | some st9 =>
      match setTerminatorForBlock elsBlock (Mir.Terminator.br mergeBlock) st9 with
      | none => none
      | some st10 => some { st10 with currentBlock := some elsBlock }

/-- The `If` arm after the else body: else-side fixup, then the merge
block becomes current. -/
def ifFinish {num : Type} (elsBlock mergeBlock : Nat)
    (res : Option (LowSt num)) : Option (LowSt num) :=
  match res with
  | none => none
  | some st12 =>
    match fixupTerminator elsBlock mergeBlock st12 with
    | none => none
    | some st13 => some { st13 with currentBlock := some mergeBlock }

mutual

/-- `LoweringPass::visit_statement` (hir/passes/lowering.rs), arm by
arm; `none` is a propagated panic. -/
def visitStatement {num : Type} (ops : NumOps num) :
    Hir.Statement num → LowSt num → Option (LowSt num)
  | Hir.Statement.exprStmt e _, st =>
    match visitExpression ops e st with
    | none => none
    | some (_, st1) => some st1
  | Hir.Statement.whileStmt cond body _, st =>
    match whileSetup ops cond st with
    | none => none
    | some (condBlock, thenBlock, mergeBlock, st9) =>
      whileFinish condBlock thenBlock mergeBlock (visitBlock ops body st9)
  | Hir.Statement.ifStmt cond thenB els _, st =>
    match ifSetup ops cond st with
    | none => none
    | some (thenBlock, elsBlock, mergeBlock, st7) =>
      match ifMiddle thenBlock elsBlock mergeBlock (visitBlock ops thenB st7) with
      | none => none
      | some st11 =>
        ifFinish elsBlock mergeBlock
          (match els with
           | some e => visitBlock ops e st11
           | none => some st11)
  | Hir.Statement.blockStmt b _, st => visitBlock ops b st
  | Hir.Statement.ret expr _, st =>
    match expr with
    | none => setTerminator (Mir.Terminator.ret none) st
    | some e =>
      match visitExpression ops e st with
      | none => none
      | some (v, st1) => setTerminator (Mir.Terminator.ret v) st1
  | Hir.Statement.assignment left _ right _, st =>
    let (destReg, st1) :=
      match lookupVariable st.scopeStack left with
      | some r => (r, st)
      | none => allocVariable left st
    match right with
    | none => some st1
    | some expr =>
      match visitExpression ops expr st1 with
      | none => none
      | some (none, st2) => some st2
      | some (some value, st2) =>
        match expr.typ with
        | none => none
        | some t =>
          match convertType t with
          | none => none
          | some mt =>
            addInstruction
              { dest := destReg, op := Mir.Opcode.copy, typ := mt, args := [value] } st2
  | Hir.Statement.functionDefinition _ _ _ _ _, st => some st

/-- `LoweringPass::visit_block`: push a scope, pre-allocate the HIR
scope's variables, lower the statements, pop.  (Rust iterates a hash
map here; the association list is iterated in order.) -/
def visitBlock {num : Type} (ops : NumOps num) :
    Hir.Block num → LowSt num → Option (LowSt num)
  | Hir.Block.mk stmts scope _, st =>
    let st1 := pushScope st
    let st2 :=
      match scope with
      | none => st1
      | some (Hir.Scope.mk symbols _) => allocScopeVars symbols st1
    match visitStmtList ops stmts st2 with
    | none => none
    | some st3 => some (popScope st3)

/-- The statement loop shared by `visit_block` and `visit_function`. -/
def visitStmtList {num : Type} (ops : NumOps num) :
    Hir.StmtList num → LowSt num → Option (LowSt num)
  | Hir.StmtList.nil, st => some st
  | Hir.StmtList.cons s ss, st =>
    match visitStatement ops s st with
    | none => none
    | some st1 => visitStmtList ops ss st1

end

theorem visitStatement_exprStmt_eq {num : Type} (ops : NumOps num)
    (e : Hir.Expression num) (sp : Span) (st : LowSt num) :
    visitStatement ops (Hir.Statement.exprStmt e sp) st =
      (match visitExpression ops e st with
       | none => none
       | some (_, st1) => some st1) := rfl

theorem visitStatement_while_eq {num : Type} (ops : NumOps num)
    (cond : Hir.Expression num) (body : Hir.Block num) (sp : Span) (st : LowSt num) :
    visitStatement ops (Hir.Statement.whileStmt cond body sp) st =
      (match whileSetup ops cond st with
       | none => none
       | some (condBlock, thenBlock, mergeBlock, st9) =>
         whileFinish condBlock thenBlock mergeBlock (visitBlock ops body st9)) := rfl

theorem visitStatement_if_eq {num : Type} (ops : NumOps num)
    (cond : Hir.Expression num) (thenB : Hir.Block num) (els : Option (Hir.Block num))
    (sp : Span) (st : LowSt num) :
    visitStatement ops (Hir.Statement.ifStmt cond thenB els sp) st =
      (match ifSetup ops cond st with
       | none => none
       | some (thenBlock, elsBlock, mergeBlock, st7) =>
         match ifMiddle thenBlock elsBlock mergeBlock (visitBlock ops thenB st7) with
         | none => none
         | some st11 =>
           ifFinish elsBlock mergeBlock
             (match els with
              | some e => visitBlock ops e st11
              | none => some st11)) := by
  cases els with
  | none => rfl
  | some e => rfl

theorem visitStatement_blockStmt_eq {num : Type} (ops : NumOps num)
    (b : Hir.Block num) (sp : Span) (st : LowSt num) :
    visitStatement ops (Hir.Statement.blockStmt b sp) st = visitBlock ops b st := rfl

theorem visitStatement_ret_eq {num : Type} (ops : NumOps num)
    (expr : Option (Hir.Expression num)) (sp : Span) (st : LowSt num) :
    visitStatement ops (Hir.Statement.ret expr sp) st =
      (match expr with
       | none => setTerminator (Mir.Terminator.ret none) st
       | some e =>
         match visitExpression ops e st with
         | none => none
         | some (v, st1) => setTerminator (Mir.Terminator.ret v) st1) := rfl

theorem visitStatement_assignment_eq {num : Type} (ops : NumOps num)
    (left : String) (typ : Option Ty) (right : Option (Hir.Expression num))
    (sp : Span) (st : LowSt num) :
    visitStatement ops (Hir.Statement.assignment left typ right sp) st =
      (let (destReg, st1) :=
        match lookupVariable st.scopeStack left with
        | some r => (r, st)
        | none => allocVariable left st
      match right with
      | none => some st1
      | some expr =>
        match visitExpression ops expr st1 with
        | none => none
        | some (none, st2) => some st2
        | some (some value, st2) =>
          match expr.typ with
          | none => none
          | some t =>
            match convertType t with
            | none => none
            | some mt =>
              addInstruction
                { dest := destReg, op := Mir.Opcode.copy, typ := mt,
                  args := [value] } st2) := rfl

theorem visitStatement_fnDef_eq {num : Type} (ops : NumOps num)
    (name : String) (args : List (Hir.Variable num)) (rt : Ty) (body : Hir.Block num)
    (sp : Span) (st : LowSt num) :
    visitStatement ops (Hir.Statement.functionDefinition name args rt body sp) st =
      some st := rfl

theorem visitBlock_eq {num : Type} (ops : NumOps num)
    (stmts : Hir.StmtList num) (scope : Option (Hir.Scope num)) (sp : Span)
    (st : LowSt num) :
    visitBlock ops (Hir.Block.mk stmts scope sp) st =
      (match visitStmtList ops stmts
          (match scope with
           | none => pushScope st
           | some (Hir.Scope.mk symbols _) => allocScopeVars symbols (pushScope st)) with
       | none => none
       | some st3 => some (popScope st3)) := rfl

theorem visitStmtList_nil_eq {num : Type} (ops : NumOps num) (st : LowSt num) :
    visitStmtList ops Hir.StmtList.nil st = some st := rfl

theorem visitStmtList_cons_eq {num : Type} (ops : NumOps num)
    (s : Hir.Statement num) (ss : Hir.StmtList num) (st : LowSt num) :
    visitStmtList ops (Hir.StmtList.cons s ss) st =
      (match visitStatement ops s st with
       | none => none
       | some st1 => visitStmtList ops ss st1) := rfl

/-- The parameter loop of `visit_function`: allocate a register per
parameter and convert its type (`convert_type` panics propagate). -/
def lowerParams {num : Type} :
    List (Hir.Variable num) → LowSt num → Option (List (Nat × Mir.MirType) × LowSt num)
  | [], st => some ([], st)
  | arg :: args, st =>
    let (reg, st1) := allocVariable arg.name st
    match convertType arg.typ with
    | none => none
    | some mt =>
      match lowerParams args st1 with
      | none => none
      | some (ps, st2) => some ((reg, mt) :: ps, st2)

/-- `LoweringPass::visit_function`: build a fresh `MirFunction` whose
entry block is `Unreachable`-terminated, lower the body statements into
it, then move the function to the finished list. -/
def visitFunction {num : Type} (ops : NumOps num) (f : Hir.Func num) (st : LowSt num) :
    Option (LowSt num) :=
  match f with
  | Hir.Func.mk name args retTy body =>
    let st1 := pushScope st
    match lowerParams args st1 with
    | none => none
    | some (params, st2) =>
      match convertType retTy with
      | none => none
      | some returnType =>
        let mirFunc := Mir.MirFunction.new num name params returnType
        let entryBlock := mirFunc.entry
        let st3 := { st2 with currentFunction := some mirFunc,
                              currentBlock := some entryBlock }
        match visitStmtList ops body.statements st3 with
        | none => none
        | some st4 =>
          let st5 := popScope st4
          let st6 :=
            match st5.currentFunction with
            | some func => { st5 with functions := st5.functions ++ [func],
                                      currentFunction := none }
            | none => st5
          some { st6 with currentBlock := none }

/-- The function loop of `visit_program`. -/
def visitFunctions {num : Type} (ops : NumOps num) :
    List (Hir.Func num) → LowSt num → Option (LowSt num)
  | [], st => some st
  | f :: fs, st =>
    match visitFunction ops f st with
    | none => none
    | some st1 => visitFunctions ops fs st1

/-- The global loop of `visit_program`. -/
def allocGlobals {num : Type} : List (Hir.Variable num) → LowSt num → LowSt num
  | [], st => st
  | g :: gs, st => allocGlobals gs (allocVariable g.name st).2

/-- `LoweringPass::visit_program`: a global scope holding every global's
register, then every function is lowered. -/
def visitProgram {num : Type} (ops : NumOps num) (p : Hir.Program num)
    (st : LowSt num) : Option (LowSt num) :=
  let st1 := allocGlobals p.globals (pushScope st)
  match visitFunctions ops p.functions st1 with
  | none => none
  | some st2 => some (popScope st2)

/-- `LoweringPass::lower` from a fresh pass state: the produced
`MirProgram` (and the final pass state). -/
def lowerProgram {num : Type} (ops : NumOps num) (p : Hir.Program num) :
    Option (Mir.MirProgram num × LowSt num) :=
  match visitProgram ops p ⟨[], [], [], 0, none, none⟩ with
  | none => none
  | some st => some ({ functions := st.functions }, st)

/-- Terminator of block `i` of the function under construction. -/
def termAt {num : Type} (st : LowSt num) (i : Nat) : Option (Mir.Terminator num) :=
  Option.bind st.currentFunction (fun f => (f.arena.get? i).map (fun b => b.terminator))

/-- Arena length of the function under construction. -/
def arenaLen {num : Type} (st : LowSt num) : Option Nat :=
  Option.map (fun f => f.arena.length) st.currentFunction

/-- Invariant maintained between statements during lowering: a current
block exists inside the arena, and every other block — except the
pending merge blocks of enclosing statements still being lowered — has
already received a real terminator. -/
def StOkE {num : Type} (st : LowSt num) (pending : Nat → Prop) : Prop :=
  ∃ cur n, st.currentBlock = some cur ∧ arenaLen st = some n ∧ cur < n ∧
    ∀ i t, termAt st i = some t → i ≠ cur → ¬ pending i →
      t ≠ Mir.Terminator.unreachable

/-- The arena only grows. -/
def LenGe {num : Type} (st st' : LowSt num) : Prop :=
  ∀ n, arenaLen st = some n → ∃ n', arenaLen st' = some n' ∧ n ≤ n'

/-- No pre-existing block's terminator is reset to `Unreachable`. -/
def OldUnreach {num : Type} (st st' : LowSt num) : Prop :=
  ∀ i n, arenaLen st = some n → i < n →
    termAt st' i = some Mir.Terminator.unreachable →
    termAt st i = some Mir.Terminator.unreachable

theorem get?_set_self {α : Type} (l : List α) (i : Nat) (a : α) (h : i < l.length) :
    (l.set i a).get? i = some a := by
  induction l generalizing i with
  | nil => simp at h
  | cons x xs ih =>
    cases i with
    | zero => simp [List.set]
    | succ j =>
      simp only [List.set, List.get?]
      exact ih j (by simpa using h)

theorem get?_set_ne {α : Type} (l : List α) (i j : Nat) (a : α) (h : i ≠ j) :
    (l.set i a).get? j = l.get? j := by
  induction l generalizing i j with
  | nil => simp [List.set]
  | cons x xs ih =>
    cases i with
    | zero =>
      cases j with
      | zero => exact absurd rfl h
      | succ k => simp [List.set]
    | succ i2 =>
      cases j with
      | zero => simp [List.set]
      | succ k =>
        simp only [List.set, List.get?]
        exact ih i2 k (by omega)

theorem get?_append_lt {α : Type} (l l2 : List α) (i : Nat) (h : i < l.length) :
    (l ++ l2).get? i = l.get? i := by
  induction l generalizing i with
  | nil => simp at h
  | cons x xs ih =>
    cases i with
    | zero => rfl
    | succ j =>
      simp only [List.cons_append, List.get?]
      exact ih j (by simpa using h)

theorem get?_append_len {α : Type} (l : List α) (a : α) :
    (l ++ [a]).get? l.length = some a := by
  induction l with
  | nil => rfl
  | cons x xs ih => simpa using ih

theorem pushDiag_cf {num : Type} (st : LowSt num) (d : LowDiag) :
    (pushDiag st d).currentBlock = st.currentBlock ∧
      (pushDiag st d).currentFunction = st.currentFunction :=
  ⟨rfl, rfl⟩

theorem getFreeRegister_cf {num : Type} (st : LowSt num) :
    (getFreeRegister st).2.currentBlock = st.currentBlock ∧
      (getFreeRegister st).2.currentFunction = st.currentFunction :=
  ⟨rfl, rfl⟩

theorem allocVariable_cf {num : Type} (name : String) (st : LowSt num) :
    (allocVariable name st).2.currentBlock = st.currentBlock ∧
      (allocVariable name st).2.currentFunction = st.currentFunction := by
  unfold allocVariable getFreeRegister
  cases h : st.scopeStack with
  | nil => exact ⟨rfl, rfl⟩
  | cons s rest => exact ⟨rfl, rfl⟩

theorem cf_eq_pres {num : Type} (st st' : LowSt num)
    (hb : st'.currentBlock = st.currentBlock)
    (hf : st'.currentFunction = st.currentFunction) :
    st'.currentBlock = st.currentBlock ∧ arenaLen st' = arenaLen st ∧
      ∀ i, termAt st' i = termAt st i := by
  refine ⟨hb, ?_, ?_⟩
  · unfold arenaLen; rw [hf]
  · intro i; unfold termAt; rw [hf]

theorem get?_append_singleton_ge {α : Type} (l : List α) (a : α) (i : Nat)
    (h : l.length + 1 ≤ i) : (l ++ [a]).get? i = none := by
  rw [List.get?_eq_none]
  simpa using h

theorem addInstructionToBlock_pres {num : Type} (blockId : Nat)
    (inst : Mir.Instruction num) (st st' : LowSt num)
    (h : addInstructionToBlock blockId inst st = some st') :
    st'.currentBlock = st.currentBlock ∧ arenaLen st' = arenaLen st ∧
      ∀ i, termAt st' i = termAt st i := by
  unfold addInstructionToBlock at h
  split at h
  · simp at h
  · rename_i f hf
    split at h
    · simp at h
    · rename_i b hb
      simp only [Option.some.injEq] at h
      subst h
      have hlen : blockId < f.arena.length := (List.get?_eq_some.mp hb).1
      refine ⟨rfl, ?_, ?_⟩
      · simp [arenaLen, hf]
      · intro i
        by_cases hi : i = blockId
        · subst hi
          simp only [termAt, hf, Option.some_bind]
          rw [get?_set_self _ _ _ hlen, hb]
          rfl
        · simp only [termAt, hf, Option.some_bind]
          rw [get?_set_ne _ _ _ _ (fun hc => hi hc.symm)]

theorem addInstruction_pres {num : Type} (inst : Mir.Instruction num)
    (st st' : LowSt num) (h : addInstruction inst st = some st') :
    st'.currentBlock = st.currentBlock ∧ arenaLen st' = arenaLen st ∧
      ∀ i, termAt st' i = termAt st i := by
  unfold addInstruction at h
  split at h
  · simp at h
  · rename_i id hb
    exact addInstructionToBlock_pres id inst st st' h

theorem setTerminatorForBlock_effect {num : Type} (blockId : Nat)
    (term : Mir.Terminator num) (st st' : LowSt num)
    (h : setTerminatorForBlock blockId term st = some st') :
    st'.currentBlock = st.currentBlock ∧ arenaLen st' = arenaLen st ∧
      termAt st' blockId = some term ∧
      ∀ i, i ≠ blockId → termAt st' i = termAt st i := by
  unfold setTerminatorForBlock at h
  split at h
  · simp at h
  · rename_i f hf
    split at h
    · simp at h
    · rename_i b hb
      simp only [Option.some.injEq] at h
      subst h
      have hlen : blockId < f.arena.length := (List.get?_eq_some.mp hb).1
      refine ⟨rfl, ?_, ?_, ?_⟩
      · simp [arenaLen, hf]
      · simp only [termAt, hf, Option.some_bind]
        rw [get?_set_self _ _ _ hlen]
        rfl
      · intro i hi
        simp only [termAt, hf, Option.some_bind]
        rw [get?_set_ne _ _ _ _ (fun hc => hi hc.symm)]

theorem setTerminator_effect {num : Type} (term : Mir.Terminator num)
    (st st' : LowSt num) (h : setTerminator term st = some st') :
    ∃ cur, st.currentBlock = some cur ∧
      st'.currentBlock = st.currentBlock ∧ arenaLen st' = arenaLen st ∧
      termAt st' cur = some term ∧
      ∀ i, i ≠ cur → termAt st' i = termAt st i := by
  unfold setTerminator at h
  split at h
  · simp at h
  · rename_i id hb
    obtain ⟨h1, h2, h3, h4⟩ := setTerminatorForBlock_effect id term st st' h
    exact ⟨id, hb, h1, h2, h3, h4⟩

theorem allocateBlock_effect {num : Type} (st : LowSt num) (id : Nat) (st' : LowSt num)
    (h : allocateBlock st = some (id, st')) :
    st'.currentBlock = st.currentBlock ∧
      ∃ n, arenaLen st = some n ∧ id = n ∧ arenaLen st' = some (n + 1) ∧
        termAt st' n = some Mir.Terminator.unreachable ∧
        ∀ i, i ≠ n → termAt st' i = termAt st i := by
  unfold allocateBlock at h
  split at h
  · simp at h
  · rename_i f hf
    unfold Mir.MirFunction.allocBlock at h
    simp only [Option.some.injEq, Prod.mk.injEq] at h
    obtain ⟨hid, hst⟩ := h
    subst hst
    refine ⟨rfl, f.arena.length, ?_, hid.symm, ?_, ?_, ?_⟩
    · simp [arenaLen, hf]
    · simp [arenaLen]
    · simp only [termAt, Option.some_bind]
      rw [get?_append_len]
      rfl
    · intro i hi
      simp only [termAt, hf, Option.some_bind]
      by_cases hlt : i < f.arena.length
      · rw [get?_append_lt _ _ _ hlt]
      · have h1 : f.arena.get? i = none := by
          rw [List.get?_eq_none]
          omega
        rw [h1, get?_append_singleton_ge _ _ _ (by omega)]

theorem readBlock_term {num : Type} (blockId : Nat) (st : LowSt num)
    (b : Mir.BasicBlock num) (h : readBlock blockId st = some b) :
    termAt st blockId = some b.terminator := by
  unfold readBlock at h
  split at h
  · simp at h
  · rename_i f hf
    simp only [termAt, hf, Option.some_bind, h]
    rfl

/-- Expression lowering only appends instructions: the current block,
the arena length and every terminator are unchanged. -/
def CfPres {num : Type} (st st' : LowSt num) : Prop :=
  st'.currentBlock = st.currentBlock ∧ arenaLen st' = arenaLen st ∧
    ∀ i, termAt st' i = termAt st i

theorem cfPres_refl {num : Type} (st : LowSt num) : CfPres st st :=
  ⟨rfl, rfl, fun _ => rfl⟩

theorem cfPres_trans {num : Type} (st st1 st2 : LowSt num)
    (h1 : CfPres st st1) (h2 : CfPres st1 st2) : CfPres st st2 :=
  ⟨h2.1.trans h1.1, h2.2.1.trans h1.2.1, fun i => (h2.2.2 i).trans (h1.2.2 i)⟩

theorem pushDiag_cfPres {num : Type} (st : LowSt num) (d : LowDiag) :
    CfPres st (pushDiag st d) :=
  ⟨rfl, rfl, fun _ => rfl⟩

theorem getFreeRegister_cfPres {num : Type} (st : LowSt num) :
    CfPres st (getFreeRegister st).2 :=
  ⟨rfl, rfl, fun _ => rfl⟩

theorem allocVariable_cfPres {num : Type} (name : String) (st : LowSt num) :
    CfPres st (allocVariable name st).2 := by
  unfold allocVariable getFreeRegister
  cases h : st.scopeStack with
  | nil => exact ⟨rfl, rfl, fun _ => rfl⟩
  | cons s rest => exact ⟨rfl, rfl, fun _ => rfl⟩

theorem addInstruction_cfPres {num : Type} (inst : Mir.Instruction num)
    (st st' : LowSt num) (h : addInstruction inst st = some st') : CfPres st st' :=
  addInstruction_pres inst st st' h

mutual

/-- `visit_expression` preserves the control-flow state. -/
theorem visitExpression_pres {num : Type} (ops : NumOps num) :
    (e : Hir.Expression num) → ∀ (st : LowSt num) (v : Option (Mir.Operand num))
      (st' : LowSt num), visitExpression ops e st = some (v, st') → CfPres st st'
  | Hir.Expression.number a sp t, st, v, st', h => by
    simp only [visitExpression, Option.some.injEq, Prod.mk.injEq] at h
    rw [← h.2]
    exact cfPres_refl st
  | Hir.Expression.boolean a sp t, st, v, st', h => by
    simp only [visitExpression, Option.some.injEq, Prod.mk.injEq] at h
    rw [← h.2]
    exact cfPres_refl st
  | Hir.Expression.var name sp t, st, v, st', h => by
    simp only [visitExpression] at h
    split at h
    · simp only [Option.some.injEq, Prod.mk.injEq] at h
      rw [← h.2]
      exact pushDiag_cfPres st _
    · simp only [Option.some.injEq, Prod.mk.injEq] at h
      rw [← h.2]
      exact cfPres_refl st
  | Hir.Expression.binaryOp l op r sp typ, st, v, st', h => by
    simp only [visitExpression] at h
    split at h
    · simp at h
    · rename_i st1 heql
      simp only [Option.some.injEq, Prod.mk.injEq] at h
      rw [← h.2]
      exact visitExpression_pres ops l st none st1 heql
    · rename_i lop st1 heql
      have hl := visitExpression_pres ops l st (some lop) st1 heql
      split at h
      · simp at h
      · rename_i st2 heqr
        simp only [Option.some.injEq, Prod.mk.injEq] at h
        rw [← h.2]
        exact cfPres_trans _ _ _ hl (visitExpression_pres ops r st1 none st2 heqr)
      · rename_i rop st2 heqr
        have hr := visitExpression_pres ops r st1 (some rop) st2 heqr
        have hreg := getFreeRegister_cfPres st2
        split at h
        · simp only [Option.some.injEq, Prod.mk.injEq] at h
          rw [← h.2]
          exact cfPres_trans _ _ _ hl (cfPres_trans _ _ _ hr
            (cfPres_trans _ _ _ hreg (pushDiag_cfPres _ _)))
        · rename_i mop heqop
          split at h
          · simp at h
          · rename_i t
            split at h
            · simp at h
            · rename_i mt heqmt
              split at h
              · simp at h
              · rename_i st4 heqadd
                simp only [Option.some.injEq, Prod.mk.injEq] at h
                rw [← h.2]
                exact cfPres_trans _ _ _ hl (cfPres_trans _ _ _ hr
                  (cfPres_trans _ _ _ hreg (addInstruction_cfPres _ _ _ heqadd)))
  | Hir.Expression.unaryOp l op sp t, st, v, st', h => by
    simp only [visitExpression] at h
    split at h
    · -- minus
      split at h
      · simp at h
      · simp at h
      · rename_i lv st1 heql
        have hl := visitExpression_pres ops l st (some lv) st1 heql
        have hreg := getFreeRegister_cfPres st1
        split at h
        · simp at h
        · split at h
          · simp at h
          · rename_i mt heqmt
            split at h
            · simp at h
            · rename_i st3 heqadd
              simp only [Option.some.injEq, Prod.mk.injEq] at h
              rw [← h.2]
              exact cfPres_trans _ _ _ hl (cfPres_trans _ _ _ hreg
                (addInstruction_cfPres _ _ _ heqadd))
    · -- bang
      split at h
      · simp at h
      · simp at h
      · rename_i lv st1 heql
        have hl := visitExpression_pres ops l st (some lv) st1 heql
        have hreg := getFreeRegister_cfPres st1
        split at h
        · simp at h
        · rename_i st3 heqadd
          simp only [Option.some.injEq, Prod.mk.injEq] at h
          rw [← h.2]
          exact cfPres_trans _ _ _ hl (cfPres_trans _ _ _ hreg
            (addInstruction_cfPres _ _ _ heqadd))
    · -- other tags: diagnostic
      simp only [Option.some.injEq, Prod.mk.injEq] at h
      rw [← h.2]
      exact pushDiag_cfPres st _
  | Hir.Expression.call ident args sp typ, st, v, st', h => by
    simp only [visitExpression] at h
    have hreg := getFreeRegister_cfPres st
    split at h
    · simp at h
    · rename_i argOps st2 heqargs
      have hargs := visitCallArgs_pres ops args (getFreeRegister st).2 argOps st2 heqargs
      split at h
      · simp at h
      · rename_i t
        split at h
        · simp at h
        · rename_i mt heqmt
          split at h
          · simp at h
          · rename_i st3 heqadd
            simp only [Option.some.injEq, Prod.mk.injEq] at h
            rw [← h.2]
            exact cfPres_trans _ _ _ hreg (cfPres_trans _ _ _ hargs
              (addInstruction_cfPres _ _ _ heqadd))

/-- The call-argument loop preserves the control-flow state. -/
theorem visitCallArgs_pres {num : Type} (ops : NumOps num) :
    (es : Hir.ExprList num) → ∀ (st : LowSt num) (vs : List (Mir.Operand num))
      (st' : LowSt num), visitCallArgs ops es st = some (vs, st') → CfPres st st'
  | Hir.ExprList.nil, st, vs, st', h => by
    simp only [visitCallArgs, Option.some.injEq, Prod.mk.injEq] at h
    rw [← h.2]
    exact cfPres_refl st
  | Hir.ExprList.cons e es, st, vs, st', h => by
    simp only [visitCallArgs] at h
    split at h
    · simp at h
    · simp at h
    · rename_i v1 st1 heqe
      have he := visitExpression_pres ops e st (some v1) st1 heqe
      split at h
      · simp at h
      · rename_i vs2 st2 heqes
        simp only [Option.some.injEq, Prod.mk.injEq] at h
        rw [← h.2]
        exact cfPres_trans _ _ _ he (visitCallArgs_pres ops es st1 vs2 st2 heqes)

end

theorem cfPres_stok {num : Type} (st st' : LowSt num) (pending : Nat → Prop)
    (hc : CfPres st st') (hs : StOkE st pending) : StOkE st' pending := by
  obtain ⟨cur, n, hcb, hlen, hlt, hterm⟩ := hs
  exact ⟨cur, n, hc.1.trans hcb, hc.2.1.trans hlen, hlt,
    fun i t ht hi hp => hterm i t ((hc.2.2 i).symm.trans ht) hi hp⟩

theorem cfPres_lenGe {num : Type} (st st' : LowSt num) (hc : CfPres st st') :
    LenGe st st' :=
  fun n hn => ⟨n, hc.2.1.trans hn, Nat.le_refl n⟩

theorem cfPres_oldUnreach {num : Type} (st st' : LowSt num) (hc : CfPres st st') :
    OldUnreach st st' :=
  fun i _ _ _ ht => (hc.2.2 i).symm.trans ht

theorem lenGe_trans {num : Type} (st st1 st2 : LowSt num)
    (h1 : LenGe st st1) (h2 : LenGe st1 st2) : LenGe st st2 := by
  intro n hn
  obtain ⟨n1, hn1, hle1⟩ := h1 n hn
  obtain ⟨n2, hn2, hle2⟩ := h2 n1 hn1
  exact ⟨n2, hn2, Nat.le_trans hle1 hle2⟩

theorem oldUnreach_trans {num : Type} (st st1 st2 : LowSt num)
    (h1 : OldUnreach st st1) (hl : LenGe st st1) (h2 : OldUnreach st1 st2) :
    OldUnreach st st2 := by
  intro i n hn hi ht
  obtain ⟨n1, hn1, hle⟩ := hl n hn
  exact h1 i n hn hi (h2 i n1 hn1 (Nat.lt_of_lt_of_le hi hle) ht)

theorem lenGe_refl {num : Type} (st : LowSt num) : LenGe st st :=
  fun n hn => ⟨n, hn, Nat.le_refl n⟩

theorem oldUnreach_refl {num : Type} (st : LowSt num) : OldUnreach st st :=
  fun _ _ _ _ ht => ht

/-- A terminator write of a non-`Unreachable` terminator. -/
theorem setTerminatorForBlock_oldUnreach {num : Type} (blockId : Nat)
    (term : Mir.Terminator num) (st st' : LowSt num)
    (h : setTerminatorForBlock blockId term st = some st')
    (hterm : term ≠ Mir.Terminator.unreachable) : OldUnreach st st' := by
  obtain ⟨_, _, hset, hother⟩ := setTerminatorForBlock_effect blockId term st st' h
  intro i n hn hi ht
  by_cases hib : i = blockId
  · subst hib
    rw [hset] at ht
    exact absurd (Option.some.inj ht) hterm
  · rw [hother i hib] at ht
    exact ht

theorem setTerminatorForBlock_lenGe {num : Type} (blockId : Nat)
    (term : Mir.Terminator num) (st st' : LowSt num)
    (h : setTerminatorForBlock blockId term st = some st') : LenGe st st' := by
  obtain ⟨_, hlen, _, _⟩ := setTerminatorForBlock_effect blockId term st st' h
  exact fun n hn => ⟨n, hlen.trans hn, Nat.le_refl n⟩

theorem allocateBlock_lenGe {num : Type} (st : LowSt num) (id : Nat) (st' : LowSt num)
    (h : allocateBlock st = some (id, st')) : LenGe st st' := by
  obtain ⟨_, n, hn, _, hlen', _, _⟩ := allocateBlock_effect st id st' h
  intro m hm
  rw [hn] at hm
  have hnm : n = m := Option.some.inj hm
  subst hnm
  exact ⟨n + 1, hlen', by omega⟩

theorem allocateBlock_oldUnreach {num : Type} (st : LowSt num) (id : Nat)
    (st' : LowSt num) (h : allocateBlock st = some (id, st')) : OldUnreach st st' := by
  obtain ⟨_, n, hn, hid, _, _, hother⟩ := allocateBlock_effect st id st' h
  intro i m hm hi ht
  rw [hn] at hm
  have : i ≠ n := by
    have := Option.some.inj hm
    omega
  rw [hother i this] at ht
  exact ht

theorem termAt_setCurrentBlock {num : Type} (st : LowSt num) (cb : Option Nat) (i : Nat) :
    termAt { st with currentBlock := cb } i = termAt st i := rfl

theorem arenaLen_setCurrentBlock {num : Type} (st : LowSt num) (cb : Option Nat) :
    arenaLen { st with currentBlock := cb } = arenaLen st := rfl

/-- Setting a real terminator on the current block keeps the invariant. -/
theorem setTerminator_stok {num : Type} (term : Mir.Terminator num)
    (st st' : LowSt num) (pending : Nat → Prop)
    (hterm : term ≠ Mir.Terminator.unreachable)
    (h : setTerminator term st = some st') (hs : StOkE st pending) :
    StOkE st' pending ∧ LenGe st st' ∧ OldUnreach st st' := by
  obtain ⟨cur, n, hcb, hlen, hlt, hinv⟩ := hs
  obtain ⟨cur2, hcb2, hcb', hlen', hset, hother⟩ := setTerminator_effect term st st' h
  have hcc : cur2 = cur := by
    rw [hcb] at hcb2
    exact (Option.some.inj hcb2).symm
  subst hcc
  refine ⟨⟨cur2, n, hcb'.trans hcb, hlen'.trans hlen, hlt, ?_⟩, ?_, ?_⟩
  · intro i t ht hi hp
    rw [hother i hi] at ht
    exact hinv i t ht hi hp
  · exact fun m hm => ⟨m, hlen'.trans hm, Nat.le_refl m⟩
  · intro i m hm him ht
    by_cases hic : i = cur2
    · subst hic
      rw [hset] at ht
      exact absurd (Option.some.inj ht) hterm
    · rw [hother i hic] at ht
      exact ht

theorem stok_triple_refl {num : Type} (st : LowSt num) (pending : Nat → Prop)
    (hs : StOkE st pending) :
    StOkE st pending ∧ LenGe st st ∧ OldUnreach st st :=
  ⟨hs, lenGe_refl st, oldUnreach_refl st⟩

theorem stok_triple_cfPres {num : Type} (st st' : LowSt num) (pending : Nat → Prop)
    (hc : CfPres st st') (hs : StOkE st pending) :
    StOkE st' pending ∧ LenGe st st' ∧ OldUnreach st st' :=
  ⟨cfPres_stok st st' pending hc hs, cfPres_lenGe st st' hc, cfPres_oldUnreach st st' hc⟩

theorem setTerminator_oldUnreach {num : Type} (term : Mir.Terminator num)
    (st st' : LowSt num) (h : setTerminator term st = some st')
    (hterm : term ≠ Mir.Terminator.unreachable) : OldUnreach st st' := by
  obtain ⟨cur, hcb, hcb', hlen, hset, hother⟩ := setTerminator_effect term st st' h
  intro i m hm hi ht
  by_cases hic : i = cur
  · subst hic
    rw [hset] at ht
    exact absurd (Option.some.inj ht) hterm
  · rw [hother i hic] at ht
    exact ht

theorem setTerminator_lenGe {num : Type} (term : Mir.Terminator num)
    (st st' : LowSt num) (h : setTerminator term st = some st') : LenGe st st' := by
  obtain ⟨cur, hcb, hcb', hlen, hset, hother⟩ := setTerminator_effect term st st' h
  exact fun m hm => ⟨m, hlen.trans hm, Nat.le_refl m⟩

theorem setCb_lenGe {num : Type} (st : LowSt num) (cb : Option Nat) :
    LenGe st { st with currentBlock := cb } :=
  fun n hn => ⟨n, hn, Nat.le_refl n⟩

theorem setCb_oldUnreach {num : Type} (st : LowSt num) (cb : Option Nat) :
    OldUnreach st { st with currentBlock := cb } :=
  fun _ _ _ _ ht => ht

theorem pushScope_cfPres {num : Type} (st : LowSt num) : CfPres st (pushScope st) :=
  ⟨rfl, rfl, fun _ => rfl⟩

theorem popScope_cfPres {num : Type} (st : LowSt num) : CfPres st (popScope st) :=
  ⟨rfl, rfl, fun _ => rfl⟩

theorem allocScopeVars_cfPres {num : Type}
    (syms : List (String × Hir.Variable num)) : ∀ (st : LowSt num),
    CfPres st (allocScopeVars syms st) := by
  induction syms with
  | nil => exact fun st => cfPres_refl st
  | cons kv rest ih =>
    intro st
    exact cfPres_trans _ _ _ (allocVariable_cfPres kv.1 st) (ih _)

/-- After a terminator fixup, every block outside `pending` carries a
real terminator — including the current one. -/
theorem fixupTerminator_effect {num : Type} (target dest : Nat) (st st' : LowSt num)
    (pending : Nat → Prop)
    (h : fixupTerminator target dest st = some st')
    (hs : StOkE st pending)
    (htarget : termAt st target ≠ some Mir.Terminator.unreachable) :
    st'.currentBlock = st.currentBlock ∧ arenaLen st' = arenaLen st ∧
      OldUnreach st st' ∧
      (∀ i t, termAt st' i = some t → ¬ pending i → t ≠ Mir.Terminator.unreachable) := by
  obtain ⟨cur, n, hcb, hlen, hlt, hinv⟩ := hs
  unfold fixupTerminator at h
  split at h
  · rename_i hne
    split at h
    · simp at h
    · rename_i blockId heqcb
      have hbc : blockId = cur := by
        rw [hcb] at heqcb
        exact (Option.some.inj heqcb).symm
      subst hbc
      split at h
      · simp at h
      · rename_i b heqrb
        have hrt := readBlock_term blockId st b heqrb
        split at h
        · -- placeholder still there: patch with `br dest`
          rename_i hbt
          obtain ⟨cur2, hcb2, hcb', hlen', hset, hother⟩ :=
            setTerminator_effect (Mir.Terminator.br dest) st st' h
          have hcc : cur2 = blockId := by
            rw [hcb] at hcb2
            exact (Option.some.inj hcb2).symm
          subst hcc
          refine ⟨hcb', hlen', ?_, ?_⟩
          · intro i m hm hi ht
            by_cases hic : i = cur2
            · subst hic
              rw [hset] at ht
              exact absurd (Option.some.inj ht) (by simp)
            · rw [hother i hic] at ht
              exact ht
          · intro i t ht hp
            by_cases hic : i = cur2
            · subst hic
              rw [hset] at ht
              rw [← Option.some.inj ht]
              simp
            · rw [hother i hic] at ht
              exact hinv i t ht hic hp
        · -- already terminated: identity
          rename_i hbt
          have hst : st = st' := Option.some.inj h
          subst hst
          refine ⟨rfl, rfl, oldUnreach_refl st, ?_⟩
          intro i t ht hp
          by_cases hic : i = blockId
          · subst hic
            rw [hrt] at ht
            have htb : b.terminator = t := Option.some.inj ht
            intro hun
            rw [hun] at htb
            exact hbt htb
          · exact hinv i t ht hic hp
  · rename_i hcur
    have hst : st = st' := Option.some.inj h
    subst hst
    have hcurt : st.currentBlock = some target := by
      by_contra hc
      exact hcur (by simpa using hc)
    have hct : cur = target := by
      rw [hcb] at hcurt
      exact Option.some.inj hcurt
    refine ⟨rfl, rfl, oldUnreach_refl st, ?_⟩
    intro i t ht hp
    by_cases hic : i = cur
    · subst hic
      rw [hct] at ht
      intro hun
      rw [hun] at ht
      exact htarget ht
    · exact hinv i t ht hic hp

theorem lo_trans {num : Type} {st st1 st2 : LowSt num}
    (h1 : LenGe st st1 ∧ OldUnreach st st1) (h2 : LenGe st1 st2 ∧ OldUnreach st1 st2) :
    LenGe st st2 ∧ OldUnreach st st2 :=
  ⟨lenGe_trans _ _ _ h1.1 h2.1, oldUnreach_trans _ _ _ h1.2 h1.1 h2.2⟩

theorem lo_alloc {num : Type} {st : LowSt num} {id : Nat} {st' : LowSt num}
    (h : allocateBlock st = some (id, st')) : LenGe st st' ∧ OldUnreach st st' :=
  ⟨allocateBlock_lenGe st id st' h, allocateBlock_oldUnreach st id st' h⟩

theorem lo_setTerm {num : Type} {term : Mir.Terminator num} {st st' : LowSt num}
    (h : setTerminator term st = some st') (hterm : term ≠ Mir.Terminator.unreachable) :
    LenGe st st' ∧ OldUnreach st st' :=
  ⟨setTerminator_lenGe term st st' h, setTerminator_oldUnreach term st st' h hterm⟩

theorem lo_setForBlock {num : Type} {blockId : Nat} {term : Mir.Terminator num}
    {st st' : LowSt num} (h : setTerminatorForBlock blockId term st = some st')
    (hterm : term ≠ Mir.Terminator.unreachable) :
    LenGe st st' ∧ OldUnreach st st' :=
  ⟨setTerminatorForBlock_lenGe blockId term st st' h,
   setTerminatorForBlock_oldUnreach blockId term st st' h hterm⟩

theorem lo_cfPres {num : Type} {st st' : LowSt num} (hc : CfPres st st') :
    LenGe st st' ∧ OldUnreach st st' :=
  ⟨cfPres_lenGe st st' hc, cfPres_oldUnreach st st' hc⟩

theorem lo_setCb {num : Type} (st : LowSt num) (cb : Option Nat) :
    LenGe st { st with currentBlock := cb } ∧
      OldUnreach st { st with currentBlock := cb } :=
  ⟨setCb_lenGe st cb, setCb_oldUnreach st cb⟩

theorem lo_eqLen {num : Type} {st st' : LowSt num}
    (hlen : arenaLen st' = arenaLen st) (ho : OldUnreach st st') :
    LenGe st st' ∧ OldUnreach st st' :=
  ⟨fun m hm => ⟨m, hlen.trans hm, Nat.le_refl m⟩, ho⟩

theorem termAt_lt {num : Type} (st : LowSt num) (i : Nat) (t : Mir.Terminator num)
    (m : Nat) (ht : termAt st i = some t) (hm : arenaLen st = some m) : i < m := by
  unfold termAt arenaLen at *
  cases hf : st.currentFunction with
  | none => rw [hf] at hm; simp at hm
  | some f =>
    rw [hf] at ht hm
    simp only [Option.some_bind, Option.map_some'] at ht hm
    rw [← Option.some.inj hm]
    cases hg : f.arena.get? i with
    | none => rw [hg] at ht; simp at ht
    | some b => exact (List.get?_eq_some.mp hg).1

/-- Fixup followed by entering the merge block: restores the invariant
with the merge block no longer pending (it is now the current block). -/
theorem fixupThenMerge_spec {num : Type} (target dest mb : Nat)
    (st10 st11 : LowSt num) (pending : Nat → Prop)
    (hfix : fixupTerminator target dest st10 = some st11)
    (hstok : StOkE st10 (fun i => pending i ∨ i = mb))
    (htarget : termAt st10 target ≠ some Mir.Terminator.unreachable)
    (hmb : ∀ m, arenaLen st10 = some m → mb < m) :
    StOkE { st11 with currentBlock := some mb } pending ∧
      LenGe st10 { st11 with currentBlock := some mb } ∧
      OldUnreach st10 { st11 with currentBlock := some mb } := by
  obtain ⟨hcb11, hlen11, hold11, hall11⟩ :=
    fixupTerminator_effect target dest st10 st11 _ hfix hstok htarget
  obtain ⟨cur10, n10, hcb10, hlen10, hlt10, hinv10⟩ := hstok
  refine ⟨⟨mb, n10, rfl, ?_, hmb n10 hlen10, ?_⟩, ?_, ?_⟩
  · rw [arenaLen_setCurrentBlock, hlen11, hlen10]
  · intro i t ht hi hp
    rw [termAt_setCurrentBlock] at ht
    refine hall11 i t ht ?_
    rw [not_or]
    exact ⟨hp, hi⟩
  · intro m hm
    refine ⟨m, ?_, Nat.le_refl m⟩
    rw [arenaLen_setCurrentBlock, hlen11, hm]
  · intro i m hm hi ht
    rw [termAt_setCurrentBlock] at ht
    exact hold11 i m hm hi ht

/-- What the while-arm setup produces: three fresh consecutive blocks,
the body block current with its back edge set, everything else
terminated except the merge block. -/
theorem whileSetup_spec {num : Type} (ops : NumOps num) (cond : Hir.Expression num)
    (st : LowSt num) (cb tb mb : Nat) (st9 : LowSt num) (pending : Nat → Prop)
    (h : whileSetup ops cond st = some (cb, tb, mb, st9)) (hs : StOkE st pending) :
    ∃ n, arenaLen st = some n ∧ cb = n ∧ tb = n + 1 ∧ mb = n + 1 + 1 ∧
      arenaLen st9 = some (n + 1 + 1 + 1) ∧
      termAt st9 tb = some (Mir.Terminator.br cb) ∧
      StOkE st9 (fun i => pending i ∨ i = mb) ∧
      LenGe st st9 ∧ OldUnreach st st9 := by
  obtain ⟨cur, n, hcb, hlen, hltc, hinv⟩ := hs
  unfold whileSetup at h
  dsimp only at h
  split at h
  · simp at h
  · rename_i condBlock st1 heq1
    obtain ⟨hcb1, n1, hn1, hid1, hlen1, hnew1, hold1⟩ :=
      allocateBlock_effect st condBlock st1 heq1
    have hn1n : n = n1 := by
      rw [hlen] at hn1
      exact Option.some.inj hn1
    subst hn1n
    have hid1n : n = condBlock := hid1.symm
    subst hid1n
    split at h
    · simp at h
    · rename_i thenBlock st2 heq2
      obtain ⟨hcb2, n2, hn2, hid2, hlen2, hnew2, hold2⟩ :=
        allocateBlock_effect st1 thenBlock st2 heq2
      have hn2n : n2 = n + 1 := by
        rw [hlen1] at hn2
        exact (Option.some.inj hn2).symm
      subst hn2n
      subst hid2
      split at h
      · simp at h
      · rename_i mergeBlock st3 heq3
        obtain ⟨hcb3, n3, hn3, hid3, hlen3, hnew3, hold3⟩ :=
          allocateBlock_effect st2 mergeBlock st3 heq3
        have hn3n : n3 = n + 1 + 1 := by
          rw [hlen2] at hn3
          exact (Option.some.inj hn3).symm
        subst hn3n
        subst hid3
        split at h
        · simp at h
        · rename_i st4 heq4
          obtain ⟨cur4, hcb4, hcb4', hlen4, hset4, hother4⟩ :=
            setTerminator_effect _ st3 st4 heq4
          have hcur4 : cur = cur4 := by
            rw [hcb3, hcb2, hcb1, hcb] at hcb4
            exact Option.some.inj hcb4
          subst hcur4
          split at h
          · simp at h
          · simp at h
          · rename_i condOp st6 heqc
            have hpres6 := visitExpression_pres ops cond _ (some condOp) st6 heqc
            have hcb6 : st6.currentBlock = some n := hpres6.1
            have hterm6 : ∀ i, termAt st6 i = termAt st4 i := hpres6.2.2
            have hlen6 : arenaLen st6 = arenaLen st4 := hpres6.2.1
            split at h
            · simp at h
            · rename_i st7 heq7
              obtain ⟨hcb7, hlen7, hset7, hother7⟩ :=
                setTerminatorForBlock_effect _ _ st6 st7 heq7
              split at h
              · simp at h
              · rename_i st9' heq9
                obtain ⟨hcb9, hlen9, hset9, hother9⟩ :=
                  setTerminatorForBlock_effect _ _ _ st9' heq9
                simp only [Option.some.injEq, Prod.mk.injEq] at h
                obtain ⟨hcbe, htbe, hmbe, hst9⟩ := h
                subst hcbe
                subst htbe
                subst hmbe
                subst hst9
                have hlen9' : arenaLen st9' = some (n + 1 + 1 + 1) := by
                  rw [hlen9]
                  show arenaLen st7 = _
                  rw [hlen7, hlen6, hlen4, hlen3]
                have t9_then : termAt st9' (n + 1) =
                    some (Mir.Terminator.br n) := hset9
                have hne1 : n ≠ n + 1 := by omega
                have hne2 : cur ≠ n + 1 := by omega
                have hne3 : cur ≠ n := by omega
                have t9_cond : termAt st9' n =
                    some (Mir.Terminator.brIf condOp (n + 1) (n + 1 + 1)) := by
                  rw [hother9 n hne1]
                  show termAt st7 n = _
                  rw [hset7]
                have t9_cur : termAt st9' cur = some (Mir.Terminator.br n) := by
                  rw [hother9 cur hne2]
                  show termAt st7 cur = _
                  rw [hother7 cur hne3, hterm6, hset4]
                have t9_other : ∀ i, i ≠ cur → i ≠ n → i ≠ n + 1 → i ≠ n + 1 + 1 →
                    termAt st9' i = termAt st i := by
                  intro i hic hin hin1 hin2
                  rw [hother9 i hin1]
                  show termAt st7 i = _
                  rw [hother7 i hin, hterm6, hother4 i hic, hold3 i hin2,
                    hold2 i hin1, hold1 i hin]
                refine ⟨n, hlen, rfl, rfl, rfl, hlen9', t9_then, ?_, ?_⟩
                · refine ⟨n + 1, n + 1 + 1 + 1, hcb9, hlen9', by omega, ?_⟩
                  intro i t ht hi hp
                  rw [not_or] at hp
                  obtain ⟨hp1, hp2⟩ := hp
                  by_cases hin : i = n
                  · subst hin
                    rw [t9_cond] at ht
                    rw [← Option.some.inj ht]
                    simp
                  · by_cases hicur : i = cur
                    · subst hicur
                      rw [t9_cur] at ht
                      rw [← Option.some.inj ht]
                      simp
                    · rw [t9_other i hicur hin hi hp2] at ht
                      exact hinv i t ht hicur hp1
                · exact lo_trans (lo_alloc heq1) (lo_trans (lo_alloc heq2)
                    (lo_trans (lo_alloc heq3) (lo_trans (lo_setTerm heq4 (by simp))
                    (lo_trans (lo_setCb st4 (some n)) (lo_trans (lo_cfPres hpres6)
                    (lo_trans (lo_setForBlock heq7 (by simp))
                    (lo_trans (lo_setCb st7 (some (n + 1)))
                    (lo_setForBlock heq9 (by simp)))))))))

/-- What the if-arm setup produces: three fresh consecutive blocks, the
then block current and branched to the merge block, everything else
terminated except the else and merge blocks. -/
theorem ifSetup_spec {num : Type} (ops : NumOps num) (cond : Hir.Expression num)
    (st : LowSt num) (tb eb mb : Nat) (st7 : LowSt num) (pending : Nat → Prop)
    (h : ifSetup ops cond st = some (tb, eb, mb, st7)) (hs : StOkE st pending) :
    ∃ n, arenaLen st = some n ∧ tb = n ∧ eb = n + 1 ∧ mb = n + 1 + 1 ∧
      arenaLen st7 = some (n + 1 + 1 + 1) ∧
      termAt st7 tb = some (Mir.Terminator.br mb) ∧
      StOkE st7 (fun i => pending i ∨ i = eb ∨ i = mb) ∧
      LenGe st st7 ∧ OldUnreach st st7 := by
  obtain ⟨cur, n, hcb, hlen, hltc, hinv⟩ := hs
  unfold ifSetup at h
  split at h
  · simp at h
  · rename_i thenBlock st1 heq1
    obtain ⟨hcb1, n1, hn1, hid1, hlen1, hnew1, hold1⟩ :=
      allocateBlock_effect st thenBlock st1 heq1
    have hn1n : n = n1 := by
      rw [hlen] at hn1
      exact Option.some.inj hn1
    subst hn1n
    have hid1n : n = thenBlock := hid1.symm
    subst hid1n
    split at h
    · simp at h
    · rename_i elsBlock st2 heq2
      obtain ⟨hcb2, n2, hn2, hid2, hlen2, hnew2, hold2⟩ :=
        allocateBlock_effect st1 elsBlock st2 heq2
      have hn2n : n2 = n + 1 := by
        rw [hlen1] at hn2
        exact (Option.some.inj hn2).symm
      subst hn2n
      subst hid2
      split at h
      · simp at h
      · rename_i mergeBlock st3 heq3
        obtain ⟨hcb3, n3, hn3, hid3, hlen3, hnew3, hold3⟩ :=
          allocateBlock_effect st2 mergeBlock st3 heq3
        have hn3n : n3 = n + 1 + 1 := by
          rw [hlen2] at hn3
          exact (Option.some.inj hn3).symm
        subst hn3n
        subst hid3
        split at h
        · simp at h
        · simp at h
        · rename_i condOp st4 heqc
          have hpres4 := visitExpression_pres ops cond st3 (some condOp) st4 heqc
          have hcb4 : st4.currentBlock = some cur := by
            rw [hpres4.1, hcb3, hcb2, hcb1, hcb]
          have hterm4 : ∀ i, termAt st4 i = termAt st3 i := hpres4.2.2
          have hlen4 : arenaLen st4 = arenaLen st3 := hpres4.2.1
          split at h
          · simp at h
          · rename_i st5 heq5
            obtain ⟨cur5, hcb5, hcb5', hlen5, hset5, hother5⟩ :=
              setTerminator_effect _ st4 st5 heq5
            have hcur5 : cur = cur5 := by
              rw [hcb4] at hcb5
              exact Option.some.inj hcb5
            subst hcur5
            split at h
            · simp at h
            · rename_i st6 heq6
              obtain ⟨hcb6, hlen6, hset6, hother6⟩ :=
                setTerminatorForBlock_effect _ _ st5 st6 heq6
              simp only [Option.some.injEq, Prod.mk.injEq] at h
              obtain ⟨htbe, hebe, hmbe, hst7⟩ := h
              subst htbe
              subst hebe
              subst hmbe
              subst hst7
              have hlen6' : arenaLen st6 = some (n + 1 + 1 + 1) := by
                rw [hlen6, hlen5, hlen4, hlen3]
              have hne3 : cur ≠ n := by omega
              have t6_cur : termAt st6 cur = some
                  (Mir.Terminator.brIf condOp n (n + 1)) := by
                rw [hother6 cur hne3, hset5]
              have t6_then : termAt st6 n =
                  some (Mir.Terminator.br (n + 1 + 1)) := hset6
              have t6_other : ∀ i, i ≠ cur → i ≠ n → i ≠ n + 1 → i ≠ n + 1 + 1 →
                  termAt st6 i = termAt st i := by
                intro i hic hin hin1 hin2
                rw [hother6 i hin, hother5 i hic, hterm4, hold3 i hin2,
                  hold2 i hin1, hold1 i hin]
              refine ⟨n, hlen, rfl, rfl, rfl, by
                  rw [arenaLen_setCurrentBlock, hlen6'], by
                  rw [termAt_setCurrentBlock]
                  exact t6_then, ?_, ?_⟩
              · refine ⟨n, n + 1 + 1 + 1, rfl, by
                    rw [arenaLen_setCurrentBlock, hlen6'], by omega, ?_⟩
                intro i t ht hi hp
                rw [not_or, not_or] at hp
                obtain ⟨hp1, hp2, hp3⟩ := hp
                rw [termAt_setCurrentBlock] at ht
                by_cases hicur : i = cur
                · subst hicur
                  rw [t6_cur] at ht
                  rw [← Option.some.inj ht]
                  simp
                · rw [t6_other i hicur hi hp2 hp3] at ht
                  exact hinv i t ht hicur hp1
              · exact lo_trans (lo_alloc heq1) (lo_trans (lo_alloc heq2)
                  (lo_trans (lo_alloc heq3) (lo_trans (lo_cfPres hpres4)
                  (lo_trans (lo_setTerm heq5 (by simp))
                  (lo_trans (lo_setForBlock heq6 (by simp))
                  (lo_setCb st6 (some n)))))))

/-- The middle segment of the if arm re-establishes the invariant with
only the merge block pending, entering the else block. -/
theorem ifMiddle_spec {num : Type} (tb eb mb : Nat) (st8 st11 : LowSt num)
    (pending : Nat → Prop)
    (h : ifMiddle tb eb mb (some st8) = some st11)
    (hstok8 : StOkE st8 (fun i => pending i ∨ i = eb ∨ i = mb))
    (htb : termAt st8 tb ≠ some Mir.Terminator.unreachable)
    (hebmb : eb ≠ mb) :
    st11.currentBlock = some eb ∧ arenaLen st11 = arenaLen st8 ∧
      termAt st11 eb = some (Mir.Terminator.br mb) ∧
      StOkE st11 (fun i => pending i ∨ i = mb) ∧
      LenGe st8 st11 ∧ OldUnreach st8 st11 := by
  unfold ifMiddle at h
  dsimp only at h
  split at h
  · simp at h
  · rename_i st9 heqfix
    split at h
    · simp at h
    · rename_i st10 heq10
      have hst : _ = st11 := Option.some.inj h
      subst hst
      obtain ⟨hcb9, hlen9, hold89, hall9⟩ :=
        fixupTerminator_effect tb mb st8 st9 _ heqfix hstok8 htb
      obtain ⟨cur8, n8, hcb8, hlen8, hlt8, hinv8⟩ := hstok8
      obtain ⟨hcb10, hlen10, hset10, hother10⟩ :=
        setTerminatorForBlock_effect _ _ st9 st10 heq10
      have hlen10' : arenaLen st10 = some n8 := by
        rw [hlen10, hlen9, hlen8]
      have heblt : eb < n8 := termAt_lt st10 eb _ n8 hset10 hlen10'
      refine ⟨rfl, by rw [arenaLen_setCurrentBlock, hlen10', hlen8], by
          rw [termAt_setCurrentBlock]
          exact hset10, ?_, ?_, ?_⟩
      · refine ⟨eb, n8, rfl, by rw [arenaLen_setCurrentBlock, hlen10'], heblt, ?_⟩
        intro i t ht hi hp
        rw [not_or] at hp
        rw [termAt_setCurrentBlock] at ht
        by_cases hie : i = eb
        · subst hie
          rw [hset10] at ht
          rw [← Option.some.inj ht]
          simp
        · rw [hother10 i hie] at ht
          refine hall9 i t ht ?_
          rw [not_or, not_or]
          exact ⟨hp.1, hie, hp.2⟩
      · intro m hm
        refine ⟨m, ?_, Nat.le_refl m⟩
        rw [arenaLen_setCurrentBlock, hlen10, hlen9, hm]
      · have o1 : OldUnreach st8 st10 :=
          oldUnreach_trans _ _ _ hold89 (lo_eqLen hlen9 hold89).1
            (setTerminatorForBlock_oldUnreach _ _ st9 st10 heq10 (by simp))
        intro i m hm hi ht
        rw [termAt_setCurrentBlock] at ht
        exact o1 i m hm hi ht

mutual

/-- Statement lowering preserves the terminator invariant: outside the
pending merge blocks of enclosing statements, only the current block may
still carry the `Unreachable` placeholder; moreover the arena only grows
and no old block's terminator is reset to the placeholder. -/
theorem visitStatement_stok {num : Type} (ops : NumOps num) :
    (s : Hir.Statement num) → ∀ (st st' : LowSt num) (pending : Nat → Prop),
      StOkE st pending → visitStatement ops s st = some st' →
      StOkE st' pending ∧ LenGe st st' ∧ OldUnreach st st'
  | Hir.Statement.exprStmt e sp, st, st', pending, hs, h => by
    rw [visitStatement_exprStmt_eq] at h
    split at h
    · simp at h
    · rename_i v1 st1 heq
      have hst : st1 = st' := Option.some.inj h
      subst hst
      have hc := visitExpression_pres ops e st v1 st1 heq
      exact ⟨cfPres_stok st st1 pending hc hs, lo_cfPres hc⟩
  | Hir.Statement.ret expr sp, st, st', pending, hs, h => by
    cases expr with
    | none =>
      rw [visitStatement_ret_eq] at h
      dsimp only at h
      obtain ⟨h1, h2, h3⟩ := setTerminator_stok _ st st' pending (by simp) h hs
      exact ⟨h1, h2, h3⟩
    | some e =>
      rw [visitStatement_ret_eq] at h
      dsimp only at h
      split at h
      · simp at h
      · rename_i v1 st1 heq
        have hc := visitExpression_pres ops e st v1 st1 heq
        obtain ⟨h1, h2, h3⟩ := setTerminator_stok _ st1 st' pending (by simp) h
          (cfPres_stok st st1 pending hc hs)
        exact ⟨h1, lo_trans (lo_cfPres hc) ⟨h2, h3⟩⟩
  | Hir.Statement.blockStmt b sp, st, st', pending, hs, h => by
    rw [visitStatement_blockStmt_eq] at h
    exact visitBlock_stok ops b st st' pending hs h
  | Hir.Statement.functionDefinition name args rt body sp, st, st', pending, hs, h => by
    rw [visitStatement_fnDef_eq] at h
    simp only [Option.some.injEq] at h
    subst h
    exact stok_triple_refl st pending hs
  | Hir.Statement.assignment left typ right sp, st, st', pending, hs, h => by
    rw [visitStatement_assignment_eq] at h
    cases hlv : lookupVariable st.scopeStack left with
    | some r =>
      rw [hlv] at h
      dsimp only at h
      have hc1 : CfPres st st := cfPres_refl st
      cases right with
      | none =>
        dsimp only at h
        have hst : st = st' := Option.some.inj h
        subst hst
        exact stok_triple_refl st pending hs
      | some expr =>
        dsimp only at h
        split at h
        · simp at h
        · rename_i st2 heqe
          have hst : st2 = st' := Option.some.inj h
          subst hst
          have hc := visitExpression_pres ops expr st none st2 heqe
          exact ⟨cfPres_stok st st2 pending hc hs, lo_cfPres hc⟩
        · rename_i value st2 heqe
          have hc2 := visitExpression_pres ops expr st (some value) st2 heqe
          split at h
          · simp at h
          · rename_i t
            split at h
            · simp at h
            · rename_i mt heqmt
              have hc3 := addInstruction_cfPres _ st2 st' h
              have hc := cfPres_trans _ _ _ hc2 hc3
              exact ⟨cfPres_stok st st' pending hc hs, lo_cfPres hc⟩
    | none =>
      rw [hlv] at h
      dsimp only at h
      rcases halloc : allocVariable left st with ⟨r1, st1⟩
      rw [halloc] at h
      dsimp only at h
      have hc1 : CfPres st st1 := by
        have hp := allocVariable_cfPres left st
        rw [halloc] at hp
        exact hp
      cases right with
      | none =>
        dsimp only at h
        have hst : st1 = st' := Option.some.inj h
        subst hst
        exact ⟨cfPres_stok st st1 pending hc1 hs, lo_cfPres hc1⟩
      | some expr =>
        dsimp only at h
        split at h
        · simp at h
        · rename_i st2 heqe
          have hst : st2 = st' := Option.some.inj h
          subst hst
          have hc2 := visitExpression_pres ops expr st1 none st2 heqe
          have hc := cfPres_trans _ _ _ hc1 hc2
          exact ⟨cfPres_stok st st2 pending hc hs, lo_cfPres hc⟩
        · rename_i value st2 heqe
          have hc2 := visitExpression_pres ops expr st1 (some value) st2 heqe
          split at h
          · simp at h
          · rename_i t
            split at h
            · simp at h
            · rename_i mt heqmt
              have hc3 := addInstruction_cfPres _ st2 st' h
              have hc := cfPres_trans _ _ _ hc1 (cfPres_trans _ _ _ hc2 hc3)
              exact ⟨cfPres_stok st st' pending hc hs, lo_cfPres hc⟩
  | Hir.Statement.whileStmt cond body sp, st, st', pending, hs, h => by
    rw [visitStatement_while_eq] at h
    split at h
    · simp at h
    · rename_i cb tb mb st9 heqS
      obtain ⟨n, hn, hcbn, htbn, hmbn, hlen9, ht9, hstok9, hL9, hO9⟩ :=
        whileSetup_spec ops cond st cb tb mb st9 pending heqS hs
      cases heqB : visitBlock ops body st9 with
      | none =>
        rw [heqB] at h
        simp [whileFinish] at h
      | some st10 =>
        rw [heqB] at h
        obtain ⟨hstok10, hL10, hO10⟩ := visitBlock_stok ops body st9 st10 _ hstok9 heqB
        unfold whileFinish at h
        dsimp only at h
        split at h
        · simp at h
        · rename_i st11 heqfix
          have hst : _ = st' := Option.some.inj h
          subst hst
          have htarget : termAt st10 tb ≠ some Mir.Terminator.unreachable := by
            intro hx
            have := hO10 tb _ hlen9 (by omega) hx
            rw [ht9] at this
            exact absurd (Option.some.inj this) (by simp)
          have hmblt : ∀ m, arenaLen st10 = some m → mb < m := by
            intro m hm
            obtain ⟨m', hm', hge⟩ := hL10 _ hlen9
            rw [hm] at hm'
            have : m = m' := Option.some.inj hm'
            omega
          obtain ⟨hA, hB, hC⟩ := fixupThenMerge_spec tb cb mb st10 st11 pending
            heqfix hstok10 htarget hmblt
          exact ⟨hA, lo_trans ⟨hL9, hO9⟩ (lo_trans ⟨hL10, hO10⟩ ⟨hB, hC⟩)⟩
  | Hir.Statement.ifStmt cond thenB els sp, st, st', pending, hs, h => by
    rw [visitStatement_if_eq] at h
    split at h
    · simp at h
    · rename_i tb eb mb st7 heqS
      obtain ⟨n, hn, htbn, hebn, hmbn, hlen7, ht7, hstok7, hL7, hO7⟩ :=
        ifSetup_spec ops cond st tb eb mb st7 pending heqS hs
      cases heqB1 : visitBlock ops thenB st7 with
      | none =>
        rw [heqB1] at h
        simp [ifMiddle] at h
      | some st8 =>
        rw [heqB1] at h
        obtain ⟨hstok8, hL8, hO8⟩ := visitBlock_stok ops thenB st7 st8 _ hstok7 heqB1
        split at h
        · simp at h
        · rename_i st11 heqM
          have htarget8 : termAt st8 tb ≠ some Mir.Terminator.unreachable := by
            intro hx
            have := hO8 tb _ hlen7 (by omega) hx
            rw [ht7] at this
            exact absurd (Option.some.inj this) (by simp)
          obtain ⟨hcb11, hlen11, ht11eb, hstok11, hL11, hO11⟩ :=
            ifMiddle_spec tb eb mb st8 st11 pending heqM hstok8 htarget8 (by omega)
          cases els with
          | none =>
            dsimp only at h
            unfold ifFinish at h
            dsimp only at h
            split at h
            · simp at h
            · rename_i st13 heqfix2
              have hst : _ = st' := Option.some.inj h
              subst hst
              have htarget11 : termAt st11 eb ≠ some Mir.Terminator.unreachable := by
                rw [ht11eb]
                intro hx
                exact absurd (Option.some.inj hx) (by simp)
              have hmblt : ∀ m, arenaLen st11 = some m → mb < m := by
                intro m hm
                obtain ⟨m8, hm8, hge8⟩ := hL8 _ hlen7
                rw [hlen11, hm8] at hm
                have : m8 = m := Option.some.inj hm
                omega
              obtain ⟨hA, hB, hC⟩ := fixupThenMerge_spec eb mb mb st11 st13 pending
                heqfix2 hstok11 htarget11 hmblt
              exact ⟨hA, lo_trans ⟨hL7, hO7⟩ (lo_trans ⟨hL8, hO8⟩
                (lo_trans ⟨hL11, hO11⟩ ⟨hB, hC⟩))⟩
          | some e =>
            dsimp only at h
            cases heqB2 : visitBlock ops e st11 with
            | none =>
              rw [heqB2] at h
              simp [ifFinish] at h
            | some st12 =>
              rw [heqB2] at h
              obtain ⟨hstok12, hL12, hO12⟩ :=
                visitBlock_stok ops e st11 st12 _ hstok11 heqB2
              unfold ifFinish at h
              dsimp only at h
              split at h
              · simp at h
              · rename_i st13 heqfix2
                have hst : _ = st' := Option.some.inj h
                subst hst
                have htarget12 : termAt st12 eb ≠ some Mir.Terminator.unreachable := by
                  intro hx
                  obtain ⟨m8, hm8, hge8⟩ := hL8 _ hlen7
                  have := hO12 eb _ (hlen11.trans hm8) (by omega) hx
                  rw [ht11eb] at this
                  exact absurd (Option.some.inj this) (by simp)
                have hmblt : ∀ m, arenaLen st12 = some m → mb < m := by
                  intro m hm
                  obtain ⟨m8, hm8, hge8⟩ := hL8 _ hlen7
                  obtain ⟨m12, hm12, hge12⟩ := hL12 m8 (hlen11.trans hm8)
                  rw [hm] at hm12
                  have : m = m12 := Option.some.inj hm12
                  omega
                obtain ⟨hA, hB, hC⟩ := fixupThenMerge_spec eb mb mb st12 st13 pending
                  heqfix2 hstok12 htarget12 hmblt
                exact ⟨hA, lo_trans ⟨hL7, hO7⟩ (lo_trans ⟨hL8, hO8⟩
                  (lo_trans ⟨hL11, hO11⟩ (lo_trans ⟨hL12, hO12⟩ ⟨hB, hC⟩)))⟩

/-- Block lowering preserves the terminator invariant. -/
theorem visitBlock_stok {num : Type} (ops : NumOps num) :
    (b : Hir.Block num) → ∀ (st st' : LowSt num) (pending : Nat → Prop),
      StOkE st pending → visitBlock ops b st = some st' →
      StOkE st' pending ∧ LenGe st st' ∧ OldUnreach st st'
  | Hir.Block.mk stmts scope sp, st, st', pending, hs, h => by
    rw [visitBlock_eq] at h
    cases scope with
    | none =>
      dsimp only at h
      split at h
      · simp at h
      · rename_i st3 heqL
        have hst : popScope st3 = st' := Option.some.inj h
        subst hst
        have hc1 : CfPres st (pushScope st) := pushScope_cfPres st
        obtain ⟨h1, h2, h3⟩ := visitStmtList_stok ops stmts _ st3 pending
          (cfPres_stok _ _ pending hc1 hs) heqL
        exact ⟨cfPres_stok _ _ pending (popScope_cfPres st3) h1,
          lo_trans (lo_cfPres hc1) (lo_trans ⟨h2, h3⟩ (lo_cfPres (popScope_cfPres st3)))⟩
    | some sc =>
      cases sc with
      | mk symbols fns =>
        dsimp only at h
        split at h
        · simp at h
        · rename_i st3 heqL
          have hst : popScope st3 = st' := Option.some.inj h
          subst hst
          have hc1 : CfPres st (allocScopeVars symbols (pushScope st)) :=
            cfPres_trans _ _ _ (pushScope_cfPres st) (allocScopeVars_cfPres symbols _)
          obtain ⟨h1, h2, h3⟩ := visitStmtList_stok ops stmts _ st3 pending
            (cfPres_stok _ _ pending hc1 hs) heqL
          exact ⟨cfPres_stok _ _ pending (popScope_cfPres st3) h1,
            lo_trans (lo_cfPres hc1) (lo_trans ⟨h2, h3⟩ (lo_cfPres (popScope_cfPres st3)))⟩

/-- Statement-list lowering preserves the terminator invariant. -/
theorem visitStmtList_stok {num : Type} (ops : NumOps num) :
    (ss : Hir.StmtList num) → ∀ (st st' : LowSt num) (pending : Nat → Prop),
      StOkE st pending → visitStmtList ops ss st = some st' →
      StOkE st' pending ∧ LenGe st st' ∧ OldUnreach st st'
  | Hir.StmtList.nil, st, st', pending, hs, h => by
    rw [visitStmtList_nil_eq] at h
    simp only [Option.some.injEq] at h
    subst h
    exact stok_triple_refl st pending hs
  | Hir.StmtList.cons s ss, st, st', pending, hs, h => by
    rw [visitStmtList_cons_eq] at h
    split at h
    · simp at h
    · rename_i st1 heq
      obtain ⟨h1, h2, h3⟩ := visitStatement_stok ops s st st1 pending hs heq
      obtain ⟨h4, h5, h6⟩ := visitStmtList_stok ops ss st1 st' pending h1 h
      exact ⟨h4, lo_trans ⟨h2, h3⟩ ⟨h5, h6⟩⟩

end

/-- The finished-functions list is untouched by statement lowering. -/
def FnsEq {num : Type} (st st' : LowSt num) : Prop :=
  st'.functions = st.functions

theorem fnsEq_refl {num : Type} (st : LowSt num) : FnsEq st st := rfl

theorem fnsEq_trans {num : Type} {st st1 st2 : LowSt num}
    (h1 : FnsEq st st1) (h2 : FnsEq st1 st2) : FnsEq st st2 :=
  h2.trans h1

theorem allocVariable_fns {num : Type} (name : String) (st : LowSt num) :
    FnsEq st (allocVariable name st).2 := by
  unfold allocVariable getFreeRegister
  cases h : ({ st with registerCursor := st.registerCursor + 1 } : LowSt num).scopeStack
  · rfl
  · rfl

theorem allocateBlock_fns {num : Type} {st : LowSt num} {id : Nat} {st' : LowSt num}
    (h : allocateBlock st = some (id, st')) : FnsEq st st' := by
  unfold allocateBlock at h
  split at h
  · simp at h
  · rename_i f hf
    unfold Mir.MirFunction.allocBlock at h
    simp only [Option.some.injEq, Prod.mk.injEq] at h
    rw [← h.2]
    rfl

theorem addInstructionToBlock_fns {num : Type} {blockId : Nat}
    {inst : Mir.Instruction num} {st st' : LowSt num}
    (h : addInstructionToBlock blockId inst st = some st') : FnsEq st st' := by
  unfold addInstructionToBlock at h
  split at h
  · simp at h
  · rename_i f hf
    split at h
    · simp at h
    · rename_i b hb
      rw [← Option.some.inj h]
      rfl

theorem addInstruction_fns {num : Type} {inst : Mir.Instruction num} {st st' : LowSt num}
    (h : addInstruction inst st = some st') : FnsEq st st' := by
  unfold addInstruction at h
  split at h
  · simp at h
  · exact addInstructionToBlock_fns h

theorem setTerminatorForBlock_fns {num : Type} {blockId : Nat}
    {term : Mir.Terminator num} {st st' : LowSt num}
    (h : setTerminatorForBlock blockId term st = some st') : FnsEq st st' := by
  unfold setTerminatorForBlock at h
  split at h
  · simp at h
  · rename_i f hf
    split at h
    · simp at h
    · rename_i b hb
      rw [← Option.some.inj h]
      rfl

theorem setTerminator_fns {num : Type} {term : Mir.Terminator num} {st st' : LowSt num}
    (h : setTerminator term st = some st') : FnsEq st st' := by
  unfold setTerminator at h
  split at h
  · simp at h
  · exact setTerminatorForBlock_fns h

theorem fixupTerminator_fns {num : Type} {target dest : Nat} {st st' : LowSt num}
    (h : fixupTerminator target dest st = some st') : FnsEq st st' := by
  unfold fixupTerminator at h
  split at h
  · split at h
    · simp at h
    · split at h
      · simp at h
      · split at h
        · exact setTerminator_fns h
        · rw [← Option.some.inj h]
          rfl
  · rw [← Option.some.inj h]
    rfl

mutual

theorem visitExpression_fns {num : Type} (ops : NumOps num) :
    (e : Hir.Expression num) → ∀ (st : LowSt num) (v : Option (Mir.Operand num))
      (st' : LowSt num), visitExpression ops e st = some (v, st') → FnsEq st st'
  | Hir.Expression.number a sp t, st, v, st', h => by
    simp only [visitExpression, Option.some.injEq, Prod.mk.injEq] at h
    rw [← h.2]
    exact fnsEq_refl st
  | Hir.Expression.boolean a sp t, st, v, st', h => by
    simp only [visitExpression, Option.some.injEq, Prod.mk.injEq] at h
    rw [← h.2]
    exact fnsEq_refl st
  | Hir.Expression.var name sp t, st, v, st', h => by
    simp only [visitExpression] at h
    split at h
    · simp only [Option.some.injEq, Prod.mk.injEq] at h
      rw [← h.2]
      rfl
    · simp only [Option.some.injEq, Prod.mk.injEq] at h
      rw [← h.2]
      rfl
  | Hir.Expression.binaryOp l op r sp typ, st, v, st', h => by
    simp only [visitExpression] at h
    split at h
    · simp at h
    · rename_i st1 heql
      simp only [Option.some.injEq, Prod.mk.injEq] at h
      rw [← h.2]
      exact visitExpression_fns ops l st none st1 heql
    · rename_i lop st1 heql
      have hl := visitExpression_fns ops l st (some lop) st1 heql
      split at h
      · simp at h
      · rename_i st2 heqr
        simp only [Option.some.injEq, Prod.mk.injEq] at h
        rw [← h.2]
        exact fnsEq_trans hl (visitExpression_fns ops r st1 none st2 heqr)
      · rename_i rop st2 heqr
        have hr := visitExpression_fns ops r st1 (some rop) st2 heqr
        split at h
        · simp only [Option.some.injEq, Prod.mk.injEq] at h
          rw [← h.2]
          exact fnsEq_trans hl (fnsEq_trans hr rfl)
        · rename_i mop heqop
          split at h
          · simp at h
          · rename_i t
            split at h
            · simp at h
            · rename_i mt heqmt
              split at h
              · simp at h
              · rename_i st4 heqadd
                simp only [Option.some.injEq, Prod.mk.injEq] at h
                rw [← h.2]
                refine fnsEq_trans hl (fnsEq_trans hr (fnsEq_trans ?_
                  (addInstruction_fns heqadd)))
                exact rfl
  | Hir.Expression.unaryOp l op sp t, st, v, st', h => by
    simp only [visitExpression] at h
    split at h
    · split at h
      · simp at h
      · simp at h
      · rename_i lv st1 heql
        have hl := visitExpression_fns ops l st (some lv) st1 heql
        split at h
        · simp at h
        · split at h
          · simp at h
          · rename_i mt heqmt
            split at h
            · simp at h
            · rename_i st3 heqadd
              simp only [Option.some.injEq, Prod.mk.injEq] at h
              rw [← h.2]
              refine fnsEq_trans hl (fnsEq_trans ?_ (addInstruction_fns heqadd))
              exact rfl
    · split at h
      · simp at h
      · simp at h
      · rename_i lv st1 heql
        have hl := visitExpression_fns ops l st (some lv) st1 heql
        split at h
        · simp at h
        · rename_i st3 heqadd
          simp only [Option.some.injEq, Prod.mk.injEq] at h
          rw [← h.2]
          refine fnsEq_trans hl (fnsEq_trans ?_ (addInstruction_fns heqadd))
          exact rfl
    · simp only [Option.some.injEq, Prod.mk.injEq] at h
      rw [← h.2]
      rfl
  | Hir.Expression.call ident args sp typ, st, v, st', h => by
    simp only [visitExpression] at h
    split at h
    · simp at h
    · rename_i argOps st2 heqargs
      have hargs := visitCallArgs_fns ops args _ argOps st2 heqargs
      split at h
      · simp at h
      · rename_i t
        split at h
        · simp at h
        · rename_i mt heqmt
          split at h
          · simp at h
          · rename_i st3 heqadd
            simp only [Option.some.injEq, Prod.mk.injEq] at h
            rw [← h.2]
            refine fnsEq_trans ?_ (fnsEq_trans hargs (addInstruction_fns heqadd))
            exact rfl

theorem visitCallArgs_fns {num : Type} (ops : NumOps num) :
    (es : Hir.ExprList num) → ∀ (st : LowSt num) (vs : List (Mir.Operand num))
      (st' : LowSt num), visitCallArgs ops es st = some (vs, st') → FnsEq st st'
  | Hir.ExprList.nil, st, vs, st', h => by
    simp only [visitCallArgs, Option.some.injEq, Prod.mk.injEq] at h
    rw [← h.2]
    rfl
  | Hir.ExprList.cons e es, st, vs, st', h => by
    simp only [visitCallArgs] at h
    split at h
    · simp at h
    · simp at h
    · rename_i v1 st1 heqe
      have he := visitExpression_fns ops e st (some v1) st1 heqe
      split at h
      · simp at h
      · rename_i vs2 st2 heqes
        simp only [Option.some.injEq, Prod.mk.injEq] at h
        rw [← h.2]
        exact fnsEq_trans he (visitCallArgs_fns ops es st1 vs2 st2 heqes)

end

theorem whileSetup_fns {num : Type} {ops : NumOps num} {cond : Hir.Expression num}
    {st : LowSt num} {cb tb mb : Nat} {st9 : LowSt num}
    (h : whileSetup ops cond st = some (cb, tb, mb, st9)) : FnsEq st st9 := by
  unfold whileSetup at h
  dsimp only at h
  split at h
  · simp at h
  · rename_i condBlock st1 heq1
    split at h
    · simp at h
    · rename_i thenBlock st2 heq2
      split at h
      · simp at h
      · rename_i mergeBlock st3 heq3
        split at h
        · simp at h
        · rename_i st4 heq4
          split at h
          · simp at h
          · simp at h
          · rename_i condOp st6 heqc
            split at h
            · simp at h
            · rename_i st7 heq7
              split at h
              · simp at h
              · rename_i st9' heq9
                simp only [Option.some.injEq, Prod.mk.injEq] at h
                rw [← h.2.2.2]
                refine fnsEq_trans (allocateBlock_fns heq1)
                  (fnsEq_trans (allocateBlock_fns heq2)
                  (fnsEq_trans (allocateBlock_fns heq3)
                  (fnsEq_trans (setTerminator_fns heq4)
                  (fnsEq_trans ?_
                  (fnsEq_trans (visitExpression_fns ops cond _ _ _ heqc)
                  (fnsEq_trans (setTerminatorForBlock_fns heq7)
                  (fnsEq_trans ?_ (setTerminatorForBlock_fns heq9))))))))
                · exact rfl
                · exact rfl

theorem ifSetup_fns {num : Type} {ops : NumOps num} {cond : Hir.Expression num}
    {st : LowSt num} {tb eb mb : Nat} {st7 : LowSt num}
    (h : ifSetup ops cond st = some (tb, eb, mb, st7)) : FnsEq st st7 := by
  unfold ifSetup at h
  split at h
  · simp at h
  · rename_i thenBlock st1 heq1
    split at h
    · simp at h
    · rename_i elsBlock st2 heq2
      split at h
      · simp at h
      · rename_i mergeBlock st3 heq3
        split at h
        · simp at h
        · simp at h
        · rename_i condOp st4 heqc
          split at h
          · simp at h
          · rename_i st5 heq5
            split at h
            · simp at h
            · rename_i st6 heq6
              simp only [Option.some.injEq, Prod.mk.injEq] at h
              rw [← h.2.2.2]
              have : FnsEq st st6 :=
                fnsEq_trans (allocateBlock_fns heq1)
                  (fnsEq_trans (allocateBlock_fns heq2)
                  (fnsEq_trans (allocateBlock_fns heq3)
                  (fnsEq_trans (visitExpression_fns ops cond _ _ _ heqc)
                  (fnsEq_trans (setTerminator_fns heq5)
                  (setTerminatorForBlock_fns heq6)))))
              exact this

theorem allocScopeVars_fns {num : Type}
    (syms : List (String × Hir.Variable num)) : ∀ (st : LowSt num),
    FnsEq st (allocScopeVars syms st) := by
  induction syms with
  | nil => exact fun st => rfl
  | cons kv rest ih =>
    intro st
    exact fnsEq_trans (allocVariable_fns kv.1 st) (ih _)

mutual

theorem visitStatement_fns {num : Type} (ops : NumOps num) :
    (s : Hir.Statement num) → ∀ (st st' : LowSt num),
      visitStatement ops s st = some st' → FnsEq st st'
  | Hir.Statement.exprStmt e sp, st, st', h => by
    rw [visitStatement_exprStmt_eq] at h
    split at h
    · simp at h
    · rename_i v1 st1 heq
      rw [← Option.some.inj h]
      exact visitExpression_fns ops e st v1 st1 heq
  | Hir.Statement.ret expr sp, st, st', h => by
    cases expr with
    | none =>
      rw [visitStatement_ret_eq] at h
      dsimp only at h
      exact setTerminator_fns h
    | some e =>
      rw [visitStatement_ret_eq] at h
      dsimp only at h
      split at h
      · simp at h
      · rename_i v1 st1 heq
        exact fnsEq_trans (visitExpression_fns ops e st v1 st1 heq)
          (setTerminator_fns h)
  | Hir.Statement.blockStmt b sp, st, st', h => by
    rw [visitStatement_blockStmt_eq] at h
    exact visitBlock_fns ops b st st' h
  | Hir.Statement.functionDefinition name args rt body sp, st, st', h => by
    rw [visitStatement_fnDef_eq] at h
    rw [← Option.some.inj h]
    rfl
  | Hir.Statement.assignment left typ right sp, st, st', h => by
    rw [visitStatement_assignment_eq] at h
    cases hlv : lookupVariable st.scopeStack left with
    | some r =>
      rw [hlv] at h
      dsimp only at h
      cases right with
      | none =>
        dsimp only at h
        rw [← Option.some.inj h]
        rfl
      | some expr =>
        dsimp only at h
        split at h
        · simp at h
        · rename_i st2 heqe
          rw [← Option.some.inj h]
          exact visitExpression_fns ops expr st none st2 heqe
        · rename_i value st2 heqe
          have he := visitExpression_fns ops expr st (some value) st2 heqe
          split at h
          · simp at h
          · rename_i t
            split at h
            · simp at h
            · rename_i mt heqmt
              exact fnsEq_trans he (addInstruction_fns h)
    | none =>
      rw [hlv] at h
      dsimp only at h
      rcases halloc : allocVariable left st with ⟨r1, st1⟩
      rw [halloc] at h
      dsimp only at h
      have h1 : FnsEq st st1 := by
        have hp := allocVariable_fns left st
        rw [halloc] at hp
        exact hp
      cases right with
      | none =>
        dsimp only at h
        rw [← Option.some.inj h]
        exact h1
      | some expr =>
        dsimp only at h
        split at h
        · simp at h
        · rename_i st2 heqe
          rw [← Option.some.inj h]
          exact fnsEq_trans h1 (visitExpression_fns ops expr st1 none st2 heqe)
        · rename_i value st2 heqe
          have he := visitExpression_fns ops expr st1 (some value) st2 heqe
          split at h
          · simp at h
          · rename_i t
            split at h
            · simp at h
            · rename_i mt heqmt
              exact fnsEq_trans h1 (fnsEq_trans he (addInstruction_fns h))
  | Hir.Statement.whileStmt cond body sp, st, st', h => by
    rw [visitStatement_while_eq] at h
    split at h
    · simp at h
    · rename_i cb tb mb st9 heqS
      have h9 := whileSetup_fns heqS
      cases heqB : visitBlock ops body st9 with
      | none =>
        rw [heqB] at h
        simp [whileFinish] at h
      | some st10 =>
        rw [heqB] at h
        have h10 := visitBlock_fns ops body st9 st10 heqB
        unfold whileFinish at h
        dsimp only at h
        split at h
        · simp at h
        · rename_i st11 heqfix
          rw [← Option.some.inj h]
          refine fnsEq_trans h9 (fnsEq_trans h10
            (fnsEq_trans (fixupTerminator_fns heqfix) ?_))
          exact rfl
  | Hir.Statement.ifStmt cond thenB els sp, st, st', h => by
    rw [visitStatement_if_eq] at h
    split at h
    · simp at h
    · rename_i tb eb mb st7 heqS
      have h7 := ifSetup_fns heqS
      cases heqB1 : visitBlock ops thenB st7 with
      | none =>
        rw [heqB1] at h
        simp [ifMiddle] at h
      | some st8 =>
        rw [heqB1] at h
        have h8 := visitBlock_fns ops thenB st7 st8 heqB1
        split at h
        · simp at h
        · rename_i st11 heqM
          have h11 : FnsEq st8 st11 := by
            unfold ifMiddle at heqM
            dsimp only at heqM
            split at heqM
            · simp at heqM
            · rename_i st9 heqfix
              split at heqM
              · simp at heqM
              · rename_i st10 heq10
                rw [← Option.some.inj heqM]
                refine fnsEq_trans (fixupTerminator_fns heqfix)
                  (fnsEq_trans (setTerminatorForBlock_fns heq10) ?_)
                exact rfl
          cases els with
          | none =>
            dsimp only at h
            unfold ifFinish at h
            dsimp only at h
            split at h
            · simp at h
            · rename_i st13 heqfix2
              rw [← Option.some.inj h]
              refine fnsEq_trans h7 (fnsEq_trans h8
                (fnsEq_trans h11 (fnsEq_trans (fixupTerminator_fns heqfix2) ?_)))
              exact rfl
          | some e =>
            dsimp only at h
            cases heqB2 : visitBlock ops e st11 with
            | none =>
              rw [heqB2] at h
              simp [ifFinish] at h
            | some st12 =>
              rw [heqB2] at h
              have h12 := visitBlock_fns ops e st11 st12 heqB2
              unfold ifFinish at h
              dsimp only at h
              split at h
              · simp at h
              · rename_i st13 heqfix2
                rw [← Option.some.inj h]
                refine fnsEq_trans h7 (fnsEq_trans h8 (fnsEq_trans h11
                  (fnsEq_trans h12 (fnsEq_trans (fixupTerminator_fns heqfix2) ?_))))
                exact rfl

theorem visitBlock_fns {num : Type} (ops : NumOps num) :
    (b : Hir.Block num) → ∀ (st st' : LowSt num),
      visitBlock ops b st = some st' → FnsEq st st'
  | Hir.Block.mk stmts scope sp, st, st', h => by
    rw [visitBlock_eq] at h
    cases scope with
    | none =>
      dsimp only at h
      split at h
      · simp at h
      · rename_i st3 heqL
        rw [← Option.some.inj h]
        refine fnsEq_trans ?_ (fnsEq_trans (visitStmtList_fns ops stmts _ st3 heqL) ?_)
        · exact rfl
        · exact rfl
    | some sc =>
      cases sc with
      | mk symbols fns =>
        dsimp only at h
        split at h
        · simp at h
        · rename_i st3 heqL
          rw [← Option.some.inj h]
          refine fnsEq_trans (?_ : FnsEq st (pushScope st))
            (fnsEq_trans (allocScopeVars_fns symbols (pushScope st))
            (fnsEq_trans (visitStmtList_fns ops stmts _ st3 heqL) ?_))
          · exact rfl
          · exact rfl

theorem visitStmtList_fns {num : Type} (ops : NumOps num) :
    (ss : Hir.StmtList num) → ∀ (st st' : LowSt num),
      visitStmtList ops ss st = some st' → FnsEq st st'
  | Hir.StmtList.nil, st, st', h => by
    rw [visitStmtList_nil_eq] at h
    rw [← Option.some.inj h]
    rfl
  | Hir.StmtList.cons s ss, st, st', h => by
    rw [visitStmtList_cons_eq] at h
    split at h
    · simp at h
    · rename_i st1 heq
      exact fnsEq_trans (visitStatement_fns ops s st st1 heq)
        (visitStmtList_fns ops ss st1 st' h)

end

theorem lowerParams_fns {num : Type} :
    (args : List (Hir.Variable num)) → ∀ (st : LowSt num)
      (ps : List (Nat × Mir.MirType)) (st' : LowSt num),
      lowerParams args st = some (ps, st') → FnsEq st st'
  | [], st, ps, st', h => by
    unfold lowerParams at h
    simp only [Option.some.injEq, Prod.mk.injEq] at h
    rw [← h.2]
    rfl
  | arg :: args, st, ps, st', h => by
    unfold lowerParams at h
    dsimp only at h
    split at h
    · simp at h
    · rename_i mt heqmt
      split at h
      · simp at h
      · rename_i ps2 st2 heqp
        simp only [Option.some.injEq, Prod.mk.injEq] at h
        rw [← h.2]
        exact fnsEq_trans (allocVariable_fns arg.name st)
          (lowerParams_fns args _ ps2 st2 heqp)

/-- Whether a statement is a `Return` statement. -/
def stmtIsRet {num : Type} : Hir.Statement num → Bool
  | Hir.Statement.ret _ _ => true
  | _ => false

/-- Whether a statement list ends with a `Return` statement. -/
def endsWithRet {num : Type} : Hir.StmtList num → Bool
  | Hir.StmtList.nil => false
  | Hir.StmtList.cons s ss =>
    match ss with
    | Hir.StmtList.nil => stmtIsRet s
    | Hir.StmtList.cons _ _ => endsWithRet ss

/-- After lowering a `Return` statement at function top level, every
block of the function under construction is terminated. -/
theorem visitStatement_ret_total {num : Type} (ops : NumOps num)
    (expr : Option (Hir.Expression num)) (sp : Span) (st st' : LowSt num)
    (hs : StOkE st (fun _ => False))
    (h : visitStatement ops (Hir.Statement.ret expr sp) st = some st') :
    ∀ i t, termAt st' i = some t → t ≠ Mir.Terminator.unreachable := by
  obtain ⟨cur, n, hcb, hlen, hlt, hinv⟩ := hs
  cases expr with
  | none =>
    rw [visitStatement_ret_eq] at h
    dsimp only at h
    obtain ⟨cur2, hcb2, hcb', hlen', hset, hother⟩ := setTerminator_effect _ st st' h
    have hcc : cur = cur2 := by
      rw [hcb] at hcb2
      exact Option.some.inj hcb2
    subst hcc
    intro i t ht
    by_cases hic : i = cur
    · subst hic
      rw [hset] at ht
      rw [← Option.some.inj ht]
      simp
    · rw [hother i hic] at ht
      exact hinv i t ht hic (fun hf => hf)
  | some e =>
    rw [visitStatement_ret_eq] at h
    dsimp only at h
    split at h
    · simp at h
    · rename_i v1 st1 heq
      have hc := visitExpression_pres ops e st v1 st1 heq
      obtain ⟨cur2, hcb2, hcb', hlen', hset, hother⟩ := setTerminator_effect _ st1 st' h
      have hcc : cur = cur2 := by
        rw [hc.1, hcb] at hcb2
        exact Option.some.inj hcb2
      subst hcc
      intro i t ht
      by_cases hic : i = cur
      · subst hic
        rw [hset] at ht
        rw [← Option.some.inj ht]
        simp
      · rw [hother i hic, hc.2.2 i] at ht
        exact hinv i t ht hic (fun hf => hf)

/-- Lowering a statement list that ends with a `Return` terminates every
block of the function under construction. -/
theorem visitStmtList_endsRet {num : Type} (ops : NumOps num) :
    (ss : Hir.StmtList num) → ∀ (st st' : LowSt num),
      endsWithRet ss = true → StOkE st (fun _ => False) →
      visitStmtList ops ss st = some st' →
      ∀ i t, termAt st' i = some t → t ≠ Mir.Terminator.unreachable
  | Hir.StmtList.nil, st, st', hret, hs, h => by
    simp [endsWithRet] at hret
  | Hir.StmtList.cons s ss, st, st', hret, hs, h => by
    rw [visitStmtList_cons_eq] at h
    split at h
    · simp at h
    · rename_i st1 heq
      cases ss with
      | nil =>
        rw [visitStmtList_nil_eq] at h
        have hst : st1 = st' := Option.some.inj h
        subst hst
        have hsr : stmtIsRet s = true := hret
        cases s with
        | ret expr sp => exact visitStatement_ret_total ops expr sp st st1 hs heq
        | assignment a b c d => simp [stmtIsRet] at hsr
        | functionDefinition a b c d e => simp [stmtIsRet] at hsr
        | ifStmt a b c d => simp [stmtIsRet] at hsr
        | whileStmt a b c => simp [stmtIsRet] at hsr
        | blockStmt a b => simp [stmtIsRet] at hsr
        | exprStmt a b => simp [stmtIsRet] at hsr
      | cons s2 ss2 =>
        obtain ⟨h1, _, _⟩ := visitStatement_stok ops s st st1 _ hs heq
        exact visitStmtList_endsRet ops (Hir.StmtList.cons s2 ss2) st1 st'
          hret h1 h

/-- A lowered function whose arena contains no `Unreachable` terminator. -/
def AllTerminated {num : Type} (mf : Mir.MirFunction num) : Prop :=
  ∀ b ∈ mf.arena, b.terminator ≠ Mir.Terminator.unreachable

/-- `visit_function` on a body that ends with a `Return`: the finished
function appended to the pass's list has every block terminated. -/
theorem visitFunction_allTerm {num : Type} (ops : NumOps num) (f : Hir.Func num)
    (st st' : LowSt num) (hret : endsWithRet f.body.statements = true)
    (h : visitFunction ops f st = some st') :
    ∃ func, st'.functions = st.functions ++ [func] ∧ AllTerminated func := by
  obtain ⟨name, args, retTy, body⟩ := f
  unfold visitFunction at h
  dsimp only at h
  split at h
  · simp at h
  · rename_i params st2 heqp
    split at h
    · simp at h
    · rename_i returnType heqrt
      split at h
      · simp at h
      · rename_i st4 heqL
        have hstok3 : StOkE { st2 with
            currentFunction := some (Mir.MirFunction.new num name params returnType),
            currentBlock := some (Mir.MirFunction.new num name params returnType).entry }
            (fun _ => False) := by
          refine ⟨0, 1, rfl, rfl, by omega, ?_⟩
          intro i t ht hi _
          cases i with
          | zero => exact absurd rfl hi
          | succ j =>
            simp only [termAt, Option.some_bind] at ht
            simp [Mir.MirFunction.new, List.get?] at ht
        have hterm4 := visitStmtList_endsRet ops body.statements _ st4 hret hstok3 heqL
        have hcf4 : ∃ f4, st4.currentFunction = some f4 := by
          obtain ⟨h1, _, _⟩ := visitStmtList_stok ops body.statements _ st4 _ hstok3 heqL
          obtain ⟨cur, n, _, hlen, _, _⟩ := h1
          cases hc : st4.currentFunction with
          | none => rw [arenaLen, hc] at hlen; simp at hlen
          | some f4 => exact ⟨f4, rfl⟩
        obtain ⟨f4, hf4⟩ := hcf4
        have hpop : (popScope st4).currentFunction = some f4 := hf4
        have hfns2 : FnsEq (pushScope st) st2 := lowerParams_fns args _ params st2 heqp
        have h34 := visitStmtList_fns ops body.statements _ st4 heqL
        have hfns4 : FnsEq st st4 := by
          have ha : FnsEq st (pushScope st) := rfl
          have hb : FnsEq st2 { st2 with
              currentFunction := some (Mir.MirFunction.new num name params returnType),
              currentBlock :=
                some (Mir.MirFunction.new num name params returnType).entry } := rfl
          exact fnsEq_trans ha (fnsEq_trans hfns2 (fnsEq_trans hb h34))
        have hfns : st'.functions = st4.functions ++ [f4] := by
          rw [← Option.some.inj h]
          dsimp only
          rw [hpop]
          rfl
        refine ⟨f4, ?_, ?_⟩
        · have h4e : st4.functions = st.functions := hfns4
          rw [hfns, h4e]
        · intro b hb
          obtain ⟨nidx, hn⟩ := List.get?_of_mem hb
          have : termAt st4 nidx = some b.terminator := by
            simp only [termAt, hf4, Option.some_bind, hn]
            rfl
          exact hterm4 nidx b.terminator this

/-- The function loop preserves `AllTerminated` of every finished
function when every body ends with a `Return`. -/
theorem visitFunctions_allTerm {num : Type} (ops : NumOps num) :
    (fs : List (Hir.Func num)) → ∀ (st st' : LowSt num),
      (∀ f ∈ fs, endsWithRet f.body.statements = true) →
      (∀ mf ∈ st.functions, AllTerminated mf) →
      visitFunctions ops fs st = some st' →
      ∀ mf ∈ st'.functions, AllTerminated mf
  | [], st, st', hret, hall, h => by
    unfold visitFunctions at h
    have hst : st = st' := Option.some.inj h
    subst hst
    exact hall
  | f :: fs, st, st', hret, hall, h => by
    unfold visitFunctions at h
    split at h
    · simp at h
    · rename_i st1 heq
      obtain ⟨func, hfns, hterm⟩ := visitFunction_allTerm ops f st st1
        (hret f (by simp)) heq
      refine visitFunctions_allTerm ops fs st1 st'
        (fun g hg => hret g (by simp [hg])) ?_ h
      intro mf hmf
      rw [hfns] at hmf
      rcases List.mem_append.mp hmf with hmem | hmem
      · exact hall mf hmem
      · rw [List.mem_singleton.mp hmem]
        exact hterm

/-- `lower` on a program whose function bodies all end with a `Return`:
every block of every produced `MirFunction` has a real terminator. -/
theorem lowerProgram_allTerm {num : Type} (ops : NumOps num) (p : Hir.Program num)
    (mp : Mir.MirProgram num) (stF : LowSt num)
    (hret : ∀ f ∈ p.functions, endsWithRet f.body.statements = true)
    (h : lowerProgram ops p = some (mp, stF)) :
    ∀ mf ∈ mp.functions, AllTerminated mf := by
  unfold lowerProgram visitProgram at h
  split at h
  · simp at h
  · rename_i st2 heqF
    dsimp only at heqF
    split at heqF
    · simp at heqF
    · rename_i st3 heqFs
      have hglobals : (allocGlobals p.globals (pushScope
          (⟨[], [], [], 0, none, none⟩ : LowSt num))).functions = [] := by
        have : ∀ (gs : List (Hir.Variable num)) (s : LowSt num),
            (allocGlobals gs s).functions = s.functions := by
          intro gs
          induction gs with
          | nil => intro s; rfl
          | cons g rest ih =>
            intro s
            rw [allocGlobals, ih]
            unfold allocVariable getFreeRegister
            cases hss : ({ s with registerCursor := s.registerCursor + 1 }
                : LowSt num).scopeStack with
            | nil => rfl
            | cons a b => rfl
        rw [this]
        rfl
      have hall := visitFunctions_allTerm ops p.functions _ st3 hret
        (by rw [hglobals]; intro mf hmf; simp at hmf) heqFs
      have hst2 : popScope st3 = st2 := Option.some.inj heqF
      simp only [Option.some.injEq, Prod.mk.injEq] at h
      obtain ⟨hmp, hstF⟩ := h
      rw [← hmp]
      intro mf hmf
      have : mf ∈ st3.functions := by
        rw [← hst2] at hmf
        exact hmf
      exact hall mf this

end Lowering

namespace Mir

/-- Successor block ids named by a terminator (the edges `CFGAnalysis`
collects). -/
def termSuccs {num : Type} : Terminator num → List Nat
  | Terminator.br t => [t]
  | Terminator.brIf _ a b => [a, b]
  | _ => []

/-- Reachability from the entry block along terminator edges. -/
inductive Reaches {num : Type} (f : MirFunction num) : Nat → Prop where
  | entry : Reaches f f.entry
  | step (i j : Nat) (b : BasicBlock num) : Reaches f i → f.arena.get? i = some b →
      j ∈ termSuccs b.terminator → Reaches f j

end Mir

namespace Lexer

/-- Total number of UTF-8 bytes of a character list, mirroring the byte
length of the Rust `String` the lexer scans. -/
def byteLen (input : List Char) : Nat :=
  (input.map Char.utf8Size).sum

/-- The character suffix starting at byte offset `k`; `none` when `k` is
not a character boundary (where the Rust slice `&input[cursor..]`
panics). -/
def suffixAt : List Char → Nat → Option (List Char)
  | cs, 0 => some cs
  | [], _ + 1 => none
  | c :: cs, k + 1 =>
    if k + 1 < c.utf8Size then none else suffixAt cs (k + 1 - c.utf8Size)

/-- Result of `LexerContext::peek`: a character, end of input, or the
byte-slice panic on a non-boundary cursor. -/
inductive PeekRes where
  | panic
  | eof
  | ch (c : Char)
  deriving DecidableEq, Repr

/-- The lexer's `peek` (lexer.rs): slice the input at the byte cursor and
take the character at the given lookahead. -/
def peekAt (input : List Char) (cursor lookahead : Nat) : PeekRes :=
  match suffixAt input cursor with
  | none => PeekRes.panic
  | some rest =>
    match rest.get? lookahead with
    | none => PeekRes.eof
    | some c => PeekRes.ch c

/-- Lexer state: byte cursor, 0-based row and column, and the tokens
produced so far (lexer.rs, `LexerContext`; the input string is carried
separately and never changes). -/
structure LexSt where
  cursor : Nat
  row : Nat
  column : Nat
  tokens : List Token
  deriving Repr

/-- The state change of one successful `advance` over character `c`
(lexer.rs, `advance`): the column and row track characters, but the
cursor moves one byte only. -/
def advStep (st : LexSt) (c : Char) : LexSt :=
  { st with
    cursor := st.cursor + 1
    row := if c = '\n' then st.row + 1 else st.row
    column := if c = '\n' then 0 else st.column + 1 }

/-- The lexer's `advance` (lexer.rs): peek the current character (panicking
on a non-boundary cursor), then step; does nothing at end of input. -/
def advance (input : List Char) (st : LexSt) : Option LexSt :=
  match peekAt input st.cursor 0 with
  | PeekRes.panic => none
  | PeekRes.eof => some st
  | PeekRes.ch c => some (advStep st c)

/-- The lexer's `advance_by` (lexer.rs). -/
def advanceBy (input : List Char) : Nat → LexSt → Option LexSt
  | 0, st => some st
  | n + 1, st => (advance input st).bind (advanceBy input n)

/-- The lexer's `add_token` (lexer.rs): append a token at the current
position without moving the cursor. -/
def addToken (st : LexSt) (tag : TokenType) (lexeme : String) : LexSt :=
  { st with tokens :=
      st.tokens ++ [{ tag := tag, lexeme := lexeme,
                      row := st.row, column := st.column }] }

/-- Take exactly `n` bytes worth of characters; `none` when `n` is not a
character boundary. -/
def takeBytes : List Char → Nat → Option (List Char)
  | _, 0 => some []
  | [], _ + 1 => none
  | c :: cs, n + 1 =>
    if n + 1 < c.utf8Size then none
    else (takeBytes cs (n + 1 - c.utf8Size)).map (fun l => c :: l)

/-- The byte slice `input[start..endB]` as a string (lexer.rs, the lexeme
slices `&lexer.input[start..lexer.cursor]`). -/
def sliceBytes (input : List Char) (start endB : Nat) : Option String :=
  (suffixAt input start).bind (fun rest => (takeBytes rest (endB - start)).map String.mk)

/-- Unicode White_Space, the exact set accepted by Rust
`char::is_whitespace`. -/
def rustIsWhitespace (c : Char) : Bool :=
  c.toNat ∈ [0x09, 0x0A, 0x0B, 0x0C, 0x0D, 0x20, 0x85, 0xA0, 0x1680,
    0x2000, 0x2001, 0x2002, 0x2003, 0x2004, 0x2005, 0x2006, 0x2007, 0x2008,
    0x2009, 0x200A, 0x2028, 0x2029, 0x202F, 0x205F, 0x3000]

/-- Rust `char::is_alphabetic`, restricted to its ASCII fragment; the
Unicode Alphabetic table beyond ASCII is not embedded, and no theorem in
this development evaluates the lexer on a non-ASCII character through
this predicate. -/
def rustIsAlphabetic (c : Char) : Bool :=
  c.isAlpha

/-- Rust `char::is_alphanumeric`, restricted to its ASCII fragment (same
caveat as `rustIsAlphabetic`). -/
def rustIsAlphanumeric (c : Char) : Bool :=
  c.isAlphanum

/-- The multi-character operator table (lexer.rs,
`try_push_multi_char_token`). -/
def multiCharToken (c : Char) (next : PeekRes) : Option (TokenType × String) :=
  match next with
  | PeekRes.ch n =>
    match c, n with
    | '=', '=' => some (TokenType.equal, "==")
    | '!', '=' => some (TokenType.notEqual, "!=")
    | '<', '=' => some (TokenType.lessEqual, "<=")
    | '>', '=' => some (TokenType.greaterEqual, ">=")
    | '&', '&' => some (TokenType.andOp, "&&")
    | '|', '|' => some (TokenType.orOp, "||")
    | '-', '>' => some (TokenType.arrow, "->")
    | _, _ => none
  | _ => none

/-- The single-character token table (lexer.rs,
`try_push_single_char_token`). -/
def singleCharTag (c : Char) : Option TokenType :=
  match c with
  | '(' => some TokenType.lparen
  | ')' => some TokenType.rparen
  | '{' => some TokenType.lbrace
  | '}' => some TokenType.rbrace
  | ';' => some TokenType.semicolon
  | ':' => some TokenType.colon
  | '+' => some TokenType.plus
  | ',' => some TokenType.comma
  | '-' => some TokenType.minus
  | '/' => some TokenType.slash
  | '*' => some TokenType.star
  | '>' => some TokenType.greater
  | '<' => some TokenType.less
  | '=' => some TokenType.assign
  | '!' => some TokenType.bang
  | '|' => some TokenType.pipe
  | '&' => some TokenType.ampersand
  | '^' => some TokenType.caret
  | '%' => some TokenType.percent
  | '$' => some TokenType.dollar
  | '@' => some TokenType.atSign
  | '~' => some TokenType.tilde
  | _ => none

/-- The keyword table applied to identifier lexemes (lexer.rs). -/
def keywordTag (lexeme : String) : TokenType :=
  match lexeme with
  | "fn" => TokenType.fnKw
  | "extern" => TokenType.externKw
  | "var" => TokenType.varKw
  | "if" => TokenType.ifKw
  | "else" => TokenType.elseKw
  | "then" => TokenType.thenKw
  | "for" => TokenType.forKw
  | "in" => TokenType.inKw
  | "while" => TokenType.whileKw
  | "return" => TokenType.returnKw
  | "f8" => TokenType.f8Type
  | "f16" => TokenType.f16Type
  | "f32" => TokenType.f32Type
  | "f64" => TokenType.f64Type
  | _ => TokenType.identifier

/-- Lexing failure on an unexpected character, with 1-based position
(lexer.rs, `LexError`; the message carries the character). -/
structure LexError where
  c : Char
  row : Nat
  column : Nat
  deriving DecidableEq, Repr

/-- Outcome of the lexer: the token list, a `LexError`, or a byte-slice
panic (the Rust code panics when the byte cursor lands inside a multi-byte
character). -/
inductive LexResult where
  | ok (tokens : List Token)
  | err (e : LexError)
  | panic
  deriving DecidableEq, Repr

theorem suffixAt_byteLen (input : List Char) :
    ∀ (k : Nat) (rest : List Char), suffixAt input k = some rest →
      k + byteLen rest = byteLen input := by
  induction input with
  | nil =>
    intro k rest h
    cases k with
    | zero => cases h; rfl
    | succ k0 => exact Option.noConfusion h
  | cons c cs ih =>
    intro k rest h
    cases k with
    | zero =>
      cases h
      omega
    | succ k0 =>
      rw [suffixAt] at h
      by_cases hlt : k0 + 1 < c.utf8Size
      · rw [if_pos hlt] at h
        exact Option.noConfusion h
      · rw [if_neg hlt] at h
        have := ih (k0 + 1 - c.utf8Size) rest h
        have hsz : 1 ≤ c.utf8Size := Char.utf8Size_pos c
        show k0 + 1 + byteLen rest = byteLen (c :: cs)
        have hbl : byteLen (c :: cs) = c.utf8Size + byteLen cs := by
          simp [byteLen]
        omega

theorem peek_ch_lt (input : List Char) (cur : Nat) (c : Char)
    (h : peekAt input cur 0 = PeekRes.ch c) : cur < byteLen input := by
  unfold peekAt at h
  rcases hs : suffixAt input cur with _ | rest
  · rw [hs] at h
    exact PeekRes.noConfusion h
  · rw [hs] at h
    have hlen := suffixAt_byteLen input cur rest hs
    cases rest with
    | nil => exact PeekRes.noConfusion h
    | cons c0 cs =>
      have hsz : 1 ≤ c0.utf8Size := Char.utf8Size_pos c0
      have : byteLen (c0 :: cs) = c0.utf8Size + byteLen cs := by simp [byteLen]
      omega

/-- The comment-skipping loop of `lex` (lexer.rs): advance while the
current character exists and is not a newline.  The Rust `while` loop is
modelled with explicit fuel; `skipComment_no_out` below proves that the
fuel used by the scanner never runs out. -/
def skipComment (input : List Char) : Nat → LexSt → Option (Option LexSt)
  | 0, _ => none
  | fuel + 1, st =>
    match peekAt input st.cursor 0 with
    | PeekRes.panic => some none
    | PeekRes.eof => some (some st)
    | PeekRes.ch c =>
      if c = '\n' then some (some st)
      else skipComment input fuel (advStep st c)

/-- The number-scanning loop of `lex` (lexer.rs): advance over ASCII
digits and at most one dot (fuelled like `skipComment`). -/
def lexNumberLoop (input : List Char) : Nat → LexSt → Bool → Option (Option LexSt)
  | 0, _, _ => none
  | fuel + 1, st, hasDot =>
    match peekAt input st.cursor 0 with
    | PeekRes.panic => some none
    | PeekRes.eof => some (some st)
    | PeekRes.ch c =>
      if c.isDigit then lexNumberLoop input fuel (advStep st c) hasDot
      else if c = '.' ∧ hasDot = false then lexNumberLoop input fuel (advStep st c) true
      else some (some st)

/-- The identifier-scanning loop of `lex` (lexer.rs): advance over
alphanumerics and underscores (fuelled like `skipComment`). -/
def lexIdentLoop (input : List Char) : Nat → LexSt → Option (Option LexSt)
  | 0, _ => none
  | fuel + 1, st =>
    match peekAt input st.cursor 0 with
    | PeekRes.panic => some none
    | PeekRes.eof => some (some st)
    | PeekRes.ch c =>
      if rustIsAlphanumeric c || c = '_' then lexIdentLoop input fuel (advStep st c)
      else some (some st)

theorem advance_cursor_le (input : List Char) (st st2 : LexSt)
    (h : advance input st = some st2) : st.cursor ≤ st2.cursor := by
  unfold advance at h
  rcases hp : peekAt input st.cursor 0 with _ | _ | c <;> rw [hp] at h
  · exact Option.noConfusion h
  · cases h
    exact le_refl _
  · cases h
    simp [advStep]

theorem advanceBy_cursor_le (input : List Char) :
    ∀ (n : Nat) (st st2 : LexSt), advanceBy input n st = some st2 →
      st.cursor ≤ st2.cursor := by
  intro n
  induction n with
  | zero =>
    intro st st2 h
    cases h
    exact le_refl _
  | succ k ih =>
    intro st st2 h
    rw [advanceBy] at h
    rcases ha : advance input st with _ | st1
    · rw [ha] at h
      exact Option.noConfusion h
    · rw [ha] at h
      exact (advance_cursor_le input st st1 ha).trans (ih st1 st2 h)

theorem advanceBy_cursor_lt (input : List Char) (n : Nat) (st st2 : LexSt) (c : Char)
    (hp : peekAt input st.cursor 0 = PeekRes.ch c) (hn : 0 < n)
    (h : advanceBy input n st = some st2) : st.cursor < st2.cursor := by
  cases n with
  | zero => exact absurd hn (by omega)
  | succ k =>
    rw [advanceBy, advance, hp] at h
    have h2 : advanceBy input k (advStep st c) = some st2 := h
    have := advanceBy_cursor_le input k (advStep st c) st2 h2
    simp [advStep] at this
    omega

theorem skipComment_cursor_le (input : List Char) :
    ∀ (fuel : Nat) (st st2 : LexSt), skipComment input fuel st = some (some st2) →
      st.cursor ≤ st2.cursor := by
  intro fuel
  induction fuel with
  | zero =>
    intro st st2 h
    exact Option.noConfusion h
  | succ k ih =>
    intro st st2 h
    rw [skipComment] at h
    split at h
    · exact Option.noConfusion (Option.some.inj h)
    · cases Option.some.inj h
      exact le_refl _
    · rename_i c hp
      split at h
      · cases Option.some.inj h
        exact le_refl _
      · have := ih (advStep st c) st2 h
        simp [advStep] at this
        omega

theorem skipComment_no_out (input : List Char) :
    ∀ (fuel : Nat) (st : LexSt), byteLen input - st.cursor < fuel →
      skipComment input fuel st ≠ none := by
  intro fuel
  induction fuel with
  | zero =>
    intro st hm
    exact absurd hm (by omega)
  | succ k ih =>
    intro st hm
    rw [skipComment]
    split
    · exact Option.noConfusion
    · exact Option.noConfusion
    · rename_i c hp
      split
      · exact Option.noConfusion
      · have := peek_ch_lt input st.cursor c hp
        exact ih (advStep st c) (by simp [advStep]; omega)

theorem lexNumberLoop_cursor_le (input : List Char) :
    ∀ (fuel : Nat) (st : LexSt) (hasDot : Bool) (st2 : LexSt),
      lexNumberLoop input fuel st hasDot = some (some st2) →
      st.cursor ≤ st2.cursor := by
  intro fuel
  induction fuel with
  | zero =>
    intro st hasDot st2 h
    exact Option.noConfusion h
  | succ k ih =>
    intro st hasDot st2 h
    rw [lexNumberLoop] at h
    split at h
    · exact Option.noConfusion (Option.some.inj h)
    · cases Option.some.inj h
      exact le_refl _
    · rename_i c hp
      split at h
      · have := ih (advStep st c) hasDot st2 h
        simp [advStep] at this
        omega
      · split at h
        · have := ih (advStep st c) true st2 h
          simp [advStep] at this
          omega
        · cases Option.some.inj h
          exact le_refl _

theorem lexNumberLoop_no_out (input : List Char) :
    ∀ (fuel : Nat) (st : LexSt) (hasDot : Bool), byteLen input - st.cursor < fuel →
      lexNumberLoop input fuel st hasDot ≠ none := by
  intro fuel
  induction fuel with
  | zero =>
    intro st hasDot hm
    exact absurd hm (by omega)
  | succ k ih =>
    intro st hasDot hm
    rw [lexNumberLoop]
    split
    · exact Option.noConfusion
    · exact Option.noConfusion
    · rename_i c hp
      have := peek_ch_lt input st.cursor c hp
      split
      · exact ih (advStep st c) hasDot (by simp [advStep]; omega)
      · split
        · exact ih (advStep st c) true (by simp [advStep]; omega)
        · exact Option.noConfusion

theorem lexIdentLoop_cursor_le (input : List Char) :
    ∀ (fuel : Nat) (st st2 : LexSt), lexIdentLoop input fuel st = some (some st2) →
      st.cursor ≤ st2.cursor := by
  intro fuel
  induction fuel with
  | zero =>
    intro st st2 h
    exact Option.noConfusion h
  | succ k ih =>
    intro st st2 h
    rw [lexIdentLoop] at h
    split at h
    · exact Option.noConfusion (Option.some.inj h)
    · cases Option.some.inj h
      exact le_refl _
    · rename_i c hp
      split at h
      · have := ih (advStep st c) st2 h
        simp [advStep] at this
        omega
      · cases Option.some.inj h
        exact le_refl _

theorem lexIdentLoop_no_out (input : List Char) :
    ∀ (fuel : Nat) (st : LexSt), byteLen input - st.cursor < fuel →
      lexIdentLoop input fuel st ≠ none := by
  intro fuel
  induction fuel with
  | zero =>
    intro st hm
    exact absurd hm (by omega)
  | succ k ih =>
    intro st hm
    rw [lexIdentLoop]
    split
    · exact Option.noConfusion
    · exact Option.noConfusion
    · rename_i c hp
      have := peek_ch_lt input st.cursor c hp
      split
      · exact ih (advStep st c) (by simp [advStep]; omega)
      · exact Option.noConfusion

theorem multiCharToken_lexeme_size (c : Char) (p : PeekRes) (tl : TokenType × String)
    (h : multiCharToken c p = some tl) : tl.2.utf8ByteSize = 2 := by
  unfold multiCharToken at h
  split at h
  · split at h <;>
      first
      | exact Option.noConfusion h
      | (cases h; rfl)
  · exact Option.noConfusion h

theorem singleton_utf8ByteSize (c : Char) : (String.mk [c]).utf8ByteSize = c.utf8Size := by
  simp [String.utf8ByteSize, String.utf8ByteSize.go]

/-- The scanning loop of `LexerContext::lex` (lexer.rs): skip whitespace
and comments, then try multi-character operators, single-character tokens,
numbers and identifiers, in this order; unknown characters give a
`LexError` with 1-based position; at end of input the EOF sentinel is
appended.  A cursor landing inside a multi-byte character gives the
byte-slice panic.  The Rust `while` loop is modelled with explicit fuel;
`lexLoop_no_out` below proves the fuel used by `lex` never runs out. -/
def lexLoop (input : List Char) : Nat → LexSt → Option LexResult
  | 0, _ => none
  | fuel + 1, st =>
    match peekAt input st.cursor 0 with
    | PeekRes.panic => some LexResult.panic
    | PeekRes.eof => some (LexResult.ok (addToken st TokenType.eof "").tokens)
    | PeekRes.ch c =>
      if rustIsWhitespace c then lexLoop input fuel (advStep st c)
      else if c = '#' then
        match skipComment input (byteLen input + 1) (advStep st c) with
        | none => none
        | some none => some LexResult.panic
        | some (some st2) => lexLoop input fuel st2
      else
        match multiCharToken c (peekAt input st.cursor 1) with
        | some tl =>
          match advanceBy input tl.2.utf8ByteSize (addToken st tl.1 tl.2) with
          | none => some LexResult.panic
          | some st2 => lexLoop input fuel st2
        | none =>
          match singleCharTag c with
          | some tag =>
            match advanceBy input (String.mk [c]).utf8ByteSize
                (addToken st tag (String.mk [c])) with
            | none => some LexResult.panic
            | some st2 => lexLoop input fuel st2
          | none =>
            if c.isDigit then
              match lexNumberLoop input (byteLen input + 1) (advStep st c) false with
              | none => none
              | some none => some LexResult.panic
              | some (some st2) =>
                match sliceBytes input st.cursor st2.cursor with
                | none => some LexResult.panic
                | some lexeme =>
                  lexLoop input fuel (addToken st2 TokenType.number lexeme)
            else if rustIsAlphabetic c || c = '_' then
              match lexIdentLoop input (byteLen input + 1) (advStep st c) with
              | none => none
              | some none => some LexResult.panic
              | some (some st2) =>
                match sliceBytes input st.cursor st2.cursor with
                | none => some LexResult.panic
                | some lexeme =>
                  lexLoop input fuel (addToken st2 (keywordTag lexeme) lexeme)
            else
              some (LexResult.err { c := c, row := st.row + 1, column := st.column + 1 })

/-- The lexer entry point (lexer.rs, `LexerContext::lex`): scan from the
start of the input with the empty token list. -/
def lex (input : List Char) : Option LexResult :=
  lexLoop input (byteLen input + 1) { cursor := 0, row := 0, column := 0, tokens := [] }

/-- Lex a Lean string (the Rust function takes `&str`). -/
def lexStr (s : String) : Option LexResult :=
  lex s.data

/-- The scanning loop never exhausts its fuel: every iteration either
advances the byte cursor by at least one or produces a final result. -/
theorem lexLoop_no_out (input : List Char) :
    ∀ (fuel : Nat) (st : LexSt), byteLen input - st.cursor < fuel →
      lexLoop input fuel st ≠ none := by
  intro fuel
  induction fuel with
  | zero =>
    intro st hm
    exact absurd hm (by omega)
  | succ k ih =>
    intro st hm
    rw [lexLoop]
    split
    · exact Option.noConfusion
    · exact Option.noConfusion
    · rename_i c hp
      have hlt := peek_ch_lt input st.cursor c hp
      split
      · exact ih (advStep st c) (by simp [advStep]; omega)
      · split
        · -- comment branch: split on the result of skipComment
          split
          · rename_i hsk
            exact absurd hsk (skipComment_no_out input (byteLen input + 1) (advStep st c)
              (by simp [advStep]; omega))
          · exact Option.noConfusion
          · rename_i st3 hsk
            have hmono := skipComment_cursor_le input (byteLen input + 1)
              (advStep st c) st3 hsk
            simp [advStep] at hmono
            exact ih st3 (by omega)
        · split
          · rename_i tl hmc
            split
            · exact Option.noConfusion
            · rename_i st2 ha
              have hsz := multiCharToken_lexeme_size c (peekAt input st.cursor 1) tl hmc
              have hstep := advanceBy_cursor_lt input tl.2.utf8ByteSize
                (addToken st tl.1 tl.2) st2 c hp (by omega) ha
              simp [addToken] at hstep
              exact ih st2 (by omega)
          · split
            · rename_i tag hsc
              split
              · exact Option.noConfusion
              · rename_i st2 ha
                have hstep := advanceBy_cursor_lt input (String.mk [c]).utf8ByteSize
                  (addToken st tag (String.mk [c])) st2 c hp
                  (by rw [singleton_utf8ByteSize]; exact Char.utf8Size_pos c) ha
                simp [addToken] at hstep
                exact ih st2 (by omega)
            · split
              · -- number branch
                split
                · rename_i hn
                  exact absurd hn (lexNumberLoop_no_out input (byteLen input + 1)
                    (advStep st c) false (by simp [advStep]; omega))
                · exact Option.noConfusion
                · rename_i st3 hn
                  have hmono := lexNumberLoop_cursor_le input (byteLen input + 1)
                    (advStep st c) false st3 hn
                  simp [advStep] at hmono
                  split
                  · exact Option.noConfusion
                  · rename_i lexeme hsl
                    exact ih (addToken st3 TokenType.number lexeme)
                      (by simp [addToken]; omega)
              · split
                · -- identifier branch
                  split
                  · rename_i hn
                    exact absurd hn (lexIdentLoop_no_out input (byteLen input + 1)
                      (advStep st c) (by simp [advStep]; omega))
                  · exact Option.noConfusion
                  · rename_i st3 hn
                    have hmono := lexIdentLoop_cursor_le input (byteLen input + 1)
                      (advStep st c) st3 hn
                    simp [advStep] at hmono
                    split
                    · exact Option.noConfusion
                    · rename_i lexeme hsl
                      exact ih (addToken st3 (keywordTag lexeme) lexeme)
                        (by simp [addToken]; omega)
                · exact Option.noConfusion

/-- The lexer always terminates: with the fuel it is given, `lex` always
produces a result. -/
theorem lex_no_out (input : List Char) : lex input ≠ none :=
  lexLoop_no_out input (byteLen input + 1)
    { cursor := 0, row := 0, column := 0, tokens := [] } (by omega)

end Lexer

namespace P

/-- Compatibility of two types (types.rs, `Type::is_equal`): `Auto` is
compatible with anything, otherwise structural equality. -/
def tyIsEqual : Ty → Ty → Bool
  | Ty.base BaseType.auto, _ => true
  | _, Ty.base BaseType.auto => true
  | Ty.base a, Ty.base b =>
    match a, b with
    | BaseType.f8, BaseType.f8 => true
    | BaseType.f16, BaseType.f16 => true
    | BaseType.f32, BaseType.f32 => true
    | BaseType.f64, BaseType.f64 => true
    | BaseType.bool, BaseType.bool => true
    | BaseType.void, BaseType.void => true
    | _, _ => false
  | Ty.pointer a, Ty.pointer b => tyIsEqual a b
  | _, _ => false

/-- Result type of a binary operation (types.rs, `Type::binop_result`). -/
def binopResult (t : Ty) (op : TokenType) (other : Ty) : Option Ty :=
  if tyIsEqual t other then
    match op with
    | TokenType.equal | TokenType.notEqual | TokenType.less | TokenType.greater
    | TokenType.lessEqual | TokenType.greaterEqual => some (Ty.base BaseType.bool)
    | TokenType.andOp | TokenType.orOp =>
      match t with
      | Ty.base BaseType.bool => some (Ty.base BaseType.bool)
      | _ => none
    | TokenType.plus | TokenType.minus | TokenType.star | TokenType.slash
    | TokenType.percent => some t
    | _ => none
  else none

/-- Result type of a unary operation (types.rs, `Type::unary_op_result`). -/
def unaryOpResult (t : Ty) (op : TokenType) : Option Ty :=
  match op with
  | TokenType.bang =>
    match t with
    | Ty.base BaseType.bool => some (Ty.base BaseType.bool)
    | _ => none
  | TokenType.minus | TokenType.plus => some t
  | _ => none

mutual

/-- Expressions of the parser's AST (the tuple-variant generation matched
by parser.rs and passes/typechecking.rs: `Number(f64)`, `BinaryOp`,
`UnaryOp`, `Call`, `Variable(String)`).  The `f64` literal value is
carried as its source text; nothing in the parser or typechecker computes
with it.  `varRef` models `Expression::Variable`. -/
inductive Expr where
  | number (value : String)
  | binaryOp (left : Expr) (op : Token) (right : Expr)
  | unaryOp (left : Expr) (op : Token)
  | call (identifier : String) (args : ExprList)
  | varRef (name : String)

/-- A list of expressions (`Vec<Expression>` of call arguments). -/
inductive ExprList where
  | nil
  | cons (e : Expr) (es : ExprList)

end

/-- Conversion of the argument list to a plain list. -/
def ExprList.toList : ExprList → List Expr
  | ExprList.nil => []
  | ExprList.cons e es => e :: es.toList

mutual

/-- Statements of the parser's AST (the generation matched by parser.rs
and passes/typechecking.rs: `Assignment { left, typ, right }`,
`FunctionDefinition`, `If`, `While`, `Block(..)`, `Return(..)`,
`Expression(..)`). -/
inductive Stmt where
  | assignment (left : String) (typ : Option Ty) (right : Option Expr)
  | functionDefinition (name : String) (args : List (Variable)) (returnType : Ty)
      (body : Block)
  | ifStmt (condition : Expr) (thenB : Block) (els : Option Block)
  | whileStmt (condition : Expr) (body : Block)
  | blockStmt (block : Block)
  | ret (expression : Option Expr)
  | exprStmt (expression : Expr)

/-- A list of statements (`Vec<Statement>`). -/
inductive StmtList where
  | nil
  | cons (s : Stmt) (ss : StmtList)

/-- A block: statements plus the scope attached by typechecking
(`Block { statements, scope }`; the parser creates it with `scope: None`). -/
inductive Block where
  | mk (statements : StmtList) (scope : Option Scope)

/-- A scope (types.rs, `Scope`): symbol and function maps, modelled as
association lists in which the first match wins. -/
inductive Scope where
  | mk (symbols : List (String × Variable)) (functions : List (String × Func))

/-- A variable (types.rs, `Variable`). -/
inductive Variable where
  | mk (name : String) (typ : Ty) (initializer : Option Expr)

/-- A function (types.rs, `Function`). -/
inductive Func where
  | mk (name : String) (args : List Variable) (returnType : Ty) (body : Block)

end

/-- Name of a variable. -/
def Variable.name : Variable → String
  | Variable.mk n _ _ => n

/-- Type of a variable. -/
def Variable.typ : Variable → Ty
  | Variable.mk _ t _ => t

/-- Initializer of a variable. -/
def Variable.initializer : Variable → Option Expr
  | Variable.mk _ _ i => i

/-- Name of a function. -/
def Func.name : Func → String
  | Func.mk n _ _ _ => n

/-- Arguments of a function. -/
def Func.args : Func → List Variable
  | Func.mk _ a _ _ => a

/-- Return type of a function. -/
def Func.returnType : Func → Ty
  | Func.mk _ _ r _ => r

/-- Body of a function. -/
def Func.body : Func → Block
  | Func.mk _ _ _ b => b

/-- A program (ast.rs, `Program`): globals and functions. -/
structure Program where
  globals : List Variable
  functions : List Func

/-- The distinct `consume_assert` call sites of parser.rs; the payload of
the mismatch messages. -/
inductive AssertSite where
  | fnName | lparenAfterFnName | argName | colonAfterArgName | rparenAfterArgs
  | lbraceFnBody | rbraceFnBody | rbraceBareBlock | lbraceWhile | rbraceWhile
  | lbraceIf | rbraceIf | lbraceElse | rbraceElse | identAfterVar | rparenAfterExpr
  deriving DecidableEq, Repr

/-- Parse errors (parser.rs, `ParseError`), with the data of each
`format!` site kept structurally in place of the message string. -/
inductive PErr where
  | assertMismatch (site : AssertSite) (row col : Nat) (tag : TokenType)
  | assertEndOfInput (site : AssertSite)
  | unexpectedSemicolon (row col : Nat)
  | unexpectedTopLevel
  | expectedTypeGot (tag : TokenType)
  | expectedTypeEndOfInput
  | unexpectedToken (tag : TokenType)
  | unexpectedEndOfInput
  | numberParseFailed (lexeme : String)
  | unexpectedTokenInExpr (tag : TokenType)
  | unexpectedEndOfInputInExpr
  deriving DecidableEq, Repr

/-- Outcome of a parsing function: a result with the remaining tokens, a
`ParseError` with the remaining tokens at the moment of failure (the Rust
parser's `position` keeps whatever progress was made before the error), or
exhaustion of the recursion-depth fuel (`parse` below is run with fuel
that the concrete theorems simply compute through). -/
inductive PRes (α : Type) where
  | ok (a : α) (rest : List Token)
  | err (e : PErr) (rest : List Token)
  | out

/-- The operator-precedence table (parser.rs, `get_precedence`); `-1`
means "not a binary operator". -/
def getPrecedence (t : TokenType) : Int :=
  match t with
  | TokenType.orOp => 5
  | TokenType.andOp => 6
  | TokenType.equal => 10
  | TokenType.notEqual => 10
  | TokenType.less => 10
  | TokenType.greater => 10
  | TokenType.lessEqual => 10
  | TokenType.greaterEqual => 10
  | TokenType.plus => 20
  | TokenType.minus => 20
  | TokenType.star => 40
  | TokenType.slash => 40
  | TokenType.percent => 40
  | _ => -1

/-- The parser's `consume_assert`: consume one token and check its type. -/
def consumeAssert (expected : TokenType) (site : AssertSite) :
    List Token → PRes Token
  | [] => PRes.err (PErr.assertEndOfInput site) []
  | tok :: rest =>
    if tok.tag = expected then PRes.ok tok rest
    else PRes.err (PErr.assertMismatch site tok.row tok.column tok.tag) rest

/-- Digit run check for the f64 grammar. -/
def allDigits (cs : List Char) : Bool :=
  cs.all Char.isDigit

/-- The grammar accepted by Rust `str::parse::<f64>` (optional sign, then
`inf`/`infinity`/`nan` case-insensitively or a decimal mantissa with
optional fraction and exponent).  Only its success is observable: the
parser keeps the lexeme text as the literal value. -/
def rustParsesF64 (s : String) : Bool :=
  let cs := s.data.map Char.toLower
  let body :=
    match cs with
    | '+' :: rest => rest
    | '-' :: rest => rest
    | rest => rest
  if body = ['i', 'n', 'f'] || body = ['i', 'n', 'f', 'i', 'n', 'i', 't', 'y'] ||
      body = ['n', 'a', 'n'] then
    true
  else
    let mantissa := body.takeWhile (fun c => c ≠ 'e')
    let expPart := body.dropWhile (fun c => c ≠ 'e')
    let intPart := mantissa.takeWhile (fun c => c ≠ '.')
    let fracDot := mantissa.dropWhile (fun c => c ≠ '.')
    let mantOk : Bool :=
      match fracDot with
      | [] => !intPart.isEmpty && allDigits intPart
      | '.' :: frac =>
        allDigits intPart && allDigits frac && (!intPart.isEmpty || !frac.isEmpty)
      | _ => false
    let expOk : Bool :=
      match expPart with
      | [] => true
      | 'e' :: rest =>
        let digits :=
          match rest with
          | '+' :: ds => ds
          | '-' :: ds => ds
          | ds => ds
        !digits.isEmpty && allDigits digits
      | _ => false
    mantOk && expOk

/-- Sequencing of parse results (`?` propagation in parser.rs). -/
def PRes.bind {α β : Type} (x : PRes α) (g : α → List Token → PRes β) : PRes β :=
  match x with
  | PRes.ok a r => g a r
  | PRes.err e r => PRes.err e r
  | PRes.out => PRes.out

/-- Conversion of a plain list of expressions to the argument list. -/
def ExprList.ofList : List Expr → ExprList
  | [] => ExprList.nil
  | e :: es => ExprList.cons e (ExprList.ofList es)

/-- The parser's `parse_type`: `*` prefixes build pointer types, then a
base type token. -/
def parseType : Nat → List Token → PRes Ty
  | 0, _ => PRes.out
  | f + 1, ts =>
    match ts with
    | tok :: rest =>
      if tok.tag = TokenType.star then
        (parseType f rest).bind fun inner r => PRes.ok (Ty.pointer inner) r
      else
        match tok.tag with
        | TokenType.f8Type => PRes.ok (Ty.base BaseType.f8) rest
        | TokenType.f16Type => PRes.ok (Ty.base BaseType.f16) rest
        | TokenType.f32Type => PRes.ok (Ty.base BaseType.f32) rest
        | TokenType.f64Type => PRes.ok (Ty.base BaseType.f64) rest
        | _ => PRes.err (PErr.expectedTypeGot tok.tag) ts
    | [] => PRes.err PErr.expectedTypeEndOfInput []

mutual

/-- parser.rs `parse_primary`: parenthesized expressions, number
literals, identifiers and calls.  The fuel bounds recursion depth; `parse`
below supplies enough for its input and the theorems compute through it. -/
def parsePrimary : Nat → List Token → PRes Expr
  | 0, _ => PRes.out
  | f + 1, ts =>
    match ts with
    | [] => PRes.err PErr.unexpectedEndOfInputInExpr []
    | tok :: rest =>
      match tok.tag with
      | TokenType.lparen =>
        (parseExpression f rest).bind fun e r2 =>
        (consumeAssert TokenType.rparen AssertSite.rparenAfterExpr r2).bind fun _ r3 =>
        PRes.ok e r3
      | TokenType.number =>
        if rustParsesF64 tok.lexeme then PRes.ok (Expr.number tok.lexeme) rest
        else PRes.err (PErr.numberParseFailed tok.lexeme) rest
      | TokenType.identifier =>
        match rest with
        | t :: rest2 =>
          if t.tag = TokenType.lparen then
            match rest2 with
            | t2 :: _ =>
              if t2.tag = TokenType.rparen then
                (consumeAssert TokenType.rparen AssertSite.rparenAfterArgs rest2).bind
                  fun _ r3 => PRes.ok (Expr.call tok.lexeme ExprList.nil) r3
              else
                (parseExpression f rest2).bind fun a1 r3 =>
                (parseCallArgs f r3).bind fun more r4 =>
                (consumeAssert TokenType.rparen AssertSite.rparenAfterArgs r4).bind
                  fun _ r5 => PRes.ok (Expr.call tok.lexeme (ExprList.ofList (a1 :: more))) r5
            | [] =>
              (consumeAssert TokenType.rparen AssertSite.rparenAfterArgs []).bind
                fun _ r3 => PRes.ok (Expr.call tok.lexeme ExprList.nil) r3
          else PRes.ok (Expr.varRef tok.lexeme) rest
        | [] => PRes.ok (Expr.varRef tok.lexeme) rest
      | _ => PRes.err (PErr.unexpectedTokenInExpr tok.tag) ts

/-- parser.rs: the `while let Some(t) = self.peek()` argument loop of a
call in `parse_primary` (`, expr` pairs after the first argument). -/
def parseCallArgs : Nat → List Token → PRes (List Expr)
  | 0, _ => PRes.out
  | f + 1, ts =>
    match ts with
    | [] => PRes.ok [] []
    | t :: rest =>
      if t.tag = TokenType.comma then
        (parseExpression f rest).bind fun a r2 =>
        (parseCallArgs f r2).bind fun more r3 =>
        PRes.ok (a :: more) r3
      else PRes.ok [] ts

/-- parser.rs `parse_unary`: `+`, `-`, `!` prefixes, then a primary. -/
def parseUnary : Nat → List Token → PRes Expr
  | 0, _ => PRes.out
  | f + 1, ts =>
    match ts with
    | [] => PRes.err PErr.unexpectedEndOfInputInExpr []
    | tok :: rest =>
      match tok.tag with
      | TokenType.plus =>
        (parseUnary f rest).bind fun e r => PRes.ok (Expr.unaryOp e tok) r
      | TokenType.minus =>
        (parseUnary f rest).bind fun e r => PRes.ok (Expr.unaryOp e tok) r
      | TokenType.bang =>
        (parseUnary f rest).bind fun e r => PRes.ok (Expr.unaryOp e tok) r
      | _ => parsePrimary f ts

/-- parser.rs `parse_binop_rhs`: precedence climbing.  Each iteration of
the Rust `loop` is a tail call at the same `exprPrec`. -/
def parseBinopRhs : Nat → Int → Expr → List Token → PRes Expr
  | 0, _, _, _ => PRes.out
  | f + 1, exprPrec, lhs, ts =>
    match ts with
    | [] => PRes.ok lhs []
    | tok :: rest =>
      if getPrecedence tok.tag < exprPrec then PRes.ok lhs ts
      else
        (parseUnary f rest).bind fun rhs r2 =>
        let nextPrec : Int :=
          match r2 with
          | t :: _ => getPrecedence t.tag
          | [] => -1
        if getPrecedence tok.tag < nextPrec then
          (parseBinopRhs f (getPrecedence tok.tag + 1) rhs r2).bind fun rhs2 r3 =>
          parseBinopRhs f exprPrec (Expr.binaryOp lhs tok rhs2) r3
        else parseBinopRhs f exprPrec (Expr.binaryOp lhs tok rhs) r2

/-- parser.rs `parse_expression`: a unary expression extended by
`parse_binop_rhs` at minimum precedence 0. -/
def parseExpression : Nat → List Token → PRes Expr
  | 0, _ => PRes.out
  | f + 1, ts =>
    (parseUnary f ts).bind fun lhs r => parseBinopRhs f 0 lhs r

end

mutual

/-- parser.rs `parse_block`: statements until `}` or end of tokens; the
block's scope is `None`. -/
def parseBlock : Nat → List Token → PRes Block
  | 0, _ => PRes.out
  | f + 1, ts =>
    match ts with
    | [] => PRes.ok (Block.mk StmtList.nil none) []
    | t :: _ =>
      if t.tag = TokenType.rbrace then PRes.ok (Block.mk StmtList.nil none) ts
      else
        (parseStatement f ts).bind fun s r =>
        (parseBlock f r).bind fun b r2 =>
        match b with
        | Block.mk ss _ => PRes.ok (Block.mk (StmtList.cons s ss) none) r2

/-- parser.rs: the function-definition argument loop of
`parse_statement` (`name : type [= default]`, separated by commas).
A default value uses `?`, so its parse error propagates. -/
def parseFnArgs : Nat → List Token → PRes (List Variable)
  | 0, _ => PRes.out
  | f + 1, ts =>
    match ts with
    | [] => PRes.ok [] []
    | t :: _ =>
      if t.tag = TokenType.rparen then PRes.ok [] ts
      else
        (consumeAssert TokenType.identifier AssertSite.argName ts).bind fun argName r2 =>
        (consumeAssert TokenType.colon AssertSite.colonAfterArgName r2).bind fun _ r3 =>
        (parseType f r3).bind fun argTy r4 =>
        let initStep : PRes (Option Expr) :=
          match r4 with
          | t2 :: r5 =>
            if t2.tag = TokenType.assign then
              (parseExpression f r5).bind fun e r6 => PRes.ok (some e) r6
            else PRes.ok none r4
          | [] => PRes.ok none []
        initStep.bind fun init r7 =>
        let afterComma : List Token :=
          match r7 with
          | t3 :: r8 => if t3.tag = TokenType.comma then r8 else r7
          | [] => []
        (parseFnArgs f afterComma).bind fun more r9 =>
        PRes.ok (Variable.mk argName.lexeme argTy init :: more) r9

/-- parser.rs `parse_statement`, arm by arm.  In the `Identifier ... =`
and `var` arms the right-hand side uses `.ok().map(Box::new)`: a parse
error of the initializer is discarded (the statement succeeds with
`right = None`) while the tokens consumed before the error stay
consumed. -/
def parseStatement : Nat → List Token → PRes Stmt
  | 0, _ => PRes.out
  | f + 1, ts =>
    match ts with
    | [] => PRes.err PErr.unexpectedEndOfInput []
    | tok :: rest =>
      match tok.tag with
      | TokenType.semicolon => PRes.err (PErr.unexpectedSemicolon tok.row tok.column) ts
      | TokenType.fnKw =>
        (consumeAssert TokenType.identifier AssertSite.fnName rest).bind fun name r2 =>
        (consumeAssert TokenType.lparen AssertSite.lparenAfterFnName r2).bind fun _ r3 =>
        (parseFnArgs f r3).bind fun args r4 =>
        (consumeAssert TokenType.rparen AssertSite.rparenAfterArgs r4).bind fun _ r5 =>
        let retStep : PRes Ty :=
          match r5 with
          | t :: r6 =>
            if t.tag = TokenType.arrow then parseType f r6
            else PRes.ok (Ty.base BaseType.void) r5
          | [] => PRes.ok (Ty.base BaseType.void) []
        retStep.bind fun retTy r7 =>
        (consumeAssert TokenType.lbrace AssertSite.lbraceFnBody r7).bind fun _ r8 =>
        (parseBlock f r8).bind fun body r9 =>
        (consumeAssert TokenType.rbrace AssertSite.rbraceFnBody r9).bind fun _ r10 =>
        PRes.ok (Stmt.functionDefinition name.lexeme args retTy body) r10
      | TokenType.lbrace =>
        (parseBlock f rest).bind fun body r2 =>
        (consumeAssert TokenType.rbrace AssertSite.rbraceBareBlock r2).bind fun _ r3 =>
        PRes.ok (Stmt.blockStmt body) r3
      | TokenType.returnKw =>
        match rest with
        | t :: _ =>
          if t.tag = TokenType.rbrace || t.tag = TokenType.eof then
            PRes.ok (Stmt.ret none) rest
          else
            (parseExpression f rest).bind fun e r2 => PRes.ok (Stmt.ret (some e)) r2
        | [] => PRes.ok (Stmt.ret none) []
      | TokenType.whileKw =>
        let r1 : List Token :=
          match rest with
          | t :: r => if t.tag = TokenType.lparen then r else rest
          | [] => rest
        (parseExpression f r1).bind fun cond r2 =>
        let r3 : List Token :=
          match r2 with
          | t :: r => if t.tag = TokenType.rparen then r else r2
          | [] => r2
        (consumeAssert TokenType.lbrace AssertSite.lbraceWhile r3).bind fun _ r4 =>
        (parseBlock f r4).bind fun body r5 =>
        (consumeAssert TokenType.rbrace AssertSite.rbraceWhile r5).bind fun _ r6 =>
        PRes.ok (Stmt.whileStmt cond body) r6
      | TokenType.ifKw =>
        let r1 : List Token :=
          match rest with
          | t :: r => if t.tag = TokenType.lparen then r else rest
          | [] => rest
        (parseExpression f r1).bind fun cond r2 =>
        let r3 : List Token :=
          match r2 with
          | t :: r => if t.tag = TokenType.rparen then r else r2
          | [] => r2
        (consumeAssert TokenType.lbrace AssertSite.lbraceIf r3).bind fun _ r4 =>
        (parseBlock f r4).bind fun thenB r5 =>
        (consumeAssert TokenType.rbrace AssertSite.rbraceIf r5).bind fun _ r6 =>
        match r6 with
        | t :: r7 =>
          if t.tag = TokenType.elseKw then
            (consumeAssert TokenType.lbrace AssertSite.lbraceElse r7).bind fun _ r8 =>
            (parseBlock f r8).bind fun els r9 =>
            (consumeAssert TokenType.rbrace AssertSite.rbraceElse r9).bind fun _ r10 =>
            PRes.ok (Stmt.ifStmt cond thenB (some els)) r10
          else PRes.ok (Stmt.ifStmt cond thenB none) r6
        | [] => PRes.ok (Stmt.ifStmt cond thenB none) []
      | TokenType.identifier =>
        match rest with
        | t :: rest2 =>
          if t.tag = TokenType.assign then
            match parseExpression f rest2 with
            | PRes.ok e r => PRes.ok (Stmt.assignment tok.lexeme none (some e)) r
            | PRes.err _ r => PRes.ok (Stmt.assignment tok.lexeme none none) r
            | PRes.out => PRes.out
          else
            (parseExpression f ts).bind fun e r => PRes.ok (Stmt.exprStmt e) r
        | [] => PRes.err PErr.unexpectedEndOfInput ts
      | TokenType.varKw =>
        (consumeAssert TokenType.identifier AssertSite.identAfterVar rest).bind fun ident r2 =>
        let typStep : PRes (Option Ty) :=
          match r2 with
          | t :: r3 =>
            if t.tag = TokenType.colon then
              (parseType f r3).bind fun ty r4 => PRes.ok (some ty) r4
            else PRes.ok (some (Ty.base BaseType.auto)) r2
          | [] => PRes.ok (some (Ty.base BaseType.auto)) []
        typStep.bind fun typ r4 =>
        match r4 with
        | t :: r5 =>
          if t.tag = TokenType.assign then
            match parseExpression f r5 with
            | PRes.ok e r6 => PRes.ok (Stmt.assignment ident.lexeme typ (some e)) r6
            | PRes.err _ r6 => PRes.ok (Stmt.assignment ident.lexeme typ none) r6
            | PRes.out => PRes.out
          else PRes.ok (Stmt.assignment ident.lexeme typ none) r4
        | [] => PRes.ok (Stmt.assignment ident.lexeme typ none) []
      | _ => PRes.err (PErr.unexpectedToken tok.tag) ts

end

/-- parser.rs `parse`: the top-level loop turning statements into globals
and functions until `Eof` or end of tokens. -/
def parseProgramLoop : Nat → List Variable → List Func → List Token → PRes Program
  | 0, _, _, _ => PRes.out
  | f + 1, globals, functions, ts =>
    match ts with
    | [] => PRes.ok ⟨globals, functions⟩ []
    | t :: _ =>
      if t.tag = TokenType.eof then PRes.ok ⟨globals, functions⟩ ts
      else
        (parseStatement f ts).bind fun s r =>
        match s with
        | Stmt.assignment left typ right =>
          parseProgramLoop f
            (globals ++ [Variable.mk left (typ.getD (Ty.base BaseType.auto)) right])
            functions r
        | Stmt.functionDefinition name args retTy body =>
          parseProgramLoop f globals (functions ++ [Func.mk name args retTy body]) r
        | _ => PRes.err PErr.unexpectedTopLevel r

/-- Fuel ample for the recursion depth of the parser on the given
tokens: every recursive call either consumes a token first or descends
through the constant-height expression/unary/primary chain. -/
def parseFuel (ts : List Token) : Nat :=
  8 * ts.length + 16

/-- The parser entry point (`ParserContext::parse`). -/
def parse (ts : List Token) : PRes Program :=
  parseProgramLoop (parseFuel ts) [] [] ts

/-- Length of an argument list. -/
def ExprList.length : ExprList → Nat
  | ExprList.nil => 0
  | ExprList.cons _ es => es.length + 1

/-- Typechecking diagnostics (passes/typechecking.rs), one constructor
per `format!` site; sites with identical format strings share a
constructor. -/
inductive TCError where
  | autoNoInit (name : String)
  | typeMismatchVar (name : String) (expected found : Ty)
  | returnMismatch (expected found : Ty)
  | redeclaration (name : String)
  | undeclaredAssign (name : String)
  | typeMismatchAssign (name : String) (expected found : Ty)
  | ifCondNotBool (found : Ty)
  | whileCondNotBool (found : Ty)
  | unhandledStatement
  | unknownVariable (name : String)
  | unknownFunction (name : String)
  | arityMismatch (name : String) (expected got : Nat)
  | argTypeMismatch (param : String) (expected found : Ty)
  | binopMismatch (left right : Ty)
  deriving DecidableEq, Repr

/-- A scope of the typechecker (types.rs `Scope`): hash maps modelled as
association lists where the most recent insertion is found first. -/
structure ScopeV where
  symbols : List (String × Variable)
  functions : List (String × Func)

/-- Lookup in an association-list map (first match wins, as the newest
insertion shadows older ones). -/
def lookupA {α : Type} (l : List (String × α)) (k : String) : Option α :=
  match l with
  | [] => none
  | (k2, v) :: rest => if k2 = k then some v else lookupA rest k

/-- State of `TypecheckingPass`: diagnostics errors, the scope stack
(head = innermost scope), and the current function's return type.  The
pass also stores each block's scope back into the AST; nothing in the
pass reads it back, so that write is not modelled. -/
structure TCState where
  errors : List TCError
  scopes : List ScopeV
  currentRet : Option Ty

/-- Append a diagnostic (`DiagnosticCollector::error`). -/
def pushError (st : TCState) (e : TCError) : TCState :=
  { st with errors := st.errors ++ [e] }

/-- The scope-stack walk of `find_variable`, innermost scope first. -/
def findVariableIn : List ScopeV → String → Option Variable
  | [], _ => none
  | s :: rest, name =>
    match lookupA s.symbols name with
    | some v => some v
    | none => findVariableIn rest name

/-- `TypecheckingPass::find_variable`: innermost scope first. -/
def findVariable (st : TCState) (name : String) : Option Variable :=
  findVariableIn st.scopes name

/-- `TypecheckingPass::find_variable_in_current_scope`. -/
def findVariableInCurrentScope (st : TCState) (name : String) : Option Variable :=
  match st.scopes with
  | [] => none
  | s :: _ => lookupA s.symbols name

/-- `TypecheckingPass::add_variable_to_current_scope`. -/
def addVarCurrent (st : TCState) (v : Variable) : TCState :=
  match st.scopes with
  | [] => st
  | s :: rest => { st with scopes := { s with symbols := (v.name, v) :: s.symbols } :: rest }

/-- The scope-stack walk of `find_function`, innermost scope first. -/
def findFunctionIn : List ScopeV → String → Option Func
  | [], _ => none
  | s :: rest, name =>
    match lookupA s.functions name with
    | some f => some f
    | none => findFunctionIn rest name

/-- `TypecheckingPass::find_function`: innermost scope first. -/
def findFunction (st : TCState) (name : String) : Option Func :=
  findFunctionIn st.scopes name

/-- Argument type checking of a call (the `zip` loop in the `Call` arm of
`visit_expression`). -/
def checkArgTypes : List Variable → List Ty → TCState → TCState
  | param :: params, t :: ts, st =>
    let st1 := if ¬ tyIsEqual param.typ t then
        pushError st (TCError.argTypeMismatch param.name param.typ t)
      else st
    checkArgTypes params ts st1
  | _, _, st => st

mutual

/-- `TypecheckingPass::visit_expression`.  Output is the inferred type
(`None` after an error); diagnostics accumulate in the state. -/
def visitExpr : Expr → TCState → Option Ty × TCState
  | Expr.varRef name, st =>
    match findVariable st name with
    | some v => (some v.typ, st)
    | none => (none, pushError st (TCError.unknownVariable name))
  | Expr.number _, st => (some (Ty.base BaseType.f64), st)
  | Expr.unaryOp left op, st =>
    match visitExpr left st with
    | (none, st1) => (none, st1)
    | (some t, st1) => (unaryOpResult t op.tag, st1)
  | Expr.binaryOp left op right, st =>
    match visitExpr left st with
    | (none, st1) => (none, st1)
    | (some lt, st1) =>
      match visitExpr right st1 with
      | (none, st2) => (none, st2)
      | (some rt, st2) =>
        match binopResult lt op.tag rt with
        | some t => (some t, st2)
        | none => (none, pushError st2 (TCError.binopMismatch lt rt))
  | Expr.call ident args, st =>
    match findFunction st ident with
    | none => (none, pushError st (TCError.unknownFunction ident))
    | some func =>
      if func.args.length ≠ args.length then
        (none, pushError st (TCError.arityMismatch ident func.args.length args.length))
      else
        match visitExprArgs args st with
        | (none, st1) => (none, st1)
        | (some argTys, st1) => (some func.returnType, checkArgTypes func.args argTys st1)

/-- The argument loop of the `Call` arm: collect argument types, stopping
at the first argument whose type is unknown. -/
def visitExprArgs : ExprList → TCState → Option (List Ty) × TCState
  | ExprList.nil, st => (some [], st)
  | ExprList.cons e es, st =>
    match visitExpr e st with
    | (none, st1) => (none, st1)
    | (some t, st1) =>
      match visitExprArgs es st1 with
      | (none, st2) => (none, st2)
      | (some ts, st2) => (some (t :: ts), st2)

end

/-- `TypecheckingPass::visit_variable`: returns the inferred output type,
the (possibly type-updated) variable, and the new state. -/
def visitVariable (v : Variable) (st : TCState) : Option Ty × Variable × TCState :=
  match v with
  | Variable.mk name typ init =>
    match typ, init with
    | Ty.base BaseType.auto, none =>
      (none, v, pushError st (TCError.autoNoInit name))
    | Ty.base BaseType.auto, some i =>
      match visitExpr i st with
      | (some it, st1) => (some it, Variable.mk name it (some i), st1)
      | (none, st1) => (none, v, st1)
    | t, none => (some t, v, st)
    | t, some i =>
      match visitExpr i st with
      | (some it, st1) =>
        if ¬ tyIsEqual t it then
          (some t, v, pushError st1 (TCError.typeMismatchVar name t it))
        else (some t, v, st1)
      | (none, st1) => (some t, v, st1)

/-- Push a fresh empty scope. -/
def pushScope (st : TCState) (s : ScopeV) : TCState :=
  { st with scopes := s :: st.scopes }

/-- Pop the innermost scope. -/
def popScope (st : TCState) : TCState :=
  { st with scopes := st.scopes.tail }

mutual

/-- `TypecheckingPass::visit_statement`.  The `unreachable!` of the
reassignment-without-value arm is modelled as `Except.error ()`; all
other outcomes are `Except.ok` with the updated state. -/
def visitStmt : Stmt → TCState → Except Unit TCState
  | Stmt.exprStmt e, st => Except.ok (visitExpr e st).2
  | Stmt.ret maybeE, st =>
    match maybeE with
    | some e =>
      match visitExpr e st with
      | (none, st1) => Except.ok st1
      | (some et, st1) =>
        match st1.currentRet with
        | none => Except.ok st1
        | some expected =>
          if ¬ tyIsEqual et expected then
            Except.ok (pushError st1 (TCError.returnMismatch expected et))
          else Except.ok st1
    | none =>
      match st.currentRet with
      | none => Except.ok st
      | some expected =>
        if ¬ tyIsEqual (Ty.base BaseType.void) expected then
          Except.ok (pushError st (TCError.returnMismatch expected (Ty.base BaseType.void)))
        else Except.ok st
  | Stmt.blockStmt b, st =>
    match visitBlock b (pushScope st ⟨[], []⟩) with
    | Except.error e => Except.error e
    | Except.ok st1 => Except.ok (popScope st1)
  | Stmt.assignment left typ right, st =>
    match typ with
    | some t =>
      if (findVariableInCurrentScope st left).isSome then
        Except.ok (pushError st (TCError.redeclaration left))
      else
        match t, right with
        | Ty.base BaseType.auto, some r =>
          match visitExpr r st with
          | (none, st1) => Except.ok st1
          | (some rt, st1) =>
            Except.ok (addVarCurrent st1 (Variable.mk left rt (some r)))
        | Ty.base BaseType.auto, none =>
          Except.ok (pushError st (TCError.autoNoInit left))
        | ct, some r =>
          match visitExpr r st with
          | (none, st1) => Except.ok st1
          | (some rt, st1) =>
            let st2 := if ¬ tyIsEqual ct rt then
                pushError st1 (TCError.typeMismatchVar left ct rt)
              else st1
            Except.ok (addVarCurrent st2 (Variable.mk left ct (some r)))
        | ct, none => Except.ok (addVarCurrent st (Variable.mk left ct none))
    | none =>
      match findVariable st left with
      | none => Except.ok (pushError st (TCError.undeclaredAssign left))
      | some var =>
        match right with
        | some r =>
          match visitExpr r st with
          | (none, st1) => Except.ok st1
          | (some rt, st1) =>
            if ¬ tyIsEqual var.typ rt then
              Except.ok (pushError st1 (TCError.typeMismatchAssign left var.typ rt))
            else Except.ok st1
        | none => Except.error ()
  | Stmt.ifStmt cond thenB els, st =>
    let stc :=
      match visitExpr cond st with
      | (some ct, st1) =>
        match ct with
        | Ty.base BaseType.bool => st1
        | _ => pushError st1 (TCError.ifCondNotBool ct)
      | (none, st1) => st1
    match visitBlock thenB (pushScope stc ⟨[], []⟩) with
    | Except.error e => Except.error e
    | Except.ok st2 =>
      let st3 := popScope st2
      match els with
      | some e =>
        match visitBlock e (pushScope st3 ⟨[], []⟩) with
        | Except.error e2 => Except.error e2
        | Except.ok st4 => Except.ok (popScope st4)
      | none => Except.ok st3
  | Stmt.whileStmt cond body, st =>
    let stc :=
      match visitExpr cond st with
      | (some ct, st1) =>
        match ct with
        | Ty.base BaseType.bool => st1
        | _ => pushError st1 (TCError.whileCondNotBool ct)
      | (none, st1) => st1
    match visitBlock body (pushScope stc ⟨[], []⟩) with
    | Except.error e => Except.error e
    | Except.ok st2 => Except.ok (popScope st2)
  | Stmt.functionDefinition _ _ _ _, st =>
    Except.ok (pushError st TCError.unhandledStatement)

/-- The default `walk_block`: visit each statement in order. -/
def visitBlock : Block → TCState → Except Unit TCState
  | Block.mk ss _, st => visitStmtList ss st

/-- The statement loop of `walk_block`. -/
def visitStmtList : StmtList → TCState → Except Unit TCState
  | StmtList.nil, st => Except.ok st
  | StmtList.cons s ss, st =>
    match visitStmt s st with
    | Except.error e => Except.error e
    | Except.ok st1 => visitStmtList ss st1

end

/-- The argument loop of `visit_function`: visit each parameter (which
may update its type by inference) and insert it into the fresh scope. -/
def visitFnArgs : List Variable → TCState → List (String × Variable) →
    List Variable × List (String × Variable) × TCState
  | [], st, symbols => ([], symbols, st)
  | arg :: args, st, symbols =>
    let (_, arg1, st1) := visitVariable arg st
    let (more, symbols2, st2) := visitFnArgs args st1 ((arg1.name, arg1) :: symbols)
    (arg1 :: more, symbols2, st2)

/-- `TypecheckingPass::visit_function`: build the function scope from the
parameters and the function itself, push it, check the body against the
declared return type, pop. -/
def visitFunction (f : Func) (st : TCState) : Except Unit TCState :=
  match f with
  | Func.mk name args retTy body =>
    let (args1, symbols, st1) := visitFnArgs args st []
    let f1 := Func.mk name args1 retTy body
    let scope : ScopeV := ⟨symbols, [(name, f1)]⟩
    let st2 := { pushScope st1 scope with currentRet := some retTy }
    match visitBlock body st2 with
    | Except.error e => Except.error e
    | Except.ok st3 => Except.ok (popScope { st3 with currentRet := none })

/-- The global loop of `visit_program`: visit each global (the scope
stack is still empty at this point) and collect it into the global
scope's symbol map. -/
def visitGlobals : List Variable → TCState → List (String × Variable) →
    List (String × Variable) × TCState
  | [], st, symbols => (symbols, st)
  | g :: gs, st, symbols =>
    let (_, g1, st1) := visitVariable g st
    visitGlobals gs st1 ((g1.name, g1) :: symbols)

/-- The function loop of `visit_program`. -/
def visitFunctions : List Func → TCState → Except Unit TCState
  | [], st => Except.ok st
  | f :: fs, st =>
    match visitFunction f st with
    | Except.error e => Except.error e
    | Except.ok st1 => visitFunctions fs st1

/-- `TypecheckingPass::visit_program`: build the global scope from the
globals and function declarations, push it, visit every function, pop. -/
def visitProgram (p : Program) (st : TCState) : Except Unit TCState :=
  let (symbols, st1) := visitGlobals p.globals st []
  let scope : ScopeV := ⟨symbols, (p.functions.map (fun f => (f.name, f))).reverse⟩
  let st2 := pushScope st1 scope
  match visitFunctions p.functions st2 with
  | Except.error e => Except.error e
  | Except.ok st3 => Except.ok (popScope st3)

/-- Run the typechecking pass on a parsed program with a fresh
`TypecheckingPass` state; `Except.error ()` is the `unreachable!`
panic, otherwise the final diagnostics state is returned. -/
def typecheckProgram (p : Program) : Except Unit TCState :=
  visitProgram p ⟨[], [], none⟩

/-- The grammar judgment described by the spec for binary-operator
parsing: `Climb p lhs ts e rest` holds when `e` extends `lhs` with
operators of precedence at least `p` from the table, each right operand
being a unary expression extended only by strictly tighter operators
(so equal-precedence operators group to the left), leaving `rest`. -/
inductive Climb : Int → Expr → List Token → Expr → List Token → Prop where
  | stopNil (p : Int) (lhs : Expr) : Climb p lhs [] lhs []
  | stop (p : Int) (lhs : Expr) (t : Token) (ts : List Token)
      (h : getPrecedence t.tag < p) : Climb p lhs (t :: ts) lhs (t :: ts)
  | step (p : Int) (lhs : Expr) (op : Token) (ts1 : List Token) (rhs : Expr)
      (ts2 : List Token) (rhs2 : Expr) (ts3 : List Token) (e : Expr)
      (rest : List Token)
      (hp : p ≤ getPrecedence op.tag)
      (hu : ∃ f, parseUnary f ts1 = PRes.ok rhs ts2)
      (hr : Climb (getPrecedence op.tag + 1) rhs ts2 rhs2 ts3)
      (hcont : Climb p (Expr.binaryOp lhs op rhs2) ts3 e rest) :
      Climb p lhs (op :: ts1) e rest

/-- The precedence climber is sound for the spec's layered grammar:
whatever `parse_binop_rhs` accepts is derivable by `Climb`. -/
theorem parseBinopRhs_climb :
    ∀ (fuel : Nat) (p : Int) (lhs : Expr) (ts : List Token) (e : Expr)
      (rest : List Token), parseBinopRhs fuel p lhs ts = PRes.ok e rest →
      Climb p lhs ts e rest := by
  intro fuel
  induction fuel with
  | zero =>
    intro p lhs ts e rest h
    simp [parseBinopRhs] at h
  | succ f ih =>
    intro p lhs ts e rest h
    rw [parseBinopRhs.eq_def] at h
    dsimp only at h
    cases ts with
    | nil =>
      simp only [PRes.ok.injEq] at h
      rw [← h.1, ← h.2]
      exact Climb.stopNil p lhs
    | cons tok rest0 =>
      dsimp only at h
      split at h
      · rename_i hlt
        simp only [PRes.ok.injEq] at h
        rw [← h.1, ← h.2]
        exact Climb.stop p lhs tok rest0 hlt
      · rename_i hge
        cases hu : parseUnary f rest0 with
        | err e2 r2 => rw [hu] at h; simp [PRes.bind] at h
        | out => rw [hu] at h; simp [PRes.bind] at h
        | ok rhs r2 =>
          rw [hu] at h
          simp only [PRes.bind] at h
          split at h
          · rename_i hnext
            cases hrec1 : parseBinopRhs f (getPrecedence tok.tag + 1) rhs r2 with
            | err e2 r3 => rw [hrec1] at h; simp [PRes.bind] at h
            | out => rw [hrec1] at h; simp [PRes.bind] at h
            | ok rhs2 r3 =>
              rw [hrec1] at h
              simp only [PRes.bind] at h
              exact Climb.step p lhs tok rest0 rhs r2 rhs2 r3 e rest
                (by omega) ⟨f, hu⟩ (ih _ _ _ _ _ hrec1) (ih _ _ _ _ _ h)
          · rename_i hnext
            refine Climb.step p lhs tok rest0 rhs r2 rhs r2 e rest
              (by omega) ⟨f, hu⟩ ?_ (ih _ _ _ _ _ h)
            cases r2 with
            | nil => exact Climb.stopNil _ rhs
            | cons t2 r2' =>
              refine Climb.stop _ rhs t2 r2' ?_
              simp only [not_lt] at hnext
              omega

/-- `parse_expression` is a unary expression extended by the climber at
minimum precedence 0. -/
theorem parseExpression_climb (fuel : Nat) (ts : List Token) (e : Expr)
    (rest : List Token) (h : parseExpression fuel ts = PRes.ok e rest) :
    ∃ (f : Nat) (lhs : Expr) (ts2 : List Token),
      parseUnary f ts = PRes.ok lhs ts2 ∧ Climb 0 lhs ts2 e rest := by
  cases fuel with
  | zero => simp [parseExpression] at h
  | succ f =>
    rw [parseExpression] at h
    cases hu : parseUnary f ts with
    | err e2 r2 => rw [hu] at h; simp [PRes.bind] at h
    | out => rw [hu] at h; simp [PRes.bind] at h
    | ok lhs r =>
      rw [hu] at h
      simp only [PRes.bind] at h
      exact ⟨f, lhs, r, hu, parseBinopRhs_climb f 0 lhs r e rest h⟩

theorem parsePrimary_succ_eq (f : Nat) (ts : List Token) :
    parsePrimary (f + 1) ts =
      (match ts with
       | [] => PRes.err PErr.unexpectedEndOfInputInExpr []
       | tok :: rest =>
         match tok.tag with
         | TokenType.lparen =>
           (parseExpression f rest).bind fun e r2 =>
           (consumeAssert TokenType.rparen AssertSite.rparenAfterExpr r2).bind fun _ r3 =>
           PRes.ok e r3
         | TokenType.number =>
           if rustParsesF64 tok.lexeme then PRes.ok (Expr.number tok.lexeme) rest
           else PRes.err (PErr.numberParseFailed tok.lexeme) rest
         | TokenType.identifier =>
           match rest with
           | t :: rest2 =>
             if t.tag = TokenType.lparen then
               match rest2 with
               | t2 :: _ =>
                 if t2.tag = TokenType.rparen then
                   (consumeAssert TokenType.rparen AssertSite.rparenAfterArgs rest2).bind
                     fun _ r3 => PRes.ok (Expr.call tok.lexeme ExprList.nil) r3
                 else
                   (parseExpression f rest2).bind fun a1 r3 =>
                   (parseCallArgs f r3).bind fun more r4 =>
                   (consumeAssert TokenType.rparen AssertSite.rparenAfterArgs r4).bind
                     fun _ r5 =>
                       PRes.ok (Expr.call tok.lexeme (ExprList.ofList (a1 :: more))) r5
               | [] =>
                 (consumeAssert TokenType.rparen AssertSite.rparenAfterArgs []).bind
                   fun _ r3 => PRes.ok (Expr.call tok.lexeme ExprList.nil) r3
             else PRes.ok (Expr.varRef tok.lexeme) rest
           | [] => PRes.ok (Expr.varRef tok.lexeme) rest
         | _ => PRes.err (PErr.unexpectedTokenInExpr tok.tag) ts) := rfl

theorem parseUnary_ident (f : Nat) (t : Token) (rest : List Token)
    (ht : t.tag = TokenType.identifier)
    (hr : ∀ r, rest.head? = some r → r.tag ≠ TokenType.lparen) :
    parseUnary (f + 2) (t :: rest) = PRes.ok (Expr.varRef t.lexeme) rest := by
  show parseUnary (f + 1 + 1) (t :: rest) = _
  rw [parseUnary.eq_def]
  dsimp only
  rw [ht]
  dsimp only
  rw [parsePrimary_succ_eq]
  dsimp only
  rw [ht]
  dsimp only
  cases rest with
  | nil => rfl
  | cons r rest2 =>
    dsimp only
    rw [if_neg (hr r rfl)]

/-- Equal or lower precedence of the second operator: left association. -/
theorem parse_binop_left (ta tb tc op1 op2 : Token)
    (hta : ta.tag = TokenType.identifier) (htb : tb.tag = TokenType.identifier)
    (htc : tc.tag = TokenType.identifier)
    (h1 : 0 ≤ getPrecedence op1.tag) (h2 : 0 ≤ getPrecedence op2.tag)
    (hle : getPrecedence op2.tag ≤ getPrecedence op1.tag) :
    parseExpression 9 [ta, op1, tb, op2, tc] =
      PRes.ok (Expr.binaryOp
        (Expr.binaryOp (Expr.varRef ta.lexeme) op1 (Expr.varRef tb.lexeme))
        op2 (Expr.varRef tc.lexeme)) [] := by
  have hop1 : op1.tag ≠ TokenType.lparen := by
    intro hx
    rw [hx] at h1
    simp [getPrecedence] at h1
  have hop2 : op2.tag ≠ TokenType.lparen := by
    intro hx
    rw [hx] at h2
    simp [getPrecedence] at h2
  rw [parseExpression]
  rw [show (8 : Nat) = 6 + 2 from rfl,
    parseUnary_ident 6 ta [op1, tb, op2, tc] hta
      (by intro r hr2; rw [← Option.some.inj hr2]; exact hop1)]
  simp only [PRes.bind]
  rw [parseBinopRhs.eq_def]
  dsimp only
  rw [if_neg (by omega)]
  rw [show (7 : Nat) = 5 + 2 from rfl,
    parseUnary_ident 5 tb [op2, tc] htb
      (by intro r hr2; rw [← Option.some.inj hr2]; exact hop2)]
  simp only [PRes.bind]
  rw [if_neg (by omega)]
  rw [parseBinopRhs.eq_def]
  dsimp only
  rw [if_neg (by omega)]
  rw [show (6 : Nat) = 4 + 2 from rfl,
    parseUnary_ident 4 tc [] htc (by intro r hr2; simp at hr2)]
  simp only [PRes.bind]
  rw [if_neg (by omega)]
  rw [parseBinopRhs.eq_def]

/-- Strictly higher precedence of the second operator: right grouping. -/
theorem parse_binop_right (ta tb tc op1 op2 : Token)
    (hta : ta.tag = TokenType.identifier) (htb : tb.tag = TokenType.identifier)
    (htc : tc.tag = TokenType.identifier)
    (h1 : 0 ≤ getPrecedence op1.tag)
    (hlt : getPrecedence op1.tag < getPrecedence op2.tag) :
    parseExpression 9 [ta, op1, tb, op2, tc] =
      PRes.ok (Expr.binaryOp (Expr.varRef ta.lexeme) op1
        (Expr.binaryOp (Expr.varRef tb.lexeme) op2 (Expr.varRef tc.lexeme))) [] := by
  have h2 : 0 ≤ getPrecedence op2.tag := by omega
  have hop1 : op1.tag ≠ TokenType.lparen := by
    intro hx
    rw [hx] at h1
    simp [getPrecedence] at h1
  have hop2 : op2.tag ≠ TokenType.lparen := by
    intro hx
    rw [hx] at h2
    simp [getPrecedence] at h2
  rw [parseExpression]
  rw [show (8 : Nat) = 6 + 2 from rfl,
    parseUnary_ident 6 ta [op1, tb, op2, tc] hta
      (by intro r hr2; rw [← Option.some.inj hr2]; exact hop1)]
  simp only [PRes.bind]
  rw [parseBinopRhs.eq_def]
  dsimp only
  rw [if_neg (by omega)]
  rw [show (7 : Nat) = 5 + 2 from rfl,
    parseUnary_ident 5 tb [op2, tc] htb
      (by intro r hr2; rw [← Option.some.inj hr2]; exact hop2)]
  simp only [PRes.bind]
  rw [if_pos (by omega)]
  rw [parseBinopRhs.eq_def]
  dsimp only
  rw [if_neg (by omega)]
  rw [show (6 : Nat) = 4 + 2 from rfl,
    parseUnary_ident 4 tc [] htc (by intro r hr2; simp at hr2)]
  simp only [PRes.bind]
  rw [if_neg (by omega)]
  rw [parseBinopRhs.eq_def]
  dsimp only
  rw [parseBinopRhs.eq_def]

/-- Unary `+`, `-`, `!` bind tighter than any binary operator. -/
theorem parse_unary_tighter (tu ta tb op : Token)
    (htu : tu.tag = TokenType.plus ∨ tu.tag = TokenType.minus ∨
      tu.tag = TokenType.bang)
    (hta : ta.tag = TokenType.identifier) (htb : tb.tag = TokenType.identifier)
    (hop : 0 ≤ getPrecedence op.tag) :
    parseExpression 9 [tu, ta, op, tb] =
      PRes.ok (Expr.binaryOp (Expr.unaryOp (Expr.varRef ta.lexeme) tu) op
        (Expr.varRef tb.lexeme)) [] := by
  have hopl : op.tag ≠ TokenType.lparen := by
    intro hx
    rw [hx] at hop
    simp [getPrecedence] at hop
  have hu : parseUnary 8 [tu, ta, op, tb] =
      PRes.ok (Expr.unaryOp (Expr.varRef ta.lexeme) tu) [op, tb] := by
    rw [parseUnary.eq_def]
    dsimp only
    have hrest : parseUnary 7 [ta, op, tb] =
        PRes.ok (Expr.varRef ta.lexeme) [op, tb] := by
      rw [show (7 : Nat) = 5 + 2 from rfl]
      exact parseUnary_ident 5 ta [op, tb] hta
        (by intro r hr2; rw [← Option.some.inj hr2]; exact hopl)
    rcases htu with hx | hx | hx
    · rw [hx]
      dsimp only
      rw [hrest]
      rfl
    · rw [hx]
      dsimp only
      rw [hrest]
      rfl
    · rw [hx]
      dsimp only
      rw [hrest]
      rfl
  rw [parseExpression, hu]
  simp only [PRes.bind]
  rw [parseBinopRhs.eq_def]
  dsimp only
  rw [if_neg (by omega)]
  rw [show (7 : Nat) = 5 + 2 from rfl,
    parseUnary_ident 5 tb [] htb (by intro r hr2; simp at hr2)]
  simp only [PRes.bind]
  rw [if_neg (by omega)]
  rw [parseBinopRhs.eq_def]

end P

end Iris

namespace Iris

/-- The `NumOps` operations instantiated at the carrier `Int`: a concrete
executable carrier used by the closed counterexamples and witnesses below
(every quantified theorem holds for any carrier, including IEEE doubles). -/
def intOps : NumOps Int where
  add := (· + ·)
  sub := (· - ·)
  mul := (· * ·)
  div := (· / ·)
  mod := (· % ·)
  neg := (- ·)
  beq := fun a b => a == b
  lt := fun a b => decide (a < b)
  le := fun a b => decide (a ≤ b)
  gt := fun a b => decide (b < a)
  ge := fun a b => decide (b ≤ a)
  zero := 0
  one := 1

/-- A source span used by the concrete programs below. -/
def sp00 : Span := ⟨0, 0, 0, 0⟩

namespace Hir

/-- Whether an expression contains a variable reference or a call (the
side condition "closed, no variables, no calls" of the folding-soundness
property). -/
def hasVarOrCall {num : Type} : Expression num → Bool
  | Expression.number _ _ _ => false
  | Expression.boolean _ _ _ => false
  | Expression.binaryOp l _ r _ _ => hasVarOrCall l || hasVarOrCall r
  | Expression.unaryOp l _ _ _ => hasVarOrCall l
  | Expression.call _ _ _ _ => true
  | Expression.var _ _ _ => true

end Hir

namespace P

/-- The lexer composed with the parser: `none` when lexing fails. -/
def lexParse (s : String) : Option (PRes Program) :=
  match Lexer.lexStr s with
  | some (Lexer.LexResult.ok toks) => some (parse toks)
  | _ => none

/-- Whether a parse outcome is `Ok`. -/
def presIsOk {α : Type} : PRes α → Bool
  | PRes.ok _ _ => true
  | _ => false

/-- Lexing, parsing and typechecking composed: `none` when lexing fails
or parsing does not return `Ok`. -/
def lexParseCheck (s : String) : Option (Except Unit TCState) :=
  match lexParse s with
  | some (PRes.ok p _) => some (typecheckProgram p)
  | _ => none

/-- The diagnostic list of a pipeline run whose typechecking pass finishes
without a panic. -/
def checkedErrors (s : String) : Option (List TCError) :=
  match lexParseCheck s with
  | some (Except.ok st) => some st.errors
  | _ => none

/-- Whether a typechecking diagnostic is a return-type mismatch. -/
def isReturnMismatch : TCError → Bool
  | TCError.returnMismatch _ _ => true
  | _ => false

end P

/-- A `/` operator token (lexeme `/` at row 0, column 0). -/
def tokSlash00 : Token := ⟨TokenType.slash, "/", 0, 0⟩

/-- A `+` operator token (lexeme `+` at row 0, column 0). -/
def tokPlus00 : Token := ⟨TokenType.plus, "+", 0, 0⟩

/-- The closed HIR expression `1 / 0` over the carrier `Int`. -/
def eDivZero : Hir.Expression Int :=
  Hir.Expression.binaryOp (Hir.Expression.number 1 sp00 none) tokSlash00
    (Hir.Expression.number 0 sp00 none) sp00 none

/-- The closed HIR expression `2 + 3` over the carrier `Int`. -/
def ePlus23 : Hir.Expression Int :=
  Hir.Expression.binaryOp (Hir.Expression.number 2 sp00 none) tokPlus00
    (Hir.Expression.number 3 sp00 none) sp00 none

/-- The HIR program `fn f() { }` (one function, empty body) over `Int`. -/
def pEmptyBody : Hir.Program Int :=
  { globals := [],
    functions := [Hir.Func.mk "f" [] (Ty.base BaseType.void)
      (Hir.Block.mk Hir.StmtList.nil none sp00)] }

/-- The HIR program `fn f() { return }` over `Int`. -/
def pRetBody : Hir.Program Int :=
  { globals := [],
    functions := [Hir.Func.mk "f" [] (Ty.base BaseType.void)
      (Hir.Block.mk (Hir.StmtList.cons (Hir.Statement.ret none sp00) Hir.StmtList.nil)
        none sp00)] }

/-- The MIR function lowering produces for `fn f() { }`: a single entry
block still carrying the `Unreachable` placeholder. -/
def mfEmptyVal : Mir.MirFunction Int :=
  { name := "f", params := [], returnType := Mir.MirType.void,
    arena := [{ instructions := [], terminator := Mir.Terminator.unreachable,
                phiNodes := [] }],
    entry := 0 }

/-- The final lowering state for `pEmptyBody`. -/
def stEmptyVal : Lowering.LowSt Int :=
  { errors := [], functions := [mfEmptyVal], scopeStack := [],
    registerCursor := 0, currentFunction := none, currentBlock := none }

/-- The MIR function lowering produces for `fn f() { return }`. -/
def mfRetVal : Mir.MirFunction Int :=
  { name := "f", params := [], returnType := Mir.MirType.void,
    arena := [{ instructions := [], terminator := Mir.Terminator.ret none,
                phiNodes := [] }],
    entry := 0 }

/-- The final lowering state for `pRetBody`. -/
def stRetVal : Lowering.LowSt Int :=
  { errors := [], functions := [mfRetVal], scopeStack := [],
    registerCursor := 0, currentFunction := none, currentBlock := none }

/-- The single-block MIR function used by the dominator witness. -/
def fDomW : Mir.MirFunction Int := Mir.MirFunction.new Int "f" [] Mir.MirType.void

/-- The CFG of `fDomW`. -/
def cfgDomW : Mir.CFGAnalysis :=
  { entry := 0, predecessors := [[]], successors := [[]] }

/-- C1 (amended). Folding soundness relative to the reference interpreter:
whenever the reference interpreter assigns a value to a closed expression
(no variables, no calls, and no division or modulo by zero along the way),
one pass of the simplification pass rewrites the expression to a literal
carrying exactly that value.  The original claim, which asks for a literal
on every closed expression, fails on `1 / 0` (see the counterexample). -/
theorem c1_constant_folding_sound {num : Type} (ops : NumOps num)
    (e : Hir.Expression num) (v : Hir.Val num)
    (h : Hir.referenceEval ops e = some v) :
    Hir.litVal (Hir.simpExpr ops e).1 = some v :=
  Hir.simpExpr_sound ops e v h

/-- Witness for C1 at the concrete expression `2 + 3` over `Int`. -/
theorem c1_constant_folding_sound_witness :
    Hir.referenceEval intOps ePlus23 = some (Hir.Val.num 5) ∧
      Hir.litVal (Hir.simpExpr intOps ePlus23).1 = some (Hir.Val.num 5) :=
  ⟨rfl, c1_constant_folding_sound intOps ePlus23 (Hir.Val.num 5) rfl⟩

/-- Counterexample to C1 as stated: `1 / 0` is closed, has no variable and
no call, yet the simplification pass leaves it untouched and produces no
literal (division by zero is deliberately not folded). -/
theorem c1_div_zero_not_folded_cex :
    Hir.hasVarOrCall eDivZero = false ∧
      Hir.litVal (Hir.simpExpr intOps eDivZero).1 = none ∧
      (Hir.simpExpr intOps eDivZero).1 = eDivZero :=
  ⟨rfl, rfl, rfl⟩

/-- C2 (amended). Terminator discipline after lowering, for programs whose
function bodies end with a `Return` statement: every block (in particular
every block reachable from the entry) of every produced `MirFunction` has
a terminator other than `Unreachable`.  The original claim, over all
programs accepted by the earlier passes, fails on `fn f() { }` whose entry
block keeps the `Unreachable` placeholder (see the counterexample). -/
theorem c2_lowering_reachable_terminated {num : Type} (ops : NumOps num)
    (p : Hir.Program num) (mp : Mir.MirProgram num) (stF : Lowering.LowSt num)
    (hret : ∀ f ∈ p.functions, Lowering.endsWithRet f.body.statements = true)
    (h : Lowering.lowerProgram ops p = some (mp, stF)) :
    ∀ mf ∈ mp.functions, ∀ i, Mir.Reaches mf i →
      ∀ b, mf.arena.get? i = some b →
        b.terminator ≠ Mir.Terminator.unreachable := by
  intro mf hmf i _ b hb
  exact Lowering.lowerProgram_allTerm ops p mp stF hret h mf hmf b (List.get?_mem hb)

/-- Witness for C2 at the concrete program `fn f() { return }` over `Int`. -/
theorem c2_lowering_reachable_terminated_witness :
    (∀ f ∈ pRetBody.functions, Lowering.endsWithRet f.body.statements = true) ∧
      (∀ mf ∈ ({ functions := [mfRetVal] } : Mir.MirProgram Int).functions,
        ∀ i, Mir.Reaches mf i → ∀ b, mf.arena.get? i = some b →
          b.terminator ≠ Mir.Terminator.unreachable) :=
  ⟨by decide,
   c2_lowering_reachable_terminated intOps pRetBody { functions := [mfRetVal] }
     stRetVal (by decide) rfl⟩

/-- Counterexample to C2 as stated: `fn f() { }` lexes, parses and
typechecks with no diagnostic, yet its lowered function's entry block —
reachable by definition — still carries the `Unreachable` placeholder. -/
theorem c2_empty_body_unreachable_cex :
    P.checkedErrors "fn f() \x7b \x7d" = some [] ∧
      Lowering.lowerProgram intOps pEmptyBody =
        some ({ functions := [mfEmptyVal] }, stEmptyVal) ∧
      Mir.Reaches mfEmptyVal mfEmptyVal.entry ∧
      (mfEmptyVal.arena.get? mfEmptyVal.entry).map (fun b => b.terminator) =
        some Mir.Terminator.unreachable :=
  ⟨rfl, rfl, Mir.Reaches.entry, rfl⟩

/-- C3 (amended). On `fn f() -> f64 { return true }` the typechecking pass
emits exactly one diagnostic: an unknown-variable error for `true` (lexed
as an identifier and parsed as a variable reference), and in particular no
return-type mismatch: the `Return` arm skips the mismatch check when the
returned expression's type is unknown. -/
theorem c3_return_true_unknown_variable :
    P.checkedErrors "fn f() -> f64 \x7b return true \x7d" =
      some [P.TCError.unknownVariable "true"] := rfl

/-- Counterexample to C3 as stated: the diagnostic list of that run
contains no return-type mismatch error. -/
theorem c3_no_return_mismatch_cex :
    (P.checkedErrors "fn f() -> f64 \x7b return true \x7d").map
      (fun es => es.any P.isReturnMismatch) = some false := rfl

/-- C4. The input `var x =`, whose declaration's right-hand-side
expression fails to parse, is nevertheless accepted: `parse` returns `Ok`
with a global `x` of inferred type and no initializer (the `Var` arm
converts the failed expression parse to `None` with `.ok()`), refuting
"parse never returns Ok on input containing a syntax error". -/
theorem c4_var_no_rhs_parse_ok :
    P.lexParse "var x =" =
      some (P.PRes.ok
        { globals := [P.Variable.mk "x" (Ty.base BaseType.auto) none],
          functions := [] }
        [⟨TokenType.eof, "", 0, 7⟩]) := rfl

/-- C5. Dominator invariants of `compute_dominators`: the entry dominates
itself exactly (`dom(entry) = {entry}`), every block is in its own
dominator set, the entry is in every block's dominator set, and for every
non-entry block with at least one predecessor the fixpoint equation
`dom(n) = {n} ∪ ⋂_p dom(p)` holds. -/
theorem c5_dominators_fixpoint {num : Type} (f : Mir.MirFunction num)
    (cfg : Mir.CFGAnalysis) (hcfg : Mir.cfgNew f = some cfg)
    (he : f.entry < f.arena.length) :
    (Mir.computeDominators f cfg).getD f.entry ∅ = {f.entry} ∧
      (∀ i < f.arena.length, i ∈ (Mir.computeDominators f cfg).getD i ∅) ∧
      (∀ i < f.arena.length, f.entry ∈ (Mir.computeDominators f cfg).getD i ∅) ∧
      (∀ i < f.arena.length, i ≠ f.entry →
        ∀ p0 rest, cfg.predecessors.getD i [] = p0 :: rest →
          (Mir.computeDominators f cfg).getD i ∅ =
            insert i (Mir.interFold (Mir.computeDominators f cfg) p0 rest)) := by
  obtain ⟨hinv, hfix⟩ := Mir.computeDominators_spec f cfg hcfg he
  refine ⟨hinv.entryEq, hinv.selfMem, hinv.entryMem, ?_⟩
  intro i hi hne p0 rest hpreds
  have hx := hfix i (List.mem_range.mpr hi)
  unfold Mir.updateNode at hx
  rw [if_neg hne, hpreds] at hx
  dsimp only at hx
  by_cases hc : insert i (Mir.interFold (Mir.computeDominators f cfg) p0 rest) =
      (Mir.computeDominators f cfg).getD i ∅
  · exact hc.symm
  · rw [if_neg hc] at hx
    have hcontr := congrArg Prod.snd hx
    simp at hcontr

/-- Witness for C5 at the one-block function `fDomW`. -/
theorem c5_dominators_fixpoint_witness :
    Mir.cfgNew fDomW = some cfgDomW ∧ fDomW.entry < fDomW.arena.length ∧
      ((Mir.computeDominators fDomW cfgDomW).getD fDomW.entry ∅ = {fDomW.entry} ∧
        (∀ i < fDomW.arena.length,
          i ∈ (Mir.computeDominators fDomW cfgDomW).getD i ∅) ∧
        (∀ i < fDomW.arena.length,
          fDomW.entry ∈ (Mir.computeDominators fDomW cfgDomW).getD i ∅) ∧
        (∀ i < fDomW.arena.length, i ≠ fDomW.entry →
          ∀ p0 rest, cfgDomW.predecessors.getD i [] = p0 :: rest →
            (Mir.computeDominators fDomW cfgDomW).getD i ∅ =
              insert i (Mir.interFold (Mir.computeDominators fDomW cfgDomW) p0 rest))) :=
  ⟨rfl, by decide, c5_dominators_fixpoint fDomW cfgDomW rfl (by decide)⟩

/-- C6. The AST simplification pass is idempotent: running it twice on any
program yields the same tree as running it once. -/
theorem c6_simplification_idempotent {num : Type} (ops : NumOps num)
    (p : Hir.Program num) :
    (Hir.simpProgram ops (Hir.simpProgram ops p).1).1 = (Hir.simpProgram ops p).1 :=
  Hir.simpProgram_idem ops p

/-- C7. The expression grammar follows the precedence table
`|| = 5, && = 6, == != < > <= >= = 10, + - = 20, * / % = 40`; every
successful expression parse is derivable by the left-associative
precedence climber (`Climb`, which recurses at `prec + 1` on a strictly
tighter than a binary operator); equal-or-lower precedence of the second operator
groups to the left, strictly higher precedence groups to the right, and
unary operators bind tighter than any binary operator. -/
theorem c7_precedence_climbing :
    (P.getPrecedence TokenType.orOp = 5 ∧ P.getPrecedence TokenType.andOp = 6 ∧
      P.getPrecedence TokenType.equal = 10 ∧ P.getPrecedence TokenType.notEqual = 10 ∧
      P.getPrecedence TokenType.less = 10 ∧ P.getPrecedence TokenType.greater = 10 ∧
      P.getPrecedence TokenType.lessEqual = 10 ∧
      P.getPrecedence TokenType.greaterEqual = 10 ∧
      P.getPrecedence TokenType.plus = 20 ∧ P.getPrecedence TokenType.minus = 20 ∧
      P.getPrecedence TokenType.star = 40 ∧ P.getPrecedence TokenType.slash = 40 ∧
      P.getPrecedence TokenType.percent = 40) ∧
    (∀ (fuel : Nat) (ts : List Token) (e : P.Expr) (rest : List Token),
      P.parseExpression fuel ts = P.PRes.ok e rest →
        ∃ (f : Nat) (lhs : P.Expr) (ts2 : List Token),
          P.parseUnary f ts = P.PRes.ok lhs ts2 ∧ P.Climb 0 lhs ts2 e rest) ∧
    (∀ ta tb tc op1 op2 : Token, ta.tag = TokenType.identifier →
      tb.tag = TokenType.identifier → tc.tag = TokenType.identifier →
      0 ≤ P.getPrecedence op1.tag → 0 ≤ P.getPrecedence op2.tag →
      P.getPrecedence op2.tag ≤ P.getPrecedence op1.tag →
      P.parseExpression 9 [ta, op1, tb, op2, tc] =
        P.PRes.ok (P.Expr.binaryOp
          (P.Expr.binaryOp (P.Expr.varRef ta.lexeme) op1 (P.Expr.varRef tb.lexeme))
          op2 (P.Expr.varRef tc.lexeme)) []) ∧
    (∀ ta tb tc op1 op2 : Token, ta.tag = TokenType.identifier →
      tb.tag = TokenType.identifier → tc.tag = TokenType.identifier →
      0 ≤ P.getPrecedence op1.tag →
      P.getPrecedence op1.tag < P.getPrecedence op2.tag →
      P.parseExpression 9 [ta, op1, tb, op2, tc] =
        P.PRes.ok (P.Expr.binaryOp (P.Expr.varRef ta.lexeme) op1
          (P.Expr.binaryOp (P.Expr.varRef tb.lexeme) op2 (P.Expr.varRef tc.lexeme)))
          []) ∧
    (∀ tu ta tb op : Token,
      tu.tag = TokenType.plus ∨ tu.tag = TokenType.minus ∨
        tu.tag = TokenType.bang →
      ta.tag = TokenType.identifier → tb.tag = TokenType.identifier →
      0 ≤ P.getPrecedence op.tag →
      P.parseExpression 9 [tu, ta, op, tb] =
        P.PRes.ok (P.Expr.binaryOp (P.Expr.unaryOp (P.Expr.varRef ta.lexeme) tu) op
          (P.Expr.varRef tb.lexeme)) []) :=
  ⟨⟨rfl, rfl, rfl, rfl, rfl, rfl, rfl, rfl, rfl, rfl, rfl, rfl, rfl⟩,
   P.parseExpression_climb, P.parse_binop_left, P.parse_binop_right,
   P.parse_unary_tighter⟩

/-- C8. A binary node whose operands are number literals with `/` or `%`
and right literal equal to zero: the simplification pass records exactly
one warning carrying the operator token's source position, the folded-node
count is unchanged, and the node is left intact (it is neither folded nor
rewritten by an algebraic identity; the hypothesis that the right literal
differs from one rules out the `x / 1` identity). -/
theorem c8_div_mod_zero_warn_unfolded {num : Type} (ops : NumOps num)
    (a b : num) (op : Token) (sa sb span : Span) (ta tb typ : Option Ty)
    (hz : ops.beq b ops.zero = true) (ho : ops.beq b ops.one = false)
    (hop : op.tag = TokenType.slash ∨ op.tag = TokenType.percent) :
    Hir.simpExpr ops (Hir.Expression.binaryOp (Hir.Expression.number a sa ta) op
        (Hir.Expression.number b sb tb) span typ) =
      (Hir.Expression.binaryOp (Hir.Expression.number a sa ta) op
        (Hir.Expression.number b sb tb) span typ, [(op.row, op.column)], 0) := by
  show Hir.nodePost ops (Hir.Expression.binaryOp (Hir.Expression.number a sa ta) op
      (Hir.Expression.number b sb tb) span typ) ([] ++ []) (0 + 0) = _
  rcases hop with hop | hop <;>
    simp [Hir.nodePost, Hir.tryConstantFold, Hir.evalBinop, Hir.evalBinopToBoolNumber,
      Hir.tryAlgebraicSimplify, Hir.isCommutativeTag, Hir.isConstExpr,
      Hir.algAfterSwap, Hir.sameVar, Hir.algBinTail, Hir.identityStep,
      Hir.doubleNegStep, hop, hz, ho]

/-- Witness for C8 at `7 / 0` over `Int` with the operator at row 2,
column 5. -/
theorem c8_div_mod_zero_warn_unfolded_witness :
    intOps.beq 0 intOps.zero = true ∧ intOps.beq 0 intOps.one = false ∧
      Hir.simpExpr intOps (Hir.Expression.binaryOp
          (Hir.Expression.number 7 sp00 none) ⟨TokenType.slash, "/", 2, 5⟩
          (Hir.Expression.number 0 sp00 none) sp00 none) =
        (Hir.Expression.binaryOp (Hir.Expression.number 7 sp00 none)
          ⟨TokenType.slash, "/", 2, 5⟩ (Hir.Expression.number 0 sp00 none) sp00 none,
         [(2, 5)], 0) :=
  ⟨rfl, rfl,
   c8_div_mod_zero_warn_unfolded intOps 7 0 ⟨TokenType.slash, "/", 2, 5⟩
     sp00 sp00 sp00 none none none rfl rfl (Or.inl rfl)⟩

/-- C9. The parser does produce an assignment with no declared type and no
right-hand side (its identifier-assignment arm swallows the failed
expression parse with `.ok()`), and on such a statement the typechecker's
reassignment branch reaches `unreachable!`: on `fn f(x: f64) { x = }` the
parse returns `Ok` and the typechecking pass panics. -/
theorem c9_assign_no_rhs_typecheck_panics :
    (P.lexParse "fn f(x: f64) \x7b x = \x7d").map P.presIsOk = some true ∧
      P.lexParseCheck "fn f(x: f64) \x7b x = \x7d" = some (Except.error ()) :=
  ⟨rfl, rfl⟩

/-- C10 (amended). The scanning loop of the lexer always terminates: with
the fuel `lex` supplies, the loop always yields a result (a token list, a
`LexError`, or the byte-slice panic).  The original claim's dichotomy
"advance by a character or return a LexError/token list" fails on a
multi-byte whitespace character, where the cursor advances by one byte
into the middle of the character and the next slice panics (see the
counterexample). -/
theorem c10_lexer_terminates (input : List Char) : Lexer.lex input ≠ none :=
  Lexer.lex_no_out input

/-- Counterexample to C10 as stated: on the single non-breaking-space
character U+00A0 (Unicode whitespace, two bytes in UTF-8) the lexer
neither returns a `LexError` nor a token list: it panics slicing at a
non-character-boundary after advancing one byte. -/
theorem c10_nbsp_panic_cex :
    Lexer.lexStr "\u00A0" = some Lexer.LexResult.panic := rfl

end Iris
